import Mathlib

/-!
`manchester_decode` and `PrintPaddedManchester` of `client/ui.c`.

A shallow embedding of the two routines of `client/ui.c` that work on sample
traces, followed by theorems about them.

Conventions of the embedding.

* A trace `const uint8_t *data` of `len` bytes is a `List Nat`; `data[i]` is
  `sample data i`.
* The working buffer `uint8_t bitStream[len]` is a `List Nat` of length `len`,
  zeroed by `memset`; a store is `List.set`, a load is `List.getD _ _ 0`.
* Lengths are assumed to be below `2^31`, so that no C `int` overflows; the
  `int` and `size_t` variables are natural numbers here, and the difference
  `lc - clock/2` inside `abs` is taken in `Int`. The `uint8_t` variables
  `mod` and `div` of the presenter are reduced modulo `256`.
* Every loop is a structural recursion on the number of iterations that are
  left (`fuel`); the loop index is carried along explicitly.
* Every access to `bitStream`, and every access to `data` in the clock scan,
  the window path and the walk (`data[i-1]`, `data[i]`, `data[i*clock+j]`),
  updates a sticky flag `ok` which is `true` as long as all indices used so
  far were inside `0..len-1`. The flag never influences the computation. The
  level loop and the two loops of "Detect first transition" read `data[i]`
  under their own guard `i < bytelength`.
* `PrintAndLog` calls of `manchester_decode` only report progress and are left
  out; the three `return 0` exits are kept apart by `Abort`.
* The local `invert` is set to `0` at line 108 and never assigned again; the
  function has no parameter for it. The loops that read the variable
  (`bit ^ invert`, `1 ^ invert`, `0 ^ invert`) are embedded with its value as
  an argument, and `manchester_decode` runs them with `invert = 0`.
* `bitStream` is a variable-length array of the function (line 99), not
  memory obtained from `malloc`. On the only path that reaches the end of the
  function, `free(bitStream)` (line 266) is called before `return bit2idx`:
  the behaviour of the call is undefined from that statement on. The
  embedding keeps what happened before it (the bytes `memcpy` stored, the
  index flag) and ascribes no return value to that path: `Result.ret` is
  `none` there, and `some 0` at the three `return 0` exits, which are taken
  before line 266.
-/

namespace UI

/-- The byte `data[i]`. -/
def sample (data : List Nat) (i : Nat) : Nat := data.getD i 0

/-- The three exits `return 0` of `manchester_decode`, in source order. -/
inductive Abort where
  | clockWrong
  | detectionErrors
  | decodeErrors
deriving DecidableEq, Repr

/-- Result of running a loop body that may leave the function: either the
function returned early (with the index flag at that moment) or the loop
goes on with a new state. -/
inductive Step (σ : Type) where
  | abort (why : Abort) (ok : Bool) : Step σ
  | cont (st : σ) : Step σ
deriving DecidableEq, Repr

/-! ## Detect high and lows (lines 107-117) -/

/-- One iteration of the level loop on the pair `(high, low)`. -/
def levelStep (hl : Nat × Nat) (x : Nat) : Nat × Nat :=
  if x > hl.1 then (x, hl.2) else if x < hl.2 then (hl.1, x) else hl

/-- The level loop: `high = 1`, `low = 0`, then one pass over the trace. -/
def detectLevels (data : List Nat) : Nat × Nat :=
  data.foldl levelStep (1, 0)

/-! ## Get clock (lines 109, 119-134) -/

/-- State of the clock scan. -/
structure ClockScan where
  clock : Nat
  lastpeak : Nat
  ok : Bool
deriving DecidableEq, Repr

/-- Body of the clock loop at index `i`. -/
def clockStep (data : List Nat) (high i : Nat) (c : ClockScan) : ClockScan :=
  let ok := c.ok && decide (1 ≤ i ∧ i < data.length)
  if sample data (i - 1) ≠ sample data i ∧ sample data i = high then
    { clock := if c.lastpeak ≠ 0 ∧ i - c.lastpeak < c.clock then i - c.lastpeak else c.clock
      lastpeak := i
      ok := ok }
  else { c with ok := ok }

/-- The clock loop `for (i = 1; i < bytelength; i++)`; `fuel` iterations left. -/
def clockLoop (data : List Nat) (high : Nat) : Nat → Nat → ClockScan → ClockScan
  | 0, _, c => c
  | fuel + 1, i, c => clockLoop data high fuel (i + 1) (clockStep data high i c)

/-- The clock scan of the whole trace, starting from `clock = 0xFFFF`. -/
def detectClock (data : List Nat) (high : Nat) : ClockScan :=
  clockLoop data high (data.length - 1) 1 { clock := 0xFFFF, lastpeak := 0, ok := true }

/-! ## Detect first transition (lines 137-150) -/

/-- The loop `for (i = 0; i < bytelength; i++) if (data[i] == high) break;`
started at `i` with `fuel` iterations left; the result is the final `i`. -/
def skipToHigh (data : List Nat) (high : Nat) : Nat → Nat → Nat
  | 0, i => i
  | fuel + 1, i => if sample data i = high then i else skipToHigh data high fuel (i + 1)

/-- The loop that looks for the first low from `i` on; the result is the
final `(i, lastval)`. -/
def findLow (data : List Nat) (low : Nat) : Nat → Nat → Nat × Nat
  | 0, i => (i, 0)
  | fuel + 1, i => if sample data i = low then (i, i) else findLow data low fuel (i + 1)

/-- Both loops: the final `(i, lastval)` of "Detect first transition". -/
def firstTransition (data : List Nat) (high low : Nat) : Nat × Nat :=
  let i := skipToHigh data high data.length 0
  findLow data low (data.length - i) i

/-! ## Window path, `high != 1` (lines 153-190) -/

/-- The flags of the inner window loop. -/
structure Hits where
  hithigh : Bool
  hitlow : Bool
  first : Bool
  ok : Bool
deriving DecidableEq, Repr

/-- Body of the inner loop for the sample at index `idx`, up to the `break`
test. -/
def hitStep (data : List Nat) (high low idx : Nat) (h : Hits) : Hits :=
  let x := sample data idx
  let hh := if x = high then true else h.hithigh
  let hl := if x = high then h.hitlow else if x = low then true else h.hitlow
  let ok := h.ok && decide (idx < data.length)
  if h.first && (hh || hl) then { hithigh := false, hitlow := false, first := true, ok := ok }
  else { hithigh := hh, hitlow := hl, first := false, ok := ok }

/-- The inner loop `for (j = 0; j < clock; j++)` over the window that starts
at sample `base`; `fuel` iterations left. -/
def windowScan (data : List Nat) (high low base : Nat) : Nat → Nat → Hits → Hits
  | 0, _, h => h
  | fuel + 1, j, h =>
    let h1 := hitStep data high low (base + j) h
    if h1.hithigh && h1.hitlow then h1 else windowScan data high low base fuel (j + 1) h1

/-- State of the outer window loop. -/
structure Win where
  bit : Nat
  bit2idx : Nat
  bitStream : List Nat
  ok : Bool
deriving DecidableEq, Repr

/-- Body of the outer window loop for window number `i`. -/
def windowStep (data : List Nat) (high low clock invert i : Nat) (w : Win) : Win :=
  let h := windowScan data high low (i * clock) clock 0
    { hithigh := false, hitlow := false, first := true, ok := w.ok }
  let bit := if !h.hithigh || !h.hitlow then w.bit ^^^ 1 else w.bit
  { bit := bit
    bit2idx := w.bit2idx + 1
    bitStream := w.bitStream.set w.bit2idx (bit ^^^ invert)
    ok := h.ok && decide (w.bit2idx < data.length) }

/-- The outer loop `for (; i < (int)(bytelength / clock); i++)`. -/
def windowLoop (data : List Nat) (high low clock invert : Nat) : Nat → Nat → Win → Win
  | 0, _, w => w
  | fuel + 1, i, w =>
    windowLoop data high low clock invert fuel (i + 1) (windowStep data high low clock invert i w)

/-! ## Pulse-width path, `high == 1` (lines 192-227) -/

/-- The three branches of the pulse-width test. -/
inductive Pulse where
  | short
  | long
  | anomaly
deriving DecidableEq, Repr

/-- The test on `lc`: `abs(lc-clock/2) < tolerance`, else
`abs(lc-clock) < tolerance`, else error, with `tolerance = clock/4`. -/
def classify (clock : Nat) (lc : Int) : Pulse :=
  if Int.natAbs (lc - ((clock / 2 : Nat) : Int)) < clock / 4 then Pulse.short
  else if Int.natAbs (lc - (clock : Int)) < clock / 4 then Pulse.long
  else Pulse.anomaly

/-- State of the pulse-width walk. -/
structure Walk where
  lastval : Nat
  bitidx : Nat
  warnings : Nat
  bitStream : List Nat
  ok : Bool
deriving DecidableEq, Repr

/-- Body of the walk at index `i`. -/
def walkStep (data : List Nat) (clock i : Nat) (w : Walk) : Step Walk :=
  let ok := w.ok && decide (1 ≤ i ∧ i < data.length)
  if sample data (i - 1) ≠ sample data i then
    let lc : Int := (i : Int) - (w.lastval : Int)
    if data.length * 2 / clock + 8 < w.bitidx then Step.abort Abort.clockWrong ok
    else
      match classify clock lc with
      | Pulse.short =>
        Step.cont
          { lastval := i
            bitidx := w.bitidx + 1
            warnings := w.warnings
            bitStream := w.bitStream.set w.bitidx (sample data (i - 1))
            ok := ok && decide (w.bitidx < data.length) }
      | Pulse.long =>
        Step.cont
          { lastval := i
            bitidx := w.bitidx + 2
            warnings := w.warnings
            bitStream :=
              (w.bitStream.set w.bitidx (sample data (i - 1))).set (w.bitidx + 1)
                (sample data (i - 1))
            ok := ok && decide (w.bitidx + 1 < data.length) }
      | Pulse.anomaly =>
        if w.warnings + 1 > 10 then Step.abort Abort.detectionErrors ok
        else Step.cont { w with lastval := i, warnings := w.warnings + 1, ok := ok }
  else Step.cont { w with ok := ok }

/-- The walk `for (bitidx = 1; i < bytelength; i++)`; `fuel` iterations left. -/
def walkLoop (data : List Nat) (clock : Nat) : Nat → Nat → Walk → Step Walk
  | 0, _, w => Step.cont w
  | fuel + 1, i, w =>
    match walkStep data clock i w with
    | Step.abort why ok => Step.abort why ok
    | Step.cont w1 => walkLoop data clock fuel (i + 1) w1

/-! ## Pairing loop (lines 228-249) -/

/-- State of the pairing loop. -/
structure Pairing where
  bit2idx : Nat
  warnings : Nat
  bitStream : List Nat
  ok : Bool
deriving DecidableEq, Repr

/-- Body of the pairing loop at cursor `i`: the new cursor value before the
`i += 2` of the loop header, and the new state. The second load
`bitStream[i+1]` happens only when the first is `0` or `1`. -/
def pairStep (len invert i : Nat) (p : Pairing) : Step (Nat × Pairing) :=
  let a := p.bitStream.getD i 0
  let b := p.bitStream.getD (i + 1) 0
  let ok := p.ok && decide (i < len) && (decide (i + 1 < len) || !(a = 0 || a = 1))
  if a = 0 ∧ b = 1 then
    Step.cont (i,
      { bit2idx := p.bit2idx + 1
        warnings := p.warnings
        bitStream := p.bitStream.set p.bit2idx (1 ^^^ invert)
        ok := ok && decide (p.bit2idx < len) })
  else if a = 1 ∧ b = 0 then
    Step.cont (i,
      { bit2idx := p.bit2idx + 1
        warnings := p.warnings
        bitStream := p.bitStream.set p.bit2idx (0 ^^^ invert)
        ok := ok && decide (p.bit2idx < len) })
  else if p.warnings + 1 > 10 then Step.abort Abort.decodeErrors ok
  else Step.cont (i + 1, { p with warnings := p.warnings + 1, ok := ok })

/-- The loop `for (i = 0; i < bitidx; i += 2)`. Every iteration moves the
cursor by at least two, so `bitidx` units of fuel are never used up. -/
def pairLoop (len invert bitidx : Nat) : Nat → Nat → Pairing → Step Pairing
  | 0, _, p => Step.cont p
  | fuel + 1, i, p =>
    if i < bitidx then
      match pairStep len invert i p with
      | Step.abort why ok => Step.abort why ok
      | Step.cont (i1, p1) => pairLoop len invert bitidx fuel (i1 + 2) p1
    else Step.cont p

/-! ## The whole function -/

/-- What the caller of `manchester_decode` observes: the value of the
`return` statement that was executed (`none` when the end of the function is
reached through `free(bitStream)`, see the conventions above), the bytes
stored into `dataout` (none when `memcpy` was not reached or not executed),
and whether every index used was in range. -/
structure Result where
  ret : Option Nat
  dataout : List Nat
  inBounds : Bool
deriving DecidableEq, Repr

/-- The value of `high` after the level loop. -/
def highOf (data : List Nat) : Nat := (detectLevels data).1

/-- The value of `low` after the level loop. -/
def lowOf (data : List Nat) : Nat := (detectLevels data).2

/-- The value of `clock` after the clock loop. -/
def clockOf (data : List Nat) : Nat := (detectClock data (highOf data)).clock

/-- The value of `i` after "Detect first transition". -/
def startOf (data : List Nat) : Nat := (firstTransition data (highOf data) (lowOf data)).1

/-- The value of `lastval` after "Detect first transition". -/
def lastvalOf (data : List Nat) : Nat := (firstTransition data (highOf data) (lowOf data)).2

/-- The window path run on a trace: the outer loop from window number
`startOf data` up to `len / clock`. -/
def windowPath (invert : Nat) (data : List Nat) : Win :=
  windowLoop data (highOf data) (lowOf data) (clockOf data) invert
    (data.length / clockOf data - startOf data) (startOf data)
    { bit := 0, bit2idx := 0, bitStream := List.replicate data.length 0,
      ok := (detectClock data (highOf data)).ok }

/-- The pulse-width walk run on a trace: `bitidx = 1`, index from
`startOf data` up to `len`. -/
def pulseWalk (data : List Nat) : Step Walk :=
  walkLoop data (clockOf data) (data.length - startOf data) (startOf data)
    { lastval := lastvalOf data, bitidx := 1, warnings := 0,
      bitStream := List.replicate data.length 0,
      ok := (detectClock data (highOf data)).ok }

/-- Everything up to the end of the pairing loop: the final
`(bit2idx, warnings, bitStream, ok)` or an early `return 0`. In the window
path `bitidx` is still `0` when the pairing loop is reached. The argument
`invert` is the value of the local variable of that name. -/
def decodeLoops (invert : Nat) (data : List Nat) : Step Pairing :=
  if highOf data ≠ 1 then
    let w := windowPath invert data
    pairLoop data.length invert 0 0 0
      { bit2idx := w.bit2idx, warnings := 0, bitStream := w.bitStream, ok := w.ok }
  else
    match pulseWalk data with
    | Step.abort why ok => Step.abort why ok
    | Step.cont w =>
      pairLoop data.length invert w.bitidx w.bitidx 0
        { bit2idx := 0, warnings := w.warnings, bitStream := w.bitStream, ok := w.ok }

/-- The function `manchester_decode`: the loops with `invert = 0`; `return 0`
at an early exit; otherwise `memcpy` of `bit2idx` bytes when `bit2idx > 0`,
then `free(bitStream)` on the array of line 99, after which no return value
is defined. -/
def manchester_decode (data : List Nat) : Result :=
  match decodeLoops 0 data with
  | Step.abort _ ok => { ret := some 0, dataout := [], inBounds := ok }
  | Step.cont p =>
    { ret := none
      dataout := if p.bit2idx > 0 then p.bitStream.take p.bit2idx else []
      inBounds := p.ok }

/-! ## Counting the anomalies of a trace

These functions are not in the source. They follow the same loops without the
two caps, to name the quantities the warning counter is compared with. -/

/-- The intervals `lc = i - lastval` met by a walk over `fuel` indices from
`i` on that nothing stops, in order. -/
def walkIntervals (data : List Nat) : Nat → Nat → Nat → List Int
  | 0, _, _ => []
  | fuel + 1, i, lastval =>
    if sample data (i - 1) ≠ sample data i then
      ((i : Int) - (lastval : Int)) :: walkIntervals data fuel (i + 1) i
    else walkIntervals data fuel (i + 1) lastval

/-- The inter-transition intervals of a trace as the pulse-width walk measures
them: from the start point to the end of the trace. -/
def measuredIntervals (data : List Nat) : List Int :=
  walkIntervals data (data.length - startOf data) (startOf data) (lastvalOf data)

/-- The number of measured intervals that are outside both tolerance bands. -/
def widthAnomalies (data : List Nat) : Nat :=
  (measuredIntervals data).countP (fun lc => decide (classify (clockOf data) lc = Pulse.anomaly))

/-- The number of pairs that are neither `(0,1)` nor `(1,0)` met by the pairing
cursor on the symbols `bs` from cursor `i` on, the cursor moving by two after
a good pair and by three after a bad one. -/
def pairFaults (bs : List Nat) (bitidx : Nat) : Nat → Nat → Nat
  | 0, _ => 0
  | fuel + 1, i =>
    if i < bitidx then
      if (bs.getD i 0 = 0 ∧ bs.getD (i + 1) 0 = 1) ∨ (bs.getD i 0 = 1 ∧ bs.getD (i + 1) 0 = 0) then
        pairFaults bs bitidx fuel (i + 2)
      else 1 + pairFaults bs bitidx fuel (i + 3)
    else 0

/-- The number of rising events among the indices `i .. i + fuel - 1`: samples
equal to `high` whose predecessor is not equal to `high`. -/
def risingCount (data : List Nat) (high : Nat) : Nat → Nat → Nat
  | 0, _ => 0
  | fuel + 1, i =>
    (if sample data i = high ∧ sample data (i - 1) ≠ high then 1 else 0) +
      risingCount data high fuel (i + 1)

/-- The number of rising events of a trace; index `0` has no predecessor. -/
def risingEvents (data : List Nat) : Nat :=
  risingCount data (highOf data) (data.length - 1) 1

/-- A trace with one rising event: `1, 0`, then `n` samples `1`, then `0`. -/
def longRunTrace (n : Nat) : List Nat := 1 :: 0 :: (List.replicate n 1 ++ [0])

/-- The trace `longRunTrace` with a run of 16385 samples; it has 16388
samples. -/
def sentinelTrace : List Nat := longRunTrace 16385

/-! ## Synthetic noise-free traces

Not in the source: the traces of the round-trip property, built with the
pairing convention of the decoder. -/

/-- The two half-bit symbols of a bit: `1` is low-then-high `(0,1)`, `0` is
high-then-low `(1,0)`. -/
def encodeBit (b : Nat) : List Nat := if b = 1 then [0, 1] else [1, 0]

/-- The half-bit symbols of a bit pattern. -/
def encodeBits : List Nat → List Nat
  | [] => []
  | b :: bits => encodeBit b ++ encodeBits bits

/-- Every symbol held for `h` samples. -/
def holdSamples (h : Nat) : List Nat → List Nat
  | [] => []
  | x :: syms => List.replicate h x ++ holdSamples h syms

/-- The noise-free trace of a bit pattern with `h` samples per half bit, that
is with clock period `2 * h`. -/
def manchesterTrace (h : Nat) (bits : List Nat) : List Nat :=
  holdSamples h (encodeBits bits)

/-- The symbols of a framed pattern: the two bits `1, 1`, the pattern, and one
closing symbol at the level opposite to the last half bit. -/
def framedSymbols (bits : List Nat) : List Nat :=
  encodeBits (1 :: 1 :: bits) ++ [1 - (encodeBits (1 :: 1 :: bits)).getLastD 0]

/-- The noise-free trace of a framed pattern with `h` samples per half bit. -/
def framedTrace (h : Nat) (bits : List Nat) : List Nat :=
  holdSamples h (framedSymbols bits)

/-- The working buffer of a walk state holds, in cells `1 .. bitidx - 1`, the
symbols `syms[2] ..` in order, and zero elsewhere. -/
def SymbolsWritten (syms : List Nat) (len : Nat) (w : Walk) : Prop :=
  w.bitStream.length = len ∧
  ∀ idx, w.bitStream.getD idx 0 = if 1 ≤ idx ∧ idx < w.bitidx then syms.getD (idx + 1) 0 else 0

/-! ## The samples of a window

Not in the source: the samples a window offers to the inner loop, and the
part of them that can be counted. -/

/-- The samples `data[base + j] ..` that `fuel` iterations of the inner window
loop can read from `j` on. -/
def samplesFrom (data : List Nat) (base : Nat) : Nat → Nat → List Nat
  | 0, _ => []
  | fuel + 1, j => sample data (base + j) :: samplesFrom data base fuel (j + 1)

/-- The `clock` samples of the window that starts at sample `base`. -/
def windowSamples (data : List Nat) (base clock : Nat) : List Nat :=
  samplesFrom data base clock 0

/-- The samples of a window left after the leading samples that are equal to
`high` or to `low` are taken away: the list starts at the first sample that
is neither. -/
def afterCarry (high low : Nat) (ws : List Nat) : List Nat :=
  ws.dropWhile (fun x => decide (x = high ∨ x = low))

/-! ## Rising events and their distances

Not in the source: the rising events of the description of the clock, as a
list of indices, and the distances between neighbours. -/

/-- The indices of the rising events among `i .. i + fuel - 1`, in order. -/
def risingIndices (data : List Nat) (high : Nat) : Nat → Nat → List Nat
  | 0, _ => []
  | fuel + 1, i =>
    if sample data i = high ∧ sample data (i - 1) ≠ high then
      i :: risingIndices data high fuel (i + 1)
    else risingIndices data high fuel (i + 1)

/-- The distances between neighbours of a list of indices, the first one
measured from `prev`. -/
def gapsFrom (prev : Nat) : List Nat → List Nat
  | [] => []
  | x :: xs => (x - prev) :: gapsFrom x xs

/-- The distances between neighbours of a list of indices. -/
def gaps : List Nat → List Nat
  | [] => []
  | x :: xs => gapsFrom x xs

/-- The distances between consecutive rising events of a trace. -/
def risingGaps (data : List Nat) : List Nat :=
  gaps (risingIndices data (highOf data) (data.length - 1) 1)

/-- A trace with two rising events, `n + 1` samples apart: `0, 1`, then `n`
samples `0`, then `1`. -/
def wideGapTrace (n : Nat) : List Nat := 0 :: 1 :: (List.replicate n 0 ++ [1])

/-! ## A trace of narrow long pulses

Not in the source: one sample high, three runs of 4 samples (which set the
clock to 8), 38 runs of 7 samples, and one closing sample; 280 samples. -/

/-- The trace `1`, `0 x 4`, `1 x 4`, `0 x 4`, then 19 times `1 x 7, 0 x 7`,
then `1`. -/
def runawayTrace : List Nat :=
  1 :: (holdSamples 4 [0, 1, 0] ++ holdSamples 7 (List.replicate 19 [1, 0]).flatten ++ [1])

/-! ## Pairing as described, and pairing from a copy

Not in the source. `pairSymbols` follows the description of the pairing pass;
`pairLoopCopy` is the pairing loop of the source with its loads taken from a
buffer that is never written. -/

/-- The symbols the walk appended: the cells `1 .. bitidx - 1` of the working
buffer. -/
def appendedSymbols (w : Walk) : List Nat := (w.bitStream.take w.bitidx).drop 1

/-- Pairing of a list of symbols from its first symbol on: `(0,1)` gives `1`,
`(1,0)` gives `0`, another pair gives nothing and the next pair starts three
symbols further instead of two; a symbol without partner is in no pair. -/
def pairSymbolsFrom : Nat → List Nat → List Nat
  | 0, _ => []
  | fuel + 1, a :: b :: rest =>
    if a = 0 ∧ b = 1 then 1 :: pairSymbolsFrom fuel rest
    else if a = 1 ∧ b = 0 then 0 :: pairSymbolsFrom fuel rest
    else pairSymbolsFrom fuel (rest.drop 1)
  | _ + 1, _ => []

/-- Pairing of a list of symbols as described. -/
def pairSymbols (syms : List Nat) : List Nat := pairSymbolsFrom syms.length syms

/-- Body of the pairing loop with the loads taken from `src`, which is never
written, and the decoded bits appended to `out`: the new cursor before the
`i += 2`, the new `out` and `warnings`; `none` is the exit `return 0`. -/
def pairStepCopy (src : List Nat) (invert i : Nat) (out : List Nat) (warnings : Nat) :
    Option (Nat × List Nat × Nat) :=
  let a := src.getD i 0
  let b := src.getD (i + 1) 0
  if a = 0 ∧ b = 1 then some (i, out ++ [1 ^^^ invert], warnings)
  else if a = 1 ∧ b = 0 then some (i, out ++ [0 ^^^ invert], warnings)
  else if warnings + 1 > 10 then none
  else some (i + 1, out, warnings + 1)

/-- The pairing loop with the loads taken from `src`. -/
def pairLoopCopy (src : List Nat) (invert bitidx : Nat) :
    Nat → Nat → List Nat → Nat → Option (List Nat × Nat)
  | 0, _, out, warnings => some (out, warnings)
  | fuel + 1, i, out, warnings =>
    if i < bitidx then
      match pairStepCopy src invert i out warnings with
      | none => none
      | some (i1, out1, w1) => pairLoopCopy src invert bitidx fuel (i1 + 2) out1 w1
    else some (out, warnings)

/-! ## Relating the two polarities -/

/-- Two working buffers of which the first `k` cells hold complementary bits
and the other cells are equal. -/
def BufRel (k : Nat) (b0 b1 : List Nat) : Prop :=
  b0.length = b1.length ∧
  (∀ j, j < k → j < b0.length → b0.getD j 0 ≤ 1 ∧ b1.getD j 0 = 1 - b0.getD j 0) ∧
  (∀ j, k ≤ j → b1.getD j 0 = b0.getD j 0)

/-- A line handed to `PrintAndLog`: the line with the bit count, or a line
with the text `sprint_bin` made of a block. -/
inductive LogLine (α : Type) where
  | count (n : Nat) : LogLine α
  | block (text : α) : LogLine α
deriving DecidableEq, Repr

/-- The bytes `sprint_bin(bitStream + i, n)` reads. -/
def slice (bitStream : List Nat) (i n : Nat) : List Nat := (bitStream.drop i).take n

/-- The loop `for (i = 0; i < div*blocksize; i += blocksize)`: the lines it
prints and the final `i`. The index grows by `blocksize` per iteration. -/
def blockLoop {α : Type} (sprint_bin : List Nat → α) (bitStream : List Nat)
    (blocksize limit : Nat) : Nat → Nat → List (LogLine α) × Nat
  | 0, i => ([], i)
  | fuel + 1, i =>
    if i < limit then
      let r := blockLoop sprint_bin bitStream blocksize limit fuel (i + blocksize)
      (LogLine.block (sprint_bin (slice bitStream i blocksize)) :: r.1, r.2)
    else ([], i)

/-- The function `PrintPaddedManchester`: all lines it hands to
`PrintAndLog`, in order. `mod` and `div` are `uint8_t`. The formatter
`sprint_bin` is not part of `ui.c` and is a parameter. -/
def PrintPaddedManchester {α : Type} (sprint_bin : List Nat → α) (bitStream : List Nat)
    (len blocksize : Nat) : List (LogLine α) :=
  let mod := len % blocksize % 256
  let div := len / blocksize % 256
  let r := blockLoop sprint_bin bitStream blocksize (div * blocksize) (div * blocksize) 0
  LogLine.count len :: r.1 ++
    (if mod > 0 then [LogLine.block (sprint_bin (slice bitStream r.2 mod))] else [])

/-! ## Level loop -/

theorem foldl_levelStep_zero (data : List Nat) (h : Nat) :
    (data.foldl levelStep (h, 0)).2 = 0 ∧
    h ≤ (data.foldl levelStep (h, 0)).1 ∧
    (∀ x ∈ data, x ≤ (data.foldl levelStep (h, 0)).1) ∧
    ((data.foldl levelStep (h, 0)).1 = h ∨ (data.foldl levelStep (h, 0)).1 ∈ data) := by
  induction data generalizing h with
  | nil => simp
  | cons x xs ih =>
    have hstep : levelStep (h, 0) x = (if x > h then x else h, 0) := by
      unfold levelStep
      by_cases hx : x > h <;> simp [hx]
    simp only [List.foldl_cons, hstep]
    obtain ⟨h1, h2, h3, h4⟩ := ih (if x > h then x else h)
    by_cases hx : x > h
    · simp only [hx, if_true] at h2 h4 h1 h3 ⊢
      refine ⟨h1, by omega, ?_, ?_⟩
      · intro y hy
        rcases List.mem_cons.1 hy with rfl | hy
        · exact h2
        · exact h3 y hy
      · rcases h4 with h4 | h4
        · right; rw [h4]; exact List.mem_cons_self _ _
        · right; exact List.mem_cons_of_mem _ h4
    · simp only [hx, if_false] at h2 h4 h1 h3 ⊢
      refine ⟨h1, h2, ?_, ?_⟩
      · intro y hy
        rcases List.mem_cons.1 hy with rfl | hy
        · omega
        · exact h3 y hy
      · rcases h4 with h4 | h4
        · left; exact h4
        · right; exact List.mem_cons_of_mem _ h4

theorem lowOf_eq_zero (data : List Nat) : lowOf data = 0 :=
  (foldl_levelStep_zero data 1).1

theorem highOf_pos (data : List Nat) : 1 ≤ highOf data :=
  (foldl_levelStep_zero data 1).2.1

theorem le_highOf (data : List Nat) : ∀ x ∈ data, x ≤ highOf data :=
  (foldl_levelStep_zero data 1).2.2.1

theorem highOf_eq_one_or_mem (data : List Nat) : highOf data = 1 ∨ highOf data ∈ data :=
  (foldl_levelStep_zero data 1).2.2.2

theorem highOf_eq_one_iff (data : List Nat) : highOf data = 1 ↔ ∀ x ∈ data, x ≤ 1 := by
  constructor
  · intro h x hx
    have := le_highOf data x hx
    omega
  · intro h
    rcases highOf_eq_one_or_mem data with h1 | h1
    · exact h1
    · have := h _ h1
      have := highOf_pos data
      omega

/-- C9 (as amended). The level loop starts from `high = 1` and `low = 0`:
for a trace with maximum sample `M` and minimum sample `m`, the value of
`high` used by `manchester_decode` is `max 1 M` and the value of `low` is
`min 0 m`, which is `0`. So `high` is the maximum as soon as one sample is
at least `1`, and `low` is the minimum as soon as one sample is `0`. -/
theorem levels_are_extrema_with_initial_values (data : List Nat) (M m : Nat)
    (hM : data.max? = some M) (hm : data.min? = some m) :
    highOf data = max 1 M ∧ lowOf data = min 0 m ∧
    (1 ≤ M → highOf data = M) ∧ (0 ∈ data → lowOf data = m) := by
  rw [List.max?_eq_some_iff'] at hM
  rw [List.min?_eq_some_iff'] at hm
  have hlow := lowOf_eq_zero data
  have hpos := highOf_pos data
  have hle := le_highOf data M hM.1
  have hhigh : highOf data = max 1 M := by
    rcases highOf_eq_one_or_mem data with h1 | h1
    · rw [h1] at hle ⊢
      omega
    · have := hM.2 _ h1
      omega
  refine ⟨hhigh, by rw [hlow]; simp, ?_, ?_⟩
  · intro h1
    rw [hhigh]; omega
  · intro h0
    have := hm.2 0 h0
    omega

theorem levels_are_extrema_with_initial_values_witness :
    highOf [0, 3, 2] = max 1 3 ∧ lowOf [0, 3, 2] = min 0 0 ∧
    (1 ≤ 3 → highOf [0, 3, 2] = 3) ∧ (0 ∈ [0, 3, 2] → lowOf [0, 3, 2] = 0) :=
  levels_are_extrema_with_initial_values [0, 3, 2] 3 0 (by decide) (by decide)

/-- C9 (counterexample). On the one-sample trace `[0]` the maximum is `0` but
`high` is `1`; on the one-sample trace `[5]` the minimum is `5` but `low` is
`0`. -/
theorem levels_not_extrema :
    ([0].max? = some 0 ∧ highOf [0] = 1) ∧ ([5].min? = some 5 ∧ lowOf [5] = 0) := by
  decide

/-! ## Pulse classification -/

theorem classify_short_iff (clock : Nat) (lc : Int) :
    classify clock lc = Pulse.short ↔ |lc - ((clock / 2 : Nat) : Int)| < ((clock / 4 : Nat) : Int) := by
  unfold classify
  rw [abs_lt]
  split_ifs with h1 h2
  · simp only [true_iff]; omega
  · simp only [false_iff, reduceCtorEq]; omega
  · simp only [false_iff, reduceCtorEq]; omega

theorem classify_long_iff (clock : Nat) (lc : Int) :
    classify clock lc = Pulse.long ↔
      ¬ |lc - ((clock / 2 : Nat) : Int)| < ((clock / 4 : Nat) : Int) ∧
      |lc - (clock : Int)| < ((clock / 4 : Nat) : Int) := by
  unfold classify
  rw [abs_lt, abs_lt]
  split_ifs with h1 h2
  · simp only [false_iff, reduceCtorEq]; omega
  · simp only [true_iff]; omega
  · simp only [false_iff, reduceCtorEq]; omega

theorem classify_anomaly_iff (clock : Nat) (lc : Int) :
    classify clock lc = Pulse.anomaly ↔
      ¬ |lc - ((clock / 2 : Nat) : Int)| < ((clock / 4 : Nat) : Int) ∧
      ¬ |lc - (clock : Int)| < ((clock / 4 : Nat) : Int) := by
  unfold classify
  rw [abs_lt, abs_lt]
  split_ifs with h1 h2
  · simp only [false_iff, reduceCtorEq]; omega
  · simp only [false_iff, reduceCtorEq]; omega
  · simp only [true_iff]; omega

/-- What the walk does at a transition once the runaway test has passed. -/
theorem walkStep_transition (data : List Nat) (clock i : Nat) (w : Walk)
    (ht : sample data (i - 1) ≠ sample data i)
    (hg : ¬ data.length * 2 / clock + 8 < w.bitidx) :
    (classify clock ((i : Int) - (w.lastval : Int)) = Pulse.short →
      ∃ w1, walkStep data clock i w = Step.cont w1 ∧ w1.bitidx = w.bitidx + 1 ∧
        w1.warnings = w.warnings ∧ w1.lastval = i) ∧
    (classify clock ((i : Int) - (w.lastval : Int)) = Pulse.long →
      ∃ w1, walkStep data clock i w = Step.cont w1 ∧ w1.bitidx = w.bitidx + 2 ∧
        w1.warnings = w.warnings ∧ w1.lastval = i) ∧
    (classify clock ((i : Int) - (w.lastval : Int)) = Pulse.anomaly →
      (w.warnings < 10 → ∃ w1, walkStep data clock i w = Step.cont w1 ∧ w1.bitidx = w.bitidx ∧
        w1.warnings = w.warnings + 1 ∧ w1.lastval = i ∧ w1.bitStream = w.bitStream) ∧
      (10 ≤ w.warnings → ∃ ok, walkStep data clock i w = Step.abort Abort.detectionErrors ok)) := by
  refine ⟨?_, ?_, ?_⟩
  · intro hc
    simp only [walkStep, ht, hg, hc, ne_eq, not_false_eq_true, if_true, if_false]
    exact ⟨_, rfl, rfl, rfl, rfl⟩
  · intro hc
    simp only [walkStep, ht, hg, hc, ne_eq, not_false_eq_true, if_true, if_false]
    exact ⟨_, rfl, rfl, rfl, rfl⟩
  · intro hc
    constructor
    · intro hw
      have : ¬ w.warnings + 1 > 10 := by omega
      simp only [walkStep, ht, hg, hc, this, ne_eq, not_false_eq_true, if_true, if_false]
      exact ⟨_, rfl, rfl, rfl, rfl, rfl⟩
    · intro hw
      have : w.warnings + 1 > 10 := by omega
      simp only [walkStep, ht, hg, hc, this, ne_eq, not_false_eq_true, if_true, if_false]
      exact ⟨_, rfl⟩

/-- C8 (as amended). With `tolerance = clock/4`: an interval is short iff
`|lc - clock/2| < tolerance`, long iff it is not short and
`|lc - clock| < tolerance`, an anomaly otherwise; at a transition that passes
the runaway test a short interval appends one symbol, a long one two, an
anomaly none and one warning. No interval meets both band conditions, and
the four edge values are anomalies for every clock. The values one step
inside the edges are short resp. long when `tolerance >= 1`; when
`tolerance = 0` (`clock < 4`) both bands are empty. -/
theorem strict_tolerance_bands (clock : Nat) :
    (∀ lc : Int,
      (classify clock lc = Pulse.short ↔
        |lc - ((clock / 2 : Nat) : Int)| < ((clock / 4 : Nat) : Int)) ∧
      (classify clock lc = Pulse.long ↔
        ¬ |lc - ((clock / 2 : Nat) : Int)| < ((clock / 4 : Nat) : Int) ∧
        |lc - (clock : Int)| < ((clock / 4 : Nat) : Int)) ∧
      (classify clock lc = Pulse.anomaly ↔
        ¬ |lc - ((clock / 2 : Nat) : Int)| < ((clock / 4 : Nat) : Int) ∧
        ¬ |lc - (clock : Int)| < ((clock / 4 : Nat) : Int)) ∧
      ¬ (|lc - ((clock / 2 : Nat) : Int)| < ((clock / 4 : Nat) : Int) ∧
        |lc - (clock : Int)| < ((clock / 4 : Nat) : Int))) ∧
    (∀ (data : List Nat) (i : Nat) (w : Walk),
      sample data (i - 1) ≠ sample data i → ¬ data.length * 2 / clock + 8 < w.bitidx →
      (classify clock ((i : Int) - (w.lastval : Int)) = Pulse.short →
        ∃ w1, walkStep data clock i w = Step.cont w1 ∧ w1.bitidx = w.bitidx + 1 ∧
          w1.warnings = w.warnings) ∧
      (classify clock ((i : Int) - (w.lastval : Int)) = Pulse.long →
        ∃ w1, walkStep data clock i w = Step.cont w1 ∧ w1.bitidx = w.bitidx + 2 ∧
          w1.warnings = w.warnings) ∧
      (classify clock ((i : Int) - (w.lastval : Int)) = Pulse.anomaly →
        (w.warnings < 10 → ∃ w1, walkStep data clock i w = Step.cont w1 ∧
          w1.bitidx = w.bitidx ∧ w1.warnings = w.warnings + 1) ∧
        (10 ≤ w.warnings → ∃ ok, walkStep data clock i w = Step.abort Abort.detectionErrors ok))) ∧
    (classify clock (((clock / 2 : Nat) : Int) - ((clock / 4 : Nat) : Int)) = Pulse.anomaly ∧
      classify clock (((clock / 2 : Nat) : Int) + ((clock / 4 : Nat) : Int)) = Pulse.anomaly ∧
      classify clock ((clock : Int) - ((clock / 4 : Nat) : Int)) = Pulse.anomaly ∧
      classify clock ((clock : Int) + ((clock / 4 : Nat) : Int)) = Pulse.anomaly) ∧
    (1 ≤ clock / 4 →
      classify clock (((clock / 2 : Nat) : Int) - ((clock / 4 : Nat) : Int) + 1) = Pulse.short ∧
      classify clock (((clock / 2 : Nat) : Int) + ((clock / 4 : Nat) : Int) - 1) = Pulse.short ∧
      classify clock ((clock : Int) - ((clock / 4 : Nat) : Int) + 1) = Pulse.long ∧
      classify clock ((clock : Int) + ((clock / 4 : Nat) : Int) - 1) = Pulse.long) ∧
    (clock / 4 = 0 → ∀ lc : Int, classify clock lc = Pulse.anomaly) := by
  refine ⟨?_, ?_, ?_, ?_, ?_⟩
  · intro lc
    refine ⟨classify_short_iff clock lc, classify_long_iff clock lc,
      classify_anomaly_iff clock lc, ?_⟩
    rw [abs_lt, abs_lt]
    omega
  · intro data i w ht hg
    obtain ⟨h1, h2, h3⟩ := walkStep_transition data clock i w ht hg
    refine ⟨?_, ?_, ?_⟩
    · intro hc
      obtain ⟨w1, e1, e2, e3, _⟩ := h1 hc
      exact ⟨w1, e1, e2, e3⟩
    · intro hc
      obtain ⟨w1, e1, e2, e3, _⟩ := h2 hc
      exact ⟨w1, e1, e2, e3⟩
    · intro hc
      refine ⟨?_, (h3 hc).2⟩
      intro hw
      obtain ⟨w1, e1, e2, e3, _⟩ := (h3 hc).1 hw
      exact ⟨w1, e1, e2, e3⟩
  · simp only [classify_anomaly_iff, abs_lt]
    omega
  · intro ht
    simp only [classify_short_iff, classify_long_iff, abs_lt]
    omega
  · intro ht lc
    simp only [classify_anomaly_iff, abs_lt]
    omega

theorem strict_tolerance_bands_witness :
    classify 8 (((8 / 2 : Nat) : Int) - ((8 / 4 : Nat) : Int) + 1) = Pulse.short ∧
    classify 8 (((8 / 2 : Nat) : Int) + ((8 / 4 : Nat) : Int) - 1) = Pulse.short ∧
    classify 8 ((8 : Int) - ((8 / 4 : Nat) : Int) + 1) = Pulse.long ∧
    classify 8 ((8 : Int) + ((8 / 4 : Nat) : Int) - 1) = Pulse.long :=
  (strict_tolerance_bands 8).2.2.2.1 (by decide)

/-- C8 (counterexample). For `clock = 2` the tolerance is `0`, and the value
one step above the edge `clock/2 - tolerance` is an anomaly, not a short
pulse. -/
theorem inside_value_not_short_for_clock_two :
    (2 / 4 : Nat) = 0 ∧
    classify 2 (((2 / 2 : Nat) : Int) - ((2 / 4 : Nat) : Int) + 1) = Pulse.anomaly := by
  decide

/-! ## Evaluations -/

/-- C3 (the code at the failing input). On the one-sample traces `[0]` and
`[1]` no `return 0` exit is taken, no bit is decoded and nothing is copied,
but the pairing loop loads `bitStream[1]` from a one-element buffer: the
index flag is `false`. -/
theorem one_sample_trace_reads_past_buffer :
    manchester_decode [0] = { ret := none, dataout := [], inBounds := false } ∧
    manchester_decode [1] = { ret := none, dataout := [], inBounds := false } := by
  decide

/-- C10 (the code at the failing input). On the nine-sample trace
`2,2,0,2,0,2,0,2,0` (`high = 2`, `clock = 2`, start point `s = 2`) the window
path emits `9/2 - 2 = 2` bits, from window numbers `2` and `3`, that is from
samples `4..7`; windows of `clock` samples laid from sample `s` on would be
`(9 - 2)/2 = 3`. -/
theorem window_path_counts_windows_from_start_index :
    highOf [2, 2, 0, 2, 0, 2, 0, 2, 0] = 2 ∧
    clockOf [2, 2, 0, 2, 0, 2, 0, 2, 0] = 2 ∧
    startOf [2, 2, 0, 2, 0, 2, 0, 2, 0] = 2 ∧
    (manchester_decode [2, 2, 0, 2, 0, 2, 0, 2, 0]).dataout = [1, 0] ∧
    (manchester_decode [2, 2, 0, 2, 0, 2, 0, 2, 0]).dataout.length = 2 ∧
    ([2, 2, 0, 2, 0, 2, 0, 2, 0].length - 2) / 2 = 3 := by
  decide

/-! ## Presenter -/

theorem blockLoop_spec {α : Type} (f : List Nat → α) (bs : List Nat) (W : Nat) (hW : 1 ≤ W) :
    ∀ (n k fuel : Nat), n ≤ fuel →
      blockLoop f bs W ((k + n) * W) fuel (k * W) =
        ((List.range n).map (fun j => LogLine.block (f (slice bs ((k + j) * W) W))),
          (k + n) * W) := by
  intro n
  induction n with
  | zero =>
    intro k fuel _
    cases fuel with
    | zero => simp [blockLoop]
    | succ fuel => simp [blockLoop]
  | succ n ih =>
    intro k fuel hf
    cases fuel with
    | zero => omega
    | succ fuel =>
      have hlt : k * W < (k + (n + 1)) * W := by
        apply Nat.mul_lt_mul_of_lt_of_le (by omega) (le_refl W) (by omega)
      have hk : k * W + W = (k + 1) * W := by ring
      have hn : (k + (n + 1)) * W = (k + 1 + n) * W := by ring
      simp only [blockLoop, hlt, if_true, hk]
      rw [hn, ih (k + 1) fuel (by omega)]
      simp only [List.range_succ_eq_map, List.map_cons, List.map_map, Nat.add_zero]
      congr 2
      apply List.map_congr_left
      intro j _
      simp only [Function.comp]
      congr 3
      simp only [Nat.succ_eq_add_one]
      ring

theorem flatten_slices (bs : List Nat) (W : Nat) :
    ∀ n, ((List.range n).map (fun k => slice bs (k * W) W)).flatten = bs.take (n * W) := by
  intro n
  induction n with
  | zero => simp
  | succ n ih =>
    rw [List.range_succ, List.map_append, List.flatten_append, ih]
    simp only [List.map_cons, List.map_nil, List.flatten_cons, List.flatten_nil, List.append_nil,
      slice]
    rw [Nat.succ_mul, List.take_add]

/-- C7 (as amended). For a bit sequence of length `L` and a block width
`W >= 1` such that `L / W < 256` and `L mod W < 256` (the quotient and the
remainder are kept in `uint8_t` variables): `PrintPaddedManchester` emits the
line reporting `L`, then one line per full run `k < L / W`, each
`sprint_bin` of the slice at offset `k*W` of length `W`, then, when
`L mod W > 0`, one line for the slice at offset `(L/W)*W` of length
`L mod W`; these are `ceil(L / W)` lines and the slices concatenated are the
whole input. -/
theorem presenter_partition {α : Type} (f : List Nat → α) (bits : List Nat) (W : Nat)
    (hW : 1 ≤ W) (hdiv : bits.length / W < 256) (hmod : bits.length % W < 256) :
    PrintPaddedManchester f bits bits.length W =
      LogLine.count bits.length ::
        (List.range (bits.length / W)).map (fun k => LogLine.block (f (slice bits (k * W) W))) ++
        (if bits.length % W > 0 then
          [LogLine.block (f (slice bits (bits.length / W * W) (bits.length % W)))] else []) ∧
    (PrintPaddedManchester f bits bits.length W).length = 1 + (bits.length + W - 1) / W ∧
    (∀ k, k < bits.length / W → (slice bits (k * W) W).length = W) ∧
    (slice bits (bits.length / W * W) (bits.length % W)).length = bits.length % W ∧
    ((List.range (bits.length / W)).map (fun k => slice bits (k * W) W)).flatten ++
      slice bits (bits.length / W * W) (bits.length % W) = bits := by
  have hdm := Nat.div_add_mod bits.length W
  have hmul : bits.length / W * W = W * (bits.length / W) := Nat.mul_comm _ _
  have hloop := blockLoop_spec f bits W hW (bits.length / W) 0 (bits.length / W * W)
    (Nat.le_mul_of_pos_right _ (by omega))
  simp only [Nat.zero_add, Nat.zero_mul] at hloop
  have hmain : PrintPaddedManchester f bits bits.length W =
      LogLine.count bits.length ::
        (List.range (bits.length / W)).map (fun k => LogLine.block (f (slice bits (k * W) W))) ++
        (if bits.length % W > 0 then
          [LogLine.block (f (slice bits (bits.length / W * W) (bits.length % W)))] else []) := by
    unfold PrintPaddedManchester
    simp only [Nat.mod_eq_of_lt hdiv, Nat.mod_eq_of_lt hmod, hloop]
  refine ⟨hmain, ?_, ?_, ?_, ?_⟩
  · rw [hmain]
    have hceil : (bits.length + W - 1) / W =
        bits.length / W + (if bits.length % W > 0 then 1 else 0) := by
      by_cases hr : bits.length % W > 0
      · simp only [hr, if_true]
        have hlt := Nat.mod_lt bits.length (show W > 0 by omega)
        have e : bits.length + W - 1 = (bits.length % W - 1) + W * (bits.length / W + 1) := by
          rw [Nat.mul_add]; omega
        rw [e, Nat.add_mul_div_left _ _ (show 0 < W by omega)]
        rw [Nat.div_eq_of_lt (by omega)]
        omega
      · simp only [hr, if_false]
        have h0 : bits.length % W = 0 := by omega
        have e : bits.length + W - 1 = (W - 1) + W * (bits.length / W) := by omega
        rw [e, Nat.add_mul_div_left _ _ (show 0 < W by omega)]
        rw [Nat.div_eq_of_lt (by omega)]
        omega
    rw [hceil]
    by_cases hr : bits.length % W > 0
    · simp [hr]; omega
    · simp [hr]; omega
  · intro k hk
    simp only [slice, List.length_take, List.length_drop]
    have : (k + 1) * W ≤ bits.length / W * W := Nat.mul_le_mul_right _ (by omega)
    have : (k + 1) * W = k * W + W := by ring
    omega
  · simp only [slice, List.length_take, List.length_drop]
    omega
  · rw [flatten_slices]
    simp only [slice]
    rw [← List.take_add]
    rw [List.take_of_length_le]
    omega

theorem presenter_partition_witness :
    PrintPaddedManchester id (List.range 37) (List.range 37).length 16 =
      LogLine.count (List.range 37).length ::
        (List.range ((List.range 37).length / 16)).map
          (fun k => LogLine.block (id (slice (List.range 37) (k * 16) 16))) ++
        (if (List.range 37).length % 16 > 0 then
          [LogLine.block (id (slice (List.range 37) ((List.range 37).length / 16 * 16)
            ((List.range 37).length % 16)))] else []) ∧
    (PrintPaddedManchester id (List.range 37) (List.range 37).length 16).length =
      1 + ((List.range 37).length + 16 - 1) / 16 ∧
    (∀ k, k < (List.range 37).length / 16 → (slice (List.range 37) (k * 16) 16).length = 16) ∧
    (slice (List.range 37) ((List.range 37).length / 16 * 16)
      ((List.range 37).length % 16)).length = (List.range 37).length % 16 ∧
    ((List.range ((List.range 37).length / 16)).map
        (fun k => slice (List.range 37) (k * 16) 16)).flatten ++
      slice (List.range 37) ((List.range 37).length / 16 * 16) ((List.range 37).length % 16) =
      List.range 37 :=
  presenter_partition id (List.range 37) 16 (by decide) (by decide) (by decide)

/-- C7 (counterexample). For `L = 256` and `W = 1` the quotient `256` does not
fit the `uint8_t` variable `div`, which becomes `0`: only the line reporting
`L` is emitted, not `ceil(256 / 1) = 256` block lines. -/
theorem presenter_drops_blocks_when_quotient_wraps :
    (List.replicate 256 0).length = 256 ∧
    PrintPaddedManchester id (List.replicate 256 0) 256 1 = [LogLine.count 256] ∧
    (256 + 1 - 1) / 1 = 256 :=
  ⟨List.length_replicate _ _, by decide, by decide⟩

/-! ## Buffers -/

theorem getD_set (l : List Nat) (k v j : Nat) :
    (l.set k v).getD j 0 = if j = k ∧ k < l.length then v else l.getD j 0 := by
  simp only [List.getD_eq_getElem?_getD, List.getElem?_set]
  by_cases hjk : k = j
  · subst hjk
    by_cases hk : k < l.length
    · simp [hk]
    · have : l[k]? = none := List.getElem?_eq_none (by omega)
      simp [hk, this]
  · have : ¬ (j = k ∧ k < l.length) := fun h => hjk h.1.symm
    simp [hjk, this]

theorem xor_one_of_le_one (b : Nat) (h : b ≤ 1) : b ^^^ 1 = 1 - b := by
  have : b = 0 ∨ b = 1 := by omega
  rcases this with rfl | rfl <;> decide

/-! ## Polarity -/

theorem BufRel.set {k : Nat} {b0 b1 : List Nat} (h : BufRel k b0 b1) (v : Nat) (hv : v ≤ 1) :
    BufRel (k + 1) (b0.set k v) (b1.set k (1 - v)) := by
  obtain ⟨hl, h1, h2⟩ := h
  refine ⟨by simp [hl], ?_, ?_⟩
  · intro j hj hjl
    simp only [List.length_set] at hjl
    rw [getD_set, getD_set]
    by_cases hjk : j = k
    · subst hjk
      have : j < b1.length := by omega
      simp [hjl, this, hv]
    · have hlt : j < k := by omega
      simp only [hjk, false_and, if_false]
      exact h1 j hlt hjl
  · intro j hj
    rw [getD_set, getD_set]
    have hjk : j ≠ k := by omega
    simp only [hjk, false_and, if_false]
    exact h2 j (by omega)

theorem BufRel.take {k : Nat} {b0 b1 : List Nat} (h : BufRel k b0 b1) :
    b1.take k = (b0.take k).map (fun b => 1 - b) ∧ ∀ b ∈ b0.take k, b ≤ 1 := by
  obtain ⟨hl, h1, _⟩ := h
  constructor
  · apply List.ext_getElem
    · simp [hl]
    · intro j hj1 hj2
      simp only [List.length_take] at hj1
      have hjk : j < k := by omega
      have hj0 : j < b0.length := by omega
      have hjb : j < b1.length := by omega
      have := (h1 j hjk hj0).2
      simp only [List.getD_eq_getElem?_getD, List.getElem?_eq_getElem hj0,
        List.getElem?_eq_getElem hjb, Option.getD_some] at this
      simp [List.getElem_take, this]
  · intro b hb
    obtain ⟨j, hj, rfl⟩ := List.getElem_of_mem hb
    simp only [List.length_take] at hj
    have hjk : j < k := by omega
    have hj0 : j < b0.length := by omega
    have := (h1 j hjk hj0).1
    simp only [List.getD_eq_getElem?_getD, List.getElem?_eq_getElem hj0, Option.getD_some] at this
    simp [List.getElem_take, this]

/-- The outcomes of the walk body at index `i`: no transition, runaway exit,
anomaly with or without the detection exit, short or long pulse. -/
theorem walkStep_cases (data : List Nat) (clock i : Nat) (w : Walk) :
    (sample data (i - 1) = sample data i ∧
      ∃ w1, walkStep data clock i w = Step.cont w1 ∧ w1.lastval = w.lastval ∧
        w1.warnings = w.warnings ∧ w1.bitidx = w.bitidx ∧ w1.bitStream = w.bitStream) ∨
    (sample data (i - 1) ≠ sample data i ∧
      ((∃ ok, walkStep data clock i w = Step.abort Abort.clockWrong ok) ∨
       (classify clock ((i : Int) - (w.lastval : Int)) = Pulse.anomaly ∧ 10 ≤ w.warnings ∧
          ∃ ok, walkStep data clock i w = Step.abort Abort.detectionErrors ok) ∨
       (classify clock ((i : Int) - (w.lastval : Int)) = Pulse.anomaly ∧ w.warnings < 10 ∧
          ∃ w1, walkStep data clock i w = Step.cont w1 ∧ w1.lastval = i ∧
            w1.warnings = w.warnings + 1 ∧ w1.bitidx = w.bitidx ∧
            w1.bitStream = w.bitStream) ∨
       (classify clock ((i : Int) - (w.lastval : Int)) ≠ Pulse.anomaly ∧
          ∃ w1, walkStep data clock i w = Step.cont w1 ∧ w1.lastval = i ∧
            w1.warnings = w.warnings))) := by
  by_cases ht : sample data (i - 1) = sample data i
  · left
    refine ⟨ht, ?_⟩
    simp only [walkStep, ht, ne_eq, not_true_eq_false, if_false]
    exact ⟨_, rfl, rfl, rfl, rfl, rfl⟩
  · right
    refine ⟨ht, ?_⟩
    by_cases hg : data.length * 2 / clock + 8 < w.bitidx
    · left
      simp only [walkStep, ht, hg, ne_eq, not_false_eq_true, if_true]
      exact ⟨_, rfl⟩
    · right
      cases hc : classify clock ((i : Int) - (w.lastval : Int)) with
      | short =>
        right; right
        refine ⟨by simp, ?_⟩
        simp only [walkStep, ht, hg, hc, ne_eq, not_false_eq_true, if_true, if_false]
        exact ⟨_, rfl, rfl, rfl⟩
      | long =>
        right; right
        refine ⟨by simp, ?_⟩
        simp only [walkStep, ht, hg, hc, ne_eq, not_false_eq_true, if_true, if_false]
        exact ⟨_, rfl, rfl, rfl⟩
      | anomaly =>
        by_cases hw : w.warnings + 1 > 10
        · left
          refine ⟨rfl, by omega, ?_⟩
          simp only [walkStep, ht, hg, hc, hw, ne_eq, not_false_eq_true, if_true, if_false]
          exact ⟨_, rfl⟩
        · right; left
          refine ⟨rfl, by omega, ?_⟩
          simp only [walkStep, ht, hg, hc, hw, ne_eq, not_false_eq_true, if_true, if_false]
          exact ⟨_, rfl, rfl, rfl, rfl, rfl⟩

/-- A walk that reaches the end of the trace has counted exactly the
anomalous intervals, and its counter never passed the cap. -/
theorem walkLoop_warnings (data : List Nat) (clock : Nat) :
    ∀ (fuel i : Nat) (w w1 : Walk), walkLoop data clock fuel i w = Step.cont w1 →
      w1.warnings = w.warnings +
        (walkIntervals data fuel i w.lastval).countP
          (fun lc => decide (classify clock lc = Pulse.anomaly)) ∧
      (w.warnings ≤ 10 → w1.warnings ≤ 10) := by
  intro fuel
  induction fuel with
  | zero =>
    intro i w w1 h
    simp only [walkLoop, Step.cont.injEq] at h
    subst h
    simp [walkIntervals]
  | succ fuel ih =>
    intro i w w1 h
    simp only [walkLoop] at h
    rcases walkStep_cases data clock i w with ⟨ht, w2, e, e1, e2, _, _⟩ | ⟨ht, hc⟩
    · rw [e] at h
      obtain ⟨h1, h2⟩ := ih (i + 1) w2 w1 h
      simp only [walkIntervals, ht, ne_eq, not_true_eq_false, if_false]
      rw [e1, e2] at h1
      rw [e2] at h2
      exact ⟨h1, h2⟩
    · rcases hc with ⟨ok, e⟩ | ⟨_, _, ok, e⟩ | ⟨hc, hw, w2, e, e1, e2, _, _⟩ | ⟨hc, w2, e, e1, e2⟩
      · rw [e] at h; exact absurd h (by simp)
      · rw [e] at h; exact absurd h (by simp)
      · rw [e] at h
        obtain ⟨h1, h2⟩ := ih (i + 1) w2 w1 h
        simp only [walkIntervals, ht, ne_eq, not_false_eq_true, if_true, List.countP_cons, hc,
          decide_True]
        rw [e1, e2] at h1
        rw [e2] at h2
        exact ⟨by omega, fun _ => h2 (by omega)⟩
      · rw [e] at h
        obtain ⟨h1, h2⟩ := ih (i + 1) w2 w1 h
        simp only [walkIntervals, ht, ne_eq, not_false_eq_true, if_true, List.countP_cons, hc,
          decide_False]
        rw [e1, e2] at h1
        rw [e2] at h2
        exact ⟨by simpa using h1, h2⟩

/-- The walk leaves the function only through its own two exits. -/
theorem walkLoop_abort_reason (data : List Nat) (clock : Nat) :
    ∀ (fuel i : Nat) (w : Walk) (why : Abort) (ok : Bool),
      walkLoop data clock fuel i w = Step.abort why ok →
      why = Abort.clockWrong ∨ why = Abort.detectionErrors := by
  intro fuel
  induction fuel with
  | zero => intro i w why ok h; simp [walkLoop] at h
  | succ fuel ih =>
    intro i w why ok h
    simp only [walkLoop] at h
    rcases walkStep_cases data clock i w with ⟨_, w2, e, _⟩ | ⟨_, hc⟩
    · rw [e] at h; exact ih _ _ _ _ h
    · rcases hc with ⟨ok1, e⟩ | ⟨_, _, ok1, e⟩ | ⟨_, _, w2, e, _⟩ | ⟨_, w2, e, _⟩
      · rw [e] at h; simp only [Step.abort.injEq] at h; exact Or.inl h.1.symm
      · rw [e] at h; simp only [Step.abort.injEq] at h; exact Or.inr h.1.symm
      · rw [e] at h; exact ih _ _ _ _ h
      · rw [e] at h; exact ih _ _ _ _ h

theorem pulseWalk_warnings (data : List Nat) (w : Walk) (h : pulseWalk data = Step.cont w) :
    w.warnings = widthAnomalies data ∧ w.warnings ≤ 10 := by
  obtain ⟨h1, h2⟩ := walkLoop_warnings data (clockOf data) _ _ _ _ h
  simp only [Nat.zero_add] at h1
  exact ⟨h1, h2 (Nat.zero_le _)⟩

theorem pulseWalk_abort_of_anomalies (data : List Nat) (h : 10 < widthAnomalies data) :
    ∃ ok, pulseWalk data = Step.abort Abort.clockWrong ok ∨
      pulseWalk data = Step.abort Abort.detectionErrors ok := by
  cases hw : pulseWalk data with
  | cont w =>
    have := pulseWalk_warnings data w hw
    omega
  | abort why ok =>
    rcases walkLoop_abort_reason data (clockOf data) _ _ _ _ _ hw with rfl | rfl
    · exact ⟨ok, Or.inl rfl⟩
    · exact ⟨ok, Or.inr rfl⟩

theorem decode_of_abort (data : List Nat) (why : Abort) (ok : Bool)
    (h : decodeLoops 0 data = Step.abort why ok) :
    (manchester_decode data).ret = some 0 ∧ (manchester_decode data).dataout = [] := by
  simp [manchester_decode, h]

theorem decodeLoops_of_walk_abort (invert : Nat) (data : List Nat) (hbin : highOf data = 1)
    (why : Abort) (ok : Bool) (h : pulseWalk data = Step.abort why ok) :
    decodeLoops invert data = Step.abort why ok := by
  simp [decodeLoops, hbin, h]

/-! ## Warning counter of the pairing loop -/

theorem pairFaults_congr (bs bs1 : List Nat) (bitidx : Nat) :
    ∀ (fuel i : Nat), (∀ j, i ≤ j → bs1.getD j 0 = bs.getD j 0) →
      pairFaults bs1 bitidx fuel i = pairFaults bs bitidx fuel i := by
  intro fuel
  induction fuel with
  | zero => intro i _; rfl
  | succ fuel ih =>
    intro i h
    simp only [pairFaults, h i (le_refl i), h (i + 1) (by omega)]
    rw [ih (i + 2) (fun j hj => h j (by omega)), ih (i + 3) (fun j hj => h j (by omega))]

theorem pairFaults_set (bs : List Nat) (bitidx k v : Nat) (fuel i : Nat) (hk : k < i) :
    pairFaults (bs.set k v) bitidx fuel i = pairFaults bs bitidx fuel i := by
  apply pairFaults_congr
  intro j hj
  rw [getD_set]
  have : ¬ (j = k ∧ k < bs.length) := fun h => by omega
  simp [this]

/-- A pairing loop that reaches its end has counted exactly the bad pairs of
the symbols it was given, and its counter never passed the cap; it can leave
the function only through its own exit. -/
theorem pairLoop_warnings (len invert bitidx : Nat) :
    ∀ (fuel i : Nat) (p : Pairing), 2 * p.bit2idx ≤ i →
      (∀ p1, pairLoop len invert bitidx fuel i p = Step.cont p1 →
        p1.warnings = p.warnings + pairFaults p.bitStream bitidx fuel i ∧
        (p.warnings ≤ 10 → p1.warnings ≤ 10)) ∧
      (∀ why ok, pairLoop len invert bitidx fuel i p = Step.abort why ok →
        why = Abort.decodeErrors ∧ 10 < p.warnings + pairFaults p.bitStream bitidx fuel i) := by
  intro fuel
  induction fuel with
  | zero =>
    intro i p _
    constructor
    · intro p1 h
      simp only [pairLoop, Step.cont.injEq] at h
      subst h
      simp [pairFaults]
    · intro why ok h
      simp [pairLoop] at h
  | succ fuel ih =>
    intro i p hi
    simp only [pairLoop, pairFaults]
    by_cases hlt : i < bitidx
    · simp only [hlt, if_true, pairStep]
      by_cases c1 : p.bitStream.getD i 0 = 0 ∧ p.bitStream.getD (i + 1) 0 = 1
      · have hor : (p.bitStream.getD i 0 = 0 ∧ p.bitStream.getD (i + 1) 0 = 1) ∨
            (p.bitStream.getD i 0 = 1 ∧ p.bitStream.getD (i + 1) 0 = 0) := Or.inl c1
        simp only [c1, and_self, if_true, hor]
        have := ih (i + 2)
          { bit2idx := p.bit2idx + 1, warnings := p.warnings,
            bitStream := p.bitStream.set p.bit2idx (1 ^^^ invert),
            ok := (p.ok && decide (i < len) && (decide (i + 1 < len) || !((0 : Nat) = 0 || (0 : Nat) = 1))) &&
              decide (p.bit2idx < len) } (by simp only; omega)
        simp only [pairFaults_set _ _ _ _ _ _ (show p.bit2idx < i + 2 by omega)] at this
        simpa [c1.1] using this
      · simp only [c1, if_false]
        by_cases c2 : p.bitStream.getD i 0 = 1 ∧ p.bitStream.getD (i + 1) 0 = 0
        · have hor : (p.bitStream.getD i 0 = 0 ∧ p.bitStream.getD (i + 1) 0 = 1) ∨
              (p.bitStream.getD i 0 = 1 ∧ p.bitStream.getD (i + 1) 0 = 0) := Or.inr c2
          simp only [c2, and_self, if_true, hor]
          have := ih (i + 2)
            { bit2idx := p.bit2idx + 1, warnings := p.warnings,
              bitStream := p.bitStream.set p.bit2idx (0 ^^^ invert),
              ok := (p.ok && decide (i < len) && (decide (i + 1 < len) || !((1 : Nat) = 0 || (1 : Nat) = 1))) &&
                decide (p.bit2idx < len) } (by simp only; omega)
          simp only [pairFaults_set _ _ _ _ _ _ (show p.bit2idx < i + 2 by omega)] at this
          simpa [c2.1] using this
        · have hor : ¬ ((p.bitStream.getD i 0 = 0 ∧ p.bitStream.getD (i + 1) 0 = 1) ∨
              (p.bitStream.getD i 0 = 1 ∧ p.bitStream.getD (i + 1) 0 = 0)) := by
            rintro (h | h)
            · exact c1 h
            · exact c2 h
          simp only [c2, if_false, hor, or_self]
          by_cases c3 : p.warnings + 1 > 10
          · simp only [c3, if_true]
            constructor
            · intro p1 h; simp at h
            · intro why ok h
              simp only [Step.abort.injEq] at h
              exact ⟨h.1.symm, by omega⟩
          · simp only [c3, if_false]
            have := ih (i + 1 + 2)
              { p with warnings := p.warnings + 1,
                       ok := p.ok && decide (i < len) && (decide (i + 1 < len) ||
                         !(p.bitStream.getD i 0 = 0 || p.bitStream.getD i 0 = 1)) }
              (by simp only; omega)
            simp only [show i + 1 + 2 = i + 3 by ring] at this
            obtain ⟨t1, t2⟩ := this
            constructor
            · intro p1 h
              obtain ⟨u1, u2⟩ := t1 p1 h
              exact ⟨by rw [u1]; ring, fun _ => u2 (by omega)⟩
            · intro why ok h
              obtain ⟨u1, u2⟩ := t2 why ok h
              exact ⟨u1, by omega⟩
    · simp only [hlt, if_false]
      constructor
      · intro p1 h
        simp only [Step.cont.injEq] at h
        subst h
        simp
      · intro why ok h
        simp at h

/-! ## Fuel of the pairing loop -/

/-- The pairing loop does not depend on the fuel once the fuel covers the
distance to `bitidx`: it always ends because the cursor reached `bitidx`. -/
theorem pairLoop_fuel (len invert bitidx : Nat) :
    ∀ (fuel extra i : Nat) (p : Pairing), bitidx ≤ i + fuel →
      pairLoop len invert bitidx (fuel + extra) i p = pairLoop len invert bitidx fuel i p := by
  intro fuel
  induction fuel with
  | zero =>
    intro extra i p h
    cases extra with
    | zero => rfl
    | succ extra =>
      have : ¬ i < bitidx := by omega
      simp [pairLoop, this]
  | succ fuel ih =>
    intro extra i p h
    rw [show fuel + 1 + extra = (fuel + extra) + 1 by ring]
    simp only [pairLoop]
    by_cases hlt : i < bitidx
    · simp only [hlt, if_true]
      cases hs : pairStep len invert i p with
      | abort why ok => rfl
      | cont r =>
        obtain ⟨i1, p1⟩ := r
        simp only
        have hi1 : i ≤ i1 := by
          unfold pairStep at hs
          simp only at hs
          split_ifs at hs <;> simp only [Step.cont.injEq, Prod.mk.injEq, reduceCtorEq] at hs <;> omega
        exact ih extra (i1 + 2) p1 (by omega)
    · simp only [hlt, if_false]

/-! ## The warning cap -/

/-- C2. For a trace with all samples in `{0,1}` of which more than 10 measured
inter-transition intervals are outside both tolerance bands, the walk leaves
the function through one of its two `return 0` exits, so
`manchester_decode` returns `0` and copies nothing to the output buffer. -/
theorem warning_cap_on_pulse_widths (data : List Nat) (hbin : ∀ x ∈ data, x = 0 ∨ x = 1)
    (h : 10 < widthAnomalies data) :
    (∃ ok, pulseWalk data = Step.abort Abort.clockWrong ok ∨
      pulseWalk data = Step.abort Abort.detectionErrors ok) ∧
    (∃ why ok, decodeLoops 0 data = Step.abort why ok) ∧
    (manchester_decode data).ret = some 0 ∧ (manchester_decode data).dataout = [] := by
  have hhigh : highOf data = 1 := by
    rw [highOf_eq_one_iff]
    intro x hx
    rcases hbin x hx with h0 | h1 <;> omega
  obtain ⟨ok, hw⟩ := pulseWalk_abort_of_anomalies data h
  have hd : ∃ why, decodeLoops 0 data = Step.abort why ok := by
    rcases hw with hw | hw
    · exact ⟨_, decodeLoops_of_walk_abort 0 data hhigh _ _ hw⟩
    · exact ⟨_, decodeLoops_of_walk_abort 0 data hhigh _ _ hw⟩
  obtain ⟨why, hd⟩ := hd
  exact ⟨⟨ok, hw⟩, ⟨why, ok, hd⟩, decode_of_abort data why ok hd⟩

theorem warning_cap_on_pulse_widths_witness :
    (∃ ok, pulseWalk [1, 0, 1, 0, 1, 0, 1, 0, 1, 0, 1, 0] = Step.abort Abort.clockWrong ok ∨
      pulseWalk [1, 0, 1, 0, 1, 0, 1, 0, 1, 0, 1, 0] = Step.abort Abort.detectionErrors ok) ∧
    (∃ why ok, decodeLoops 0 [1, 0, 1, 0, 1, 0, 1, 0, 1, 0, 1, 0] = Step.abort why ok) ∧
    (manchester_decode [1, 0, 1, 0, 1, 0, 1, 0, 1, 0, 1, 0]).ret = some 0 ∧
    (manchester_decode [1, 0, 1, 0, 1, 0, 1, 0, 1, 0, 1, 0]).dataout = [] :=
  warning_cap_on_pulse_widths [1, 0, 1, 0, 1, 0, 1, 0, 1, 0, 1, 0] (by decide) (by decide)

/-- C6. (1) Whenever a decode leaves through one of the `return 0` exits, the
return value is `0` and nothing was copied to the output buffer. (2) On a
binary trace the pairing loop goes on with the counter the walk left: a walk
that reaches its end has `warnings` equal to the number of width anomalies,
a decode that reaches its end has `warnings` equal to the width anomalies
plus the pairing faults, at most 10; so whenever the width anomalies alone,
or the width anomalies plus the pairing faults, exceed 10, the decode
aborts. (3) The window path raises no warning and never aborts. -/
theorem one_warning_cap_no_partial_output (invert : Nat) (data : List Nat) :
    (∀ why ok, decodeLoops 0 data = Step.abort why ok →
      (manchester_decode data).ret = some 0 ∧ (manchester_decode data).dataout = []) ∧
    (highOf data = 1 →
      (10 < widthAnomalies data → ∃ why ok, decodeLoops invert data = Step.abort why ok) ∧
      (∀ w, pulseWalk data = Step.cont w →
        w.warnings = widthAnomalies data ∧
        (10 < widthAnomalies data + pairFaults w.bitStream w.bitidx w.bitidx 0 →
          ∃ ok, decodeLoops invert data = Step.abort Abort.decodeErrors ok) ∧
        (∀ p, decodeLoops invert data = Step.cont p →
          p.warnings = widthAnomalies data + pairFaults w.bitStream w.bitidx w.bitidx 0 ∧
          p.warnings ≤ 10))) ∧
    (highOf data ≠ 1 → ∃ p, decodeLoops invert data = Step.cont p ∧ p.warnings = 0) := by
  refine ⟨fun why ok h => decode_of_abort data why ok h, ?_, ?_⟩
  · intro hhigh
    constructor
    · intro h
      obtain ⟨ok, hw⟩ := pulseWalk_abort_of_anomalies data h
      rcases hw with hw | hw
      · exact ⟨_, ok, decodeLoops_of_walk_abort invert data hhigh _ _ hw⟩
      · exact ⟨_, ok, decodeLoops_of_walk_abort invert data hhigh _ _ hw⟩
    · intro w hw
      obtain ⟨hw1, hw2⟩ := pulseWalk_warnings data w hw
      have hd : decodeLoops invert data =
          pairLoop data.length invert w.bitidx w.bitidx 0
            { bit2idx := 0, warnings := w.warnings, bitStream := w.bitStream, ok := w.ok } := by
        simp [decodeLoops, hhigh, hw]
      obtain ⟨t1, t2⟩ := pairLoop_warnings data.length invert w.bitidx w.bitidx 0
        { bit2idx := 0, warnings := w.warnings, bitStream := w.bitStream, ok := w.ok }
        (by simp)
      simp only at t1 t2
      refine ⟨hw1, ?_, ?_⟩
      · intro h
        cases hp : pairLoop data.length invert w.bitidx w.bitidx 0
            { bit2idx := 0, warnings := w.warnings, bitStream := w.bitStream, ok := w.ok } with
        | abort why ok =>
          obtain ⟨e, _⟩ := t2 why ok hp
          subst e
          exact ⟨ok, by rw [hd, hp]⟩
        | cont p =>
          obtain ⟨u1, u2⟩ := t1 p hp
          have := u2 hw2
          omega
      · intro p hp
        rw [hd] at hp
        obtain ⟨u1, u2⟩ := t1 p hp
        exact ⟨by rw [u1, hw1], u2 hw2⟩
  · intro hhigh
    simp [decodeLoops, hhigh, pairLoop]

set_option maxRecDepth 100000 in
theorem one_warning_cap_no_partial_output_witness :
    pulseWalk [1, 1, 1, 1, 0, 0, 1, 1, 1, 0, 0, 1, 1, 1, 0, 0, 0, 1, 1, 1, 0, 0, 0, 1, 1, 0, 0,
        1, 1, 1, 1, 0, 0, 0, 1, 1, 1, 1, 0, 0, 0, 1, 1, 1, 0, 0] =
      Step.cont { lastval := 44, bitidx := 9, warnings := 9,
                  bitStream := [0, 0, 0, 1, 0, 1, 1, 1, 1] ++ List.replicate 37 0, ok := true } ∧
    widthAnomalies [1, 1, 1, 1, 0, 0, 1, 1, 1, 0, 0, 1, 1, 1, 0, 0, 0, 1, 1, 1, 0, 0, 0, 1, 1, 0,
        0, 1, 1, 1, 1, 0, 0, 0, 1, 1, 1, 1, 0, 0, 0, 1, 1, 1, 0, 0] = 9 ∧
    pairFaults ([0, 0, 0, 1, 0, 1, 1, 1, 1] ++ List.replicate 37 0) 9 9 0 = 2 ∧
    ∃ ok, decodeLoops 0 [1, 1, 1, 1, 0, 0, 1, 1, 1, 0, 0, 1, 1, 1, 0, 0, 0, 1, 1, 1, 0, 0, 0, 1,
        1, 0, 0, 1, 1, 1, 1, 0, 0, 0, 1, 1, 1, 1, 0, 0, 0, 1, 1, 1, 0, 0] =
      Step.abort Abort.decodeErrors ok :=
  ⟨by decide, by decide, by decide,
    ((one_warning_cap_no_partial_output 0
      [1, 1, 1, 1, 0, 0, 1, 1, 1, 0, 0, 1, 1, 1, 0, 0, 0, 1, 1, 1, 0, 0, 0, 1, 1, 0, 0,
        1, 1, 1, 1, 0, 0, 0, 1, 1, 1, 1, 0, 0, 0, 1, 1, 1, 0, 0]).2.1 (by decide)).2
      { lastval := 44, bitidx := 9, warnings := 9,
        bitStream := [0, 0, 0, 1, 0, 1, 1, 1, 1] ++ List.replicate 37 0, ok := true }
      (by decide) |>.2.1 (by decide)⟩

/-! ## The clock when there are fewer than two rising events -/

theorem clockStep_of_event (data : List Nat) (high i : Nat) (c : ClockScan)
    (h : sample data i = high ∧ sample data (i - 1) ≠ high) :
    (clockStep data high i c).lastpeak = i ∧
    (clockStep data high i c).clock =
      if c.lastpeak ≠ 0 ∧ i - c.lastpeak < c.clock then i - c.lastpeak else c.clock := by
  have hc : sample data (i - 1) ≠ sample data i ∧ sample data i = high :=
    ⟨by rw [h.1]; exact h.2, h.1⟩
  simp only [clockStep]
  rw [if_pos hc]
  exact ⟨rfl, rfl⟩

theorem clockStep_of_no_event (data : List Nat) (high i : Nat) (c : ClockScan)
    (h : ¬ (sample data i = high ∧ sample data (i - 1) ≠ high)) :
    (clockStep data high i c).lastpeak = c.lastpeak ∧
    (clockStep data high i c).clock = c.clock := by
  have hc : ¬ (sample data (i - 1) ≠ sample data i ∧ sample data i = high) := by
    rintro ⟨h1, h2⟩
    exact h ⟨h2, by rw [← h2]; exact h1⟩
  simp only [clockStep]
  rw [if_neg hc]
  exact ⟨rfl, rfl⟩

/-- The clock loop leaves `clock` alone over a range without rising event, and
also over a range with one rising event when no peak was seen before. -/
theorem clockLoop_clock (data : List Nat) (high : Nat) :
    ∀ (fuel i : Nat) (c : ClockScan),
      (risingCount data high fuel i = 0 → (clockLoop data high fuel i c).clock = c.clock) ∧
      (c.lastpeak = 0 → risingCount data high fuel i ≤ 1 →
        (clockLoop data high fuel i c).clock = c.clock) := by
  intro fuel
  induction fuel with
  | zero => intro i c; simp [clockLoop]
  | succ fuel ih =>
    intro i c
    simp only [clockLoop, risingCount]
    by_cases he : sample data i = high ∧ sample data (i - 1) ≠ high
    · obtain ⟨e1, e2⟩ := clockStep_of_event data high i c he
      rw [if_pos he]
      constructor
      · intro h; omega
      · intro h0 h1
        rw [(ih (i + 1) (clockStep data high i c)).1 (by omega), e2]
        simp [h0]
    · obtain ⟨e1, e2⟩ := clockStep_of_no_event data high i c he
      rw [if_neg he]
      simp only [Nat.zero_add]
      constructor
      · intro h
        rw [(ih (i + 1) (clockStep data high i c)).1 h, e2]
      · intro h0 h1
        rw [(ih (i + 1) (clockStep data high i c)).2 (by rw [e1]; exact h0) h1, e2]

theorem clockOf_of_few_rising (data : List Nat) (h : risingEvents data < 2) :
    clockOf data = 0xFFFF := by
  unfold clockOf detectClock
  exact (clockLoop_clock data (highOf data) _ _ _).2 rfl (by unfold risingEvents at h; omega)

/-! ## The walk with the sentinel clock on a short trace -/

theorem walkLoop_sentinel (data : List Nat) :
    ∀ (fuel i : Nat) (w w1 : Walk), i + fuel ≤ 16385 →
      walkLoop data 0xFFFF fuel i w = Step.cont w1 →
      w1.bitidx = w.bitidx ∧ w1.bitStream = w.bitStream := by
  intro fuel
  induction fuel with
  | zero =>
    intro i w w1 _ h
    simp only [walkLoop, Step.cont.injEq] at h
    subst h
    exact ⟨rfl, rfl⟩
  | succ fuel ih =>
    intro i w w1 hb h
    simp only [walkLoop] at h
    rcases walkStep_cases data 0xFFFF i w with ⟨_, w2, e, _, _, e3, e4⟩ | ⟨_, hc⟩
    · rw [e] at h
      obtain ⟨h1, h2⟩ := ih (i + 1) w2 w1 (by omega) h
      exact ⟨by rw [h1, e3], by rw [h2, e4]⟩
    · rcases hc with ⟨ok, e⟩ | ⟨_, _, ok, e⟩ | ⟨_, _, w2, e, _, _, e3, e4⟩ | ⟨hc, _⟩
      · rw [e] at h; exact absurd h (by simp)
      · rw [e] at h; exact absurd h (by simp)
      · rw [e] at h
        obtain ⟨h1, h2⟩ := ih (i + 1) w2 w1 (by omega) h
        exact ⟨by rw [h1, e3], by rw [h2, e4]⟩
      · exfalso
        apply hc
        unfold classify
        have h1 : ¬ Int.natAbs ((i : Int) - (w.lastval : Int) - ((0xFFFF / 2 : Nat) : Int)) <
            0xFFFF / 4 := by
          norm_num
          omega
        have h2 : ¬ Int.natAbs ((i : Int) - (w.lastval : Int) - ((0xFFFF : Nat) : Int)) <
            0xFFFF / 4 := by
          norm_num
          omega
        simp only [h1, h2, if_false]

theorem pairLoop_no_symbols (len invert : Nat) (k w : Nat) (ok : Bool) :
    (∃ ok1, pairLoop len invert 1 1 0
        { bit2idx := 0, warnings := w, bitStream := List.replicate k 0, ok := ok } =
      Step.abort Abort.decodeErrors ok1) ∨
    (∃ p, pairLoop len invert 1 1 0
        { bit2idx := 0, warnings := w, bitStream := List.replicate k 0, ok := ok } =
      Step.cont p ∧ p.bit2idx = 0) := by
  have h0 : ∀ j, (List.replicate k 0).getD j 0 = 0 := by
    intro j
    rw [List.getD_eq_getElem?_getD]
    by_cases hj : j < k
    · simp [List.getElem?_replicate, hj]
    · simp [List.getElem?_replicate, hj]
  simp only [pairLoop, pairStep, h0, Nat.lt_one_iff, if_true]
  by_cases hw : w + 1 > 10
  · left
    simp [hw]
  · right
    simp [hw]

/-- C4 (as amended). The source has no test for the sentinel. For every trace
with fewer than two rising events `clock` keeps the value `0xFFFF`
(tolerance `16383`) and the decode goes on with it. If such a trace has at
most 16385 samples, no interval reaches a tolerance band and no window
fits: no bit is decoded and nothing is copied to the output, whether the
decode leaves through a `return 0` or reaches its end (then with
`bit2idx = 0`). -/
theorem sentinel_clock_decodes_nothing_on_short_traces (data : List Nat)
    (hrise : risingEvents data < 2) :
    clockOf data = 0xFFFF ∧
    (data.length ≤ 16385 →
      (manchester_decode data).dataout = [] ∧
      (∀ p, decodeLoops 0 data = Step.cont p → p.bit2idx = 0) ∧
      (∀ why ok, decodeLoops 0 data = Step.abort why ok →
        (manchester_decode data).ret = some 0)) := by
  have hclock := clockOf_of_few_rising data hrise
  refine ⟨hclock, ?_⟩
  intro hlen
  have key : ∀ p, decodeLoops 0 data = Step.cont p → p.bit2idx = 0 := by
    intro p hp
    unfold decodeLoops at hp
    by_cases hh : highOf data ≠ 1
    · have hdiv : data.length / 65535 = 0 := Nat.div_eq_of_lt (by omega)
      simp only [hh, ne_eq, not_false_eq_true, if_true, windowPath, hclock, hdiv, Nat.zero_sub,
        windowLoop, pairLoop, Step.cont.injEq] at hp
      rw [← hp]
    · simp only [hh, if_false] at hp
      cases hw : pulseWalk data with
      | abort why ok => rw [hw] at hp; cases hp
      | cont w =>
        rw [hw] at hp
        simp only at hp
        have hw1 : walkLoop data 0xFFFF (data.length - startOf data) (startOf data)
            { lastval := lastvalOf data, bitidx := 1, warnings := 0,
              bitStream := List.replicate data.length 0,
              ok := (detectClock data (highOf data)).ok } = Step.cont w := by
          rw [← hclock]; exact hw
        by_cases hs : startOf data ≤ data.length
        · obtain ⟨e1, e2⟩ := walkLoop_sentinel data _ _ _ _ (by omega) hw1
          simp only at e1 e2
          rw [e1, e2] at hp
          rcases pairLoop_no_symbols data.length 0 data.length w.warnings w.ok with
            ⟨ok1, e⟩ | ⟨p1, e, hp1⟩
          · rw [e] at hp; cases hp
          · rw [e] at hp; cases hp; exact hp1
        · have hf : data.length - startOf data = 0 := by omega
          rw [hf] at hw1
          simp only [walkLoop, Step.cont.injEq] at hw1
          subst hw1
          simp only at hp
          rcases pairLoop_no_symbols data.length 0 data.length 0
            (detectClock data (highOf data)).ok with ⟨ok1, e⟩ | ⟨p1, e, hp1⟩
          · rw [e] at hp; cases hp
          · rw [e] at hp; cases hp; exact hp1
  refine ⟨?_, key, fun why ok h => (decode_of_abort data why ok h).1⟩
  unfold manchester_decode
  cases hd : decodeLoops 0 data with
  | abort why ok => rfl
  | cont p =>
    have := key p hd
    simp [this]

theorem sentinel_clock_decodes_nothing_on_short_traces_witness :
    risingEvents [1, 1, 0, 0, 1, 1] < 2 ∧
    clockOf [1, 1, 0, 0, 1, 1] = 0xFFFF ∧
    ([1, 1, 0, 0, 1, 1].length ≤ 16385 →
      (manchester_decode [1, 1, 0, 0, 1, 1]).dataout = [] ∧
      (∀ p, decodeLoops 0 [1, 1, 0, 0, 1, 1] = Step.cont p → p.bit2idx = 0) ∧
      (∀ why ok, decodeLoops 0 [1, 1, 0, 0, 1, 1] = Step.abort why ok →
        (manchester_decode [1, 1, 0, 0, 1, 1]).ret = some 0)) :=
  ⟨by decide, sentinel_clock_decodes_nothing_on_short_traces [1, 1, 0, 0, 1, 1] (by decide)⟩

/-! ## Walking over samples without transition -/

theorem walkLoop_succ (data : List Nat) (clock fuel i : Nat) (w : Walk) :
    walkLoop data clock (fuel + 1) i w =
      match walkStep data clock i w with
      | Step.abort why ok => Step.abort why ok
      | Step.cont w1 => walkLoop data clock fuel (i + 1) w1 := rfl

theorem walkStep_flat (data : List Nat) (clock i : Nat) (w : Walk)
    (h : sample data (i - 1) = sample data i) (h1 : 1 ≤ i) (h2 : i < data.length) :
    walkStep data clock i w = Step.cont w := by
  have hd : decide (1 ≤ i ∧ i < data.length) = true := by simp [h1, h2]
  simp only [walkStep, h, ne_eq, not_true_eq_false, if_false, hd, Bool.and_true]

theorem walkStep_anomaly (data : List Nat) (clock i : Nat) (w : Walk)
    (ht : sample data (i - 1) ≠ sample data i)
    (hg : ¬ data.length * 2 / clock + 8 < w.bitidx)
    (hc : classify clock ((i : Int) - (w.lastval : Int)) = Pulse.anomaly)
    (hw : w.warnings < 10) :
    ∃ ok, walkStep data clock i w =
      Step.cont { lastval := i, bitidx := w.bitidx, warnings := w.warnings + 1,
                  bitStream := w.bitStream, ok := ok } := by
  have : ¬ w.warnings + 1 > 10 := by omega
  simp only [walkStep, ht, hg, hc, this, ne_eq, not_false_eq_true, if_true, if_false]
  exact ⟨_, rfl⟩

theorem walkStep_short (data : List Nat) (clock i : Nat) (w : Walk)
    (ht : sample data (i - 1) ≠ sample data i)
    (hg : ¬ data.length * 2 / clock + 8 < w.bitidx)
    (hc : classify clock ((i : Int) - (w.lastval : Int)) = Pulse.short) :
    ∃ ok, walkStep data clock i w =
      Step.cont { lastval := i, bitidx := w.bitidx + 1, warnings := w.warnings,
                  bitStream := w.bitStream.set w.bitidx (sample data (i - 1)), ok := ok } := by
  simp only [walkStep, ht, hg, hc, ne_eq, not_false_eq_true, if_true, if_false]
  exact ⟨_, rfl⟩

theorem walkStep_long (data : List Nat) (clock i : Nat) (w : Walk)
    (ht : sample data (i - 1) ≠ sample data i)
    (hg : ¬ data.length * 2 / clock + 8 < w.bitidx)
    (hc : classify clock ((i : Int) - (w.lastval : Int)) = Pulse.long) :
    ∃ ok, walkStep data clock i w =
      Step.cont { lastval := i, bitidx := w.bitidx + 2, warnings := w.warnings,
                  bitStream := (w.bitStream.set w.bitidx (sample data (i - 1))).set
                    (w.bitidx + 1) (sample data (i - 1)), ok := ok } := by
  simp only [walkStep, ht, hg, hc, ne_eq, not_false_eq_true, if_true, if_false]
  exact ⟨_, rfl⟩

/-- Over `n` indices at which the sample equals its predecessor the walk does
nothing. -/
theorem walkLoop_flat (data : List Nat) (clock : Nat) :
    ∀ (n fuel i : Nat) (w : Walk), 1 ≤ i → i + n ≤ data.length →
      (∀ j, i ≤ j → j < i + n → sample data (j - 1) = sample data j) →
      walkLoop data clock (n + fuel) i w = walkLoop data clock fuel (i + n) w := by
  intro n
  induction n with
  | zero => intro fuel i w _ _ _; simp
  | succ n ih =>
    intro fuel i w h1 h2 h
    rw [show n + 1 + fuel = (n + fuel) + 1 by ring, walkLoop_succ,
      walkStep_flat data clock i w (h i (le_refl i) (by omega)) h1 (by omega)]
    simp only
    rw [ih fuel (i + 1) w (by omega) (by omega) (fun j hj1 hj2 => h j (by omega) (by omega))]
    congr 1
    ring

theorem risingCount_eq_zero (data : List Nat) (high : Nat) :
    ∀ (fuel i : Nat),
      (∀ j, i ≤ j → j < i + fuel → ¬ (sample data j = high ∧ sample data (j - 1) ≠ high)) →
      risingCount data high fuel i = 0 := by
  intro fuel
  induction fuel with
  | zero => intro i _; rfl
  | succ fuel ih =>
    intro i h
    simp only [risingCount]
    rw [if_neg (h i (le_refl i) (by omega)), ih (i + 1) (fun j hj1 hj2 => h j (by omega) (by omega))]

/-! ## The sentinel clock on a long trace -/

theorem getD_replicate_zero (k j : Nat) : (List.replicate k 0).getD j 0 = 0 := by
  rw [List.getD_eq_getElem?_getD]
  by_cases hj : j < k
  · simp [List.getElem?_replicate, hj]
  · simp [List.getElem?_replicate, hj]

theorem sample_longRunTrace (n j : Nat) :
    sample (longRunTrace n) j =
      if j = 0 then 1 else if j = 1 then 0 else if j ≤ n + 1 then 1 else 0 := by
  unfold sample longRunTrace
  match j with
  | 0 => rfl
  | 1 => rfl
  | k + 2 =>
    simp only [List.getD_cons_succ, Nat.add_eq_zero, OfNat.ofNat_ne_zero, and_false, if_false,
      Nat.reduceEqDiff]
    rw [List.getD_eq_getElem?_getD]
    by_cases hk : k < n
    · rw [List.getElem?_append_left (by simpa using hk)]
      have : k + 2 ≤ n + 1 := by omega
      simp [List.getElem?_replicate, hk, this]
    · rw [List.getElem?_append_right (by simp; omega)]
      have : ¬ k + 2 ≤ n + 1 := by omega
      simp only [List.length_replicate, this, if_false]
      by_cases hk2 : k - n = 0
      · simp [hk2]
      · have : ([0] : List Nat)[k - n]? = none := List.getElem?_eq_none (by simp; omega)
        simp [this]

theorem length_longRunTrace (n : Nat) : (longRunTrace n).length = n + 3 := by
  simp [longRunTrace]

theorem highOf_longRunTrace (n : Nat) : highOf (longRunTrace n) = 1 := by
  rw [highOf_eq_one_iff]
  intro x hx
  simp only [longRunTrace, List.mem_cons, List.mem_append, List.mem_replicate,
    List.mem_singleton, List.not_mem_nil, or_false] at hx
  omega

theorem sample_longRunTrace_flat (n j : Nat) (h1 : 3 ≤ j) (h2 : j ≤ n + 1) :
    sample (longRunTrace n) (j - 1) = sample (longRunTrace n) j := by
  simp only [sample_longRunTrace]
  have e0 : ¬ j = 0 := by omega
  have e1 : ¬ j = 1 := by omega
  have f0 : ¬ j - 1 = 0 := by omega
  have f1 : ¬ j - 1 = 1 := by omega
  have g1 : j - 1 ≤ n + 1 := by omega
  simp only [e0, e1, f0, f1, h2, g1, if_false, if_true]

theorem risingEvents_longRunTrace (n : Nat) (hn : 1 ≤ n) : risingEvents (longRunTrace n) = 1 := by
  unfold risingEvents
  rw [highOf_longRunTrace, length_longRunTrace]
  rw [show n + 3 - 1 = n + 1 + 1 by omega]
  simp only [risingCount, sample_longRunTrace]
  rw [risingCount_eq_zero]
  · simp; omega
  · intro j hj1 hj2
    by_cases hj : j ≤ n + 1
    · have := sample_longRunTrace_flat n j (by omega) hj
      rintro ⟨h1, h2⟩
      exact h2 (by rw [this]; exact h1)
    · rintro ⟨h1, _⟩
      simp only [sample_longRunTrace] at h1
      have e0 : ¬ j = 0 := by omega
      have e1 : ¬ j = 1 := by omega
      simp [e0, e1, hj] at h1

theorem clockOf_longRunTrace (n : Nat) (hn : 1 ≤ n) : clockOf (longRunTrace n) = 0xFFFF :=
  clockOf_of_few_rising (longRunTrace n) (by rw [risingEvents_longRunTrace n hn]; decide)

theorem firstTransition_longRunTrace (n : Nat) :
    startOf (longRunTrace n) = 1 ∧ lastvalOf (longRunTrace n) = 1 := by
  unfold startOf lastvalOf firstTransition
  rw [highOf_longRunTrace, lowOf_eq_zero, length_longRunTrace]
  have h1 : skipToHigh (longRunTrace n) 1 (n + 3) 0 = 0 := by
    simp [skipToHigh, sample_longRunTrace]
  simp only [h1]
  rw [show n + 3 - 0 = n + 1 + 1 + 1 by omega]
  simp [findLow, sample_longRunTrace]

theorem pulseWalk_longRunTrace (n : Nat) (h1 : 16385 ≤ n) (h2 : n ≤ 49149) :
    ∃ ok, pulseWalk (longRunTrace n) =
      Step.cont { lastval := n + 2, bitidx := 2, warnings := 2,
                  bitStream := (List.replicate (n + 3) 0).set 1 1, ok := ok } := by
  obtain ⟨m, rfl⟩ : ∃ m, n = m + 1 := ⟨n - 1, by omega⟩
  unfold pulseWalk
  rw [clockOf_longRunTrace (m + 1) (by omega), (firstTransition_longRunTrace (m + 1)).1,
    (firstTransition_longRunTrace (m + 1)).2, length_longRunTrace]
  generalize (detectClock (longRunTrace (m + 1)) (highOf (longRunTrace (m + 1)))).ok = ok0
  have hlen := length_longRunTrace (m + 1)
  -- the start point, interval 0
  obtain ⟨ok1, e1⟩ := walkStep_anomaly (longRunTrace (m + 1)) 65535 1
    { lastval := 1, bitidx := 1, warnings := 0, bitStream := List.replicate (m + 1 + 3) 0,
      ok := ok0 }
    (by simp [sample_longRunTrace]) (by rw [hlen]; simp only; omega)
    (by simp only; decide) (by simp)
  -- the low sample, interval 1
  obtain ⟨ok2, e2⟩ := walkStep_anomaly (longRunTrace (m + 1)) 65535 2
    { lastval := 1, bitidx := 1, warnings := 0 + 1, bitStream := List.replicate (m + 1 + 3) 0,
      ok := ok1 }
    (by simp [sample_longRunTrace]) (by rw [hlen]; simp only; omega)
    (by simp only; decide) (by simp)
  -- the end of the long run
  have hs : sample (longRunTrace (m + 1)) (m + 3 - 1) = 1 ∧
      sample (longRunTrace (m + 1)) (m + 3) = 0 := by
    simp only [sample_longRunTrace]
    have a0 : ¬ m + 3 - 1 = 0 := by omega
    have a1 : ¬ m + 3 - 1 = 1 := by omega
    have a2 : m + 3 - 1 ≤ m + 1 + 1 := by omega
    have b0 : ¬ m + 3 = 0 := by omega
    have b1 : ¬ m + 3 = 1 := by omega
    have b2 : ¬ m + 3 ≤ m + 1 + 1 := by omega
    simp [a0, a1, a2, b0, b1, b2]
  obtain ⟨ok3, e3⟩ := walkStep_short (longRunTrace (m + 1)) 65535 (m + 3)
    { lastval := 2, bitidx := 1, warnings := 0 + 1 + 1,
      bitStream := List.replicate (m + 1 + 3) 0, ok := ok2 }
    (by rw [hs.1, hs.2]; decide) (by rw [hlen]; simp only; omega)
    (by
      unfold classify
      have : Int.natAbs (((m + 3 : Nat) : Int) - ((2 : Nat) : Int) -
          ((65535 / 2 : Nat) : Int)) < 65535 / 4 := by
        norm_num
        omega
      rw [if_pos this])
  refine ⟨ok3, ?_⟩
  rw [show m + 1 + 3 - 1 = m + 1 + 1 + 1 by omega, walkLoop_succ, e1]
  simp only
  rw [walkLoop_succ, e2]
  simp only
  rw [walkLoop_flat (longRunTrace (m + 1)) 65535 m 1 (1 + 1 + 1) _ (by omega)
      (by rw [hlen]; omega)
      (fun j hj1 hj2 => sample_longRunTrace_flat (m + 1) j (by omega) (by omega))]
  rw [show (1 : Nat) = 0 + 1 from rfl, walkLoop_succ, show 0 + 1 + 1 + 1 + m = m + 3 by omega, e3]
  simp only [walkLoop, hs.1]

theorem decode_longRunTrace (n : Nat) (h1 : 16385 ≤ n) (h2 : n ≤ 49149) :
    (manchester_decode (longRunTrace n)).ret = none ∧
    (manchester_decode (longRunTrace n)).dataout = [1] := by
  obtain ⟨ok, hw⟩ := pulseWalk_longRunTrace n h1 h2
  have hd : ∃ ok1, decodeLoops 0 (longRunTrace n) =
      Step.cont { bit2idx := 1, warnings := 2,
                  bitStream := ((List.replicate (n + 3) 0).set 1 1).set 0 1, ok := ok1 } := by
    unfold decodeLoops
    rw [highOf_longRunTrace, hw]
    simp only [ne_eq, not_true_eq_false, if_false, length_longRunTrace]
    simp only [show (2 : Nat) = 0 + 1 + 1 from rfl, pairLoop, pairStep, getD_set,
      getD_replicate_zero, List.length_replicate]
    norm_num
  obtain ⟨ok1, hd⟩ := hd
  unfold manchester_decode
  rw [hd]
  simp [List.replicate_succ]

/-- C4 (counterexample). The trace `sentinelTrace` has 16388 samples and one
rising event, so its clock is the sentinel `0xFFFF`; its run of 16385 high
samples falls into the short band of the sentinel, no `return 0` exit is
taken, and one decoded bit is copied to the output. -/
theorem sentinel_clock_decodes_a_bit :
    sentinelTrace.length = 16388 ∧ risingEvents sentinelTrace < 2 ∧
    clockOf sentinelTrace = 0xFFFF ∧
    (manchester_decode sentinelTrace).ret ≠ some 0 ∧
    (manchester_decode sentinelTrace).dataout = [1] := by
  unfold sentinelTrace
  obtain ⟨d1, d2⟩ := decode_longRunTrace 16385 (by norm_num) (by norm_num)
  refine ⟨by rw [length_longRunTrace], ?_, clockOf_longRunTrace _ (by norm_num),
    by rw [d1]; exact Option.noConfusion, d2⟩
  rw [risingEvents_longRunTrace _ (by norm_num)]
  norm_num

/-! ## Traces made of held symbols -/

theorem length_holdSamples (h : Nat) (syms : List Nat) :
    (holdSamples h syms).length = syms.length * h := by
  induction syms with
  | nil => simp [holdSamples]
  | cons x xs ih =>
    simp only [holdSamples, List.length_append, List.length_replicate, ih, List.length_cons]
    ring

theorem mem_holdSamples (h : Nat) (syms : List Nat) :
    ∀ x ∈ holdSamples h syms, x ∈ syms := by
  induction syms with
  | nil => intro x hx; simp [holdSamples] at hx
  | cons y ys ih =>
    intro x hx
    simp only [holdSamples, List.mem_append, List.mem_replicate] at hx
    rcases hx with ⟨_, rfl⟩ | hx
    · exact List.mem_cons_self _ _
    · exact List.mem_cons_of_mem _ (ih x hx)

/-- Sample `k * h + r` of a held trace is symbol `k`. -/
theorem sample_holdSamples (h : Nat) (syms : List Nat) :
    ∀ (k r : Nat), r < h → sample (holdSamples h syms) (k * h + r) = syms.getD k 0 := by
  induction syms with
  | nil => intro k r _; simp [holdSamples, sample]
  | cons x xs ih =>
    intro k r hr
    cases k with
    | zero =>
      simp only [holdSamples, sample, Nat.zero_mul, Nat.zero_add, List.getD_cons_zero]
      rw [List.getD_append _ _ _ _ (by simpa using hr)]
      rw [List.getD_eq_getElem?_getD]
      simp [List.getElem?_replicate, hr]
    | succ k =>
      have := ih k r hr
      simp only [sample] at this
      simp only [holdSamples, sample, List.getD_cons_succ]
      rw [List.getD_append_right _ _ _ _ (by simp [Nat.succ_mul]; omega)]
      simp only [List.length_replicate]
      rw [show (k + 1) * h + r - h = k * h + r by rw [Nat.succ_mul]; omega]
      exact this

theorem sample_holdSamples_mul (h : Nat) (syms : List Nat) (k : Nat) (hh : 0 < h) :
    sample (holdSamples h syms) (k * h) = syms.getD k 0 := by
  simpa using sample_holdSamples h syms k 0 hh

theorem sample_holdSamples_pred (h : Nat) (syms : List Nat) (k : Nat) (hh : 0 < h) :
    sample (holdSamples h syms) ((k + 1) * h - 1) = syms.getD k 0 := by
  have := sample_holdSamples h syms k (h - 1) (by omega)
  rw [show (k + 1) * h - 1 = k * h + (h - 1) by rw [Nat.succ_mul]; omega]
  exact this

/-- Inside a symbol a sample equals its predecessor. -/
theorem sample_holdSamples_flat (h : Nat) (syms : List Nat) (k j : Nat)
    (h1 : k * h < j) (h2 : j < k * h + h) :
    sample (holdSamples h syms) (j - 1) = sample (holdSamples h syms) j := by
  obtain ⟨r, rfl⟩ : ∃ r, j = k * h + r := ⟨j - k * h, by omega⟩
  rw [show k * h + r - 1 = k * h + (r - 1) by omega,
    sample_holdSamples h syms k (r - 1) (by omega), sample_holdSamples h syms k r (by omega)]

/-! ## Symbols of encoded patterns -/

theorem length_encodeBits (bits : List Nat) : (encodeBits bits).length = 2 * bits.length := by
  induction bits with
  | nil => rfl
  | cons b bs ih =>
    simp only [encodeBits, List.length_append, ih, List.length_cons]
    unfold encodeBit
    split <;> simp <;> omega

theorem mem_encodeBits (bits : List Nat) : ∀ x ∈ encodeBits bits, x ≤ 1 := by
  induction bits with
  | nil => intro x hx; simp [encodeBits] at hx
  | cons b bs ih =>
    intro x hx
    simp only [encodeBits, List.mem_append] at hx
    rcases hx with hx | hx
    · unfold encodeBit at hx
      split at hx <;> simp at hx <;> omega
    · exact ih x hx

/-- The two symbols of pattern bit `m`. -/
theorem getD_encodeBits (bits : List Nat) :
    ∀ m, m < bits.length →
      (encodeBits bits).getD (2 * m) 0 = (if bits.getD m 0 = 1 then 0 else 1) ∧
      (encodeBits bits).getD (2 * m + 1) 0 = (if bits.getD m 0 = 1 then 1 else 0) := by
  induction bits with
  | nil => intro m hm; simp at hm
  | cons b bs ih =>
    intro m hm
    cases m with
    | zero =>
      simp only [encodeBits, encodeBit, List.getD_cons_zero, Nat.mul_zero, Nat.zero_add]
      by_cases hb : b = 1 <;> simp [hb]
    | succ m =>
      obtain ⟨e1, e2⟩ := ih m (by simpa using hm)
      have hsplit : ∀ j, (encodeBits (b :: bs)).getD (j + 2) 0 = (encodeBits bs).getD j 0 := by
        intro j
        simp only [encodeBits, encodeBit]
        by_cases hb : b = 1 <;> simp [hb]
      rw [show 2 * (m + 1) = 2 * m + 2 by ring, show 2 * m + 2 + 1 = (2 * m + 1) + 2 by ring,
        hsplit, hsplit, e1, e2]
      simp

/-! ## The clock of a held trace -/

theorem clockLoop_succ (data : List Nat) (high fuel i : Nat) (c : ClockScan) :
    clockLoop data high (fuel + 1) i c = clockLoop data high fuel (i + 1) (clockStep data high i c) :=
  rfl

theorem clockStep_no_event (data : List Nat) (high i : Nat) (c : ClockScan)
    (h : ¬ (sample data (i - 1) ≠ sample data i ∧ sample data i = high))
    (h1 : 1 ≤ i) (h2 : i < data.length) :
    clockStep data high i c = c := by
  have hd : decide (1 ≤ i ∧ i < data.length) = true := by simp [h1, h2]
  simp only [clockStep]
  rw [if_neg h, hd, Bool.and_true]

theorem clockStep_event (data : List Nat) (high i : Nat) (c : ClockScan)
    (h : sample data (i - 1) ≠ sample data i ∧ sample data i = high)
    (h1 : 1 ≤ i) (h2 : i < data.length) :
    clockStep data high i c =
      { clock := if c.lastpeak ≠ 0 ∧ i - c.lastpeak < c.clock then i - c.lastpeak else c.clock
        lastpeak := i
        ok := c.ok } := by
  have hd : decide (1 ≤ i ∧ i < data.length) = true := by simp [h1, h2]
  simp only [clockStep]
  rw [if_pos h, hd, Bool.and_true]

theorem clockLoop_flat (data : List Nat) (high : Nat) :
    ∀ (n fuel i : Nat) (c : ClockScan), 1 ≤ i → i + n ≤ data.length →
      (∀ j, i ≤ j → j < i + n → sample data (j - 1) = sample data j) →
      clockLoop data high (n + fuel) i c = clockLoop data high fuel (i + n) c := by
  intro n
  induction n with
  | zero => intro fuel i c _ _ _; simp
  | succ n ih =>
    intro fuel i c h1 h2 h
    rw [show n + 1 + fuel = (n + fuel) + 1 by ring, clockLoop_succ,
      clockStep_no_event data high i c (fun hc => hc.1 (h i (le_refl i) (by omega))) h1 (by omega)]
    rw [ih fuel (i + 1) c (by omega) (by omega) (fun j hj1 hj2 => h j (by omega) (by omega))]
    congr 1
    ring

/-- One symbol of a held trace: only its first sample can be a rising event. -/
theorem clockLoop_block (h : Nat) (syms : List Nat) (high k fuel : Nat) (c : ClockScan)
    (hlen : (k + 1) * h ≤ (holdSamples h syms).length) (hh : 1 ≤ h) :
    clockLoop (holdSamples h syms) high (h + fuel) (k * h) c =
      clockLoop (holdSamples h syms) high fuel ((k + 1) * h)
        (clockStep (holdSamples h syms) high (k * h) c) := by
  have e : (k + 1) * h = k * h + h := Nat.succ_mul k h
  rw [show h + fuel = ((h - 1) + fuel) + 1 by omega, clockLoop_succ]
  rw [clockLoop_flat (holdSamples h syms) high (h - 1) fuel (k * h + 1) _ (by omega) (by omega)
    (fun j hj1 hj2 => sample_holdSamples_flat h syms k j (by omega) (by omega))]
  congr 1
  omega

theorem clockStep_block_event (h : Nat) (syms : List Nat) (high k : Nat) (c : ClockScan)
    (hlen : (k + 2) * h ≤ (holdSamples h syms).length) (hh : 1 ≤ h)
    (he : syms.getD (k + 1) 0 = high ∧ syms.getD k 0 ≠ high) :
    clockStep (holdSamples h syms) high ((k + 1) * h) c =
      { clock := if c.lastpeak ≠ 0 ∧ (k + 1) * h - c.lastpeak < c.clock
          then (k + 1) * h - c.lastpeak else c.clock
        lastpeak := (k + 1) * h
        ok := c.ok } := by
  have e1 : (k + 1) * h = k * h + h := Nat.succ_mul k h
  have e2 : (k + 2) * h = k * h + h + h := by rw [Nat.add_mul]; omega
  apply clockStep_event
  · rw [sample_holdSamples_pred h syms k hh, sample_holdSamples_mul h syms (k + 1) hh]
    exact ⟨by rw [he.1]; exact he.2, he.1⟩
  · omega
  · omega

theorem clockStep_block_no_event (h : Nat) (syms : List Nat) (high k : Nat) (c : ClockScan)
    (hlen : (k + 2) * h ≤ (holdSamples h syms).length) (hh : 1 ≤ h)
    (he : ¬ (syms.getD (k + 1) 0 = high ∧ syms.getD k 0 ≠ high)) :
    clockStep (holdSamples h syms) high ((k + 1) * h) c = c := by
  have e1 : (k + 1) * h = k * h + h := Nat.succ_mul k h
  have e2 : (k + 2) * h = k * h + h + h := by rw [Nat.add_mul]; omega
  apply clockStep_no_event
  · rw [sample_holdSamples_pred h syms k hh, sample_holdSamples_mul h syms (k + 1) hh]
    rintro ⟨h1, h2⟩
    exact he ⟨h2, by rw [← h2]; exact h1⟩
  · omega
  · omega

/-- Once the clock is `2 * h` and the last peak is the start of a high symbol,
the rest of a held trace leaves the clock at `2 * h`: two rising events are
at least two symbols apart. -/
theorem clockLoop_held (h : Nat) (syms : List Nat) (high : Nat) (hh : 1 ≤ h) :
    ∀ (d k : Nat) (c : ClockScan), 1 ≤ k → (k + d) * h ≤ (holdSamples h syms).length →
      c.clock = 2 * h →
      (∃ k0, k0 < k ∧ c.lastpeak = k0 * h ∧ syms.getD k0 0 = high) →
      (clockLoop (holdSamples h syms) high (d * h) (k * h) c).clock = 2 * h := by
  intro d
  induction d with
  | zero => intro k c _ _ hc _; simpa [clockLoop] using hc
  | succ d ih =>
    intro k c hk hlen hc hp
    obtain ⟨k1, rfl⟩ : ∃ k1, k = k1 + 1 := ⟨k - 1, by omega⟩
    have e3 : (k1 + 1 + (d + 1)) * h = (k1 + 1 + 1 + d) * h := by congr 1; omega
    have hle : (k1 + 1 + 1) * h ≤ (k1 + 1 + 1 + d) * h := Nat.mul_le_mul_right _ (by omega)
    have hl2 : (k1 + 2) * h ≤ (holdSamples h syms).length := by
      rw [show k1 + 2 = k1 + 1 + 1 from rfl]; omega
    rw [show (d + 1) * h = h + d * h by rw [Nat.succ_mul]; omega,
      clockLoop_block h syms high (k1 + 1) (d * h) c (by omega) hh]
    apply ih (k1 + 1 + 1) _ (by omega) (by rw [← e3]; exact hlen)
    · by_cases he : syms.getD (k1 + 1) 0 = high ∧ syms.getD k1 0 ≠ high
      · rw [clockStep_block_event h syms high k1 c hl2 hh he]
        simp only
        obtain ⟨k0, hk0, hl, hs⟩ := hp
        have hne : k0 ≠ k1 := by
          rintro rfl
          exact he.2 hs
        have hk2 : k0 + 2 ≤ k1 + 1 := by omega
        have hmul : (k0 + 2) * h ≤ (k1 + 1) * h := Nat.mul_le_mul_right _ hk2
        have e4 : (k0 + 2) * h = k0 * h + 2 * h := Nat.add_mul _ _ _
        have : ¬ (c.lastpeak ≠ 0 ∧ (k1 + 1) * h - c.lastpeak < c.clock) := by
          rw [hl, hc]
          omega
        rw [if_neg this]
        exact hc
      · rw [clockStep_block_no_event h syms high k1 c hl2 hh he]
        exact hc
    · by_cases he : syms.getD (k1 + 1) 0 = high ∧ syms.getD k1 0 ≠ high
      · rw [clockStep_block_event h syms high k1 c hl2 hh he]
        exact ⟨k1 + 1, by omega, rfl, he.1⟩
      · rw [clockStep_block_no_event h syms high k1 c hl2 hh he]
        obtain ⟨k0, hk0, hl, hs⟩ := hp
        exact ⟨k0, by omega, hl, hs⟩

/-! ## Symbols of a framed pattern -/

theorem length_framedSymbols (bits : List Nat) :
    (framedSymbols bits).length = 2 * bits.length + 5 := by
  simp only [framedSymbols, List.length_append, length_encodeBits, List.length_cons,
    List.length_nil]
  omega

theorem getD_framedSymbols_lt (bits : List Nat) (k : Nat) (hk : k < 2 * bits.length + 4) :
    (framedSymbols bits).getD k 0 = (encodeBits (1 :: 1 :: bits)).getD k 0 := by
  unfold framedSymbols
  rw [List.getD_append _ _ _ _ (by rw [length_encodeBits]; simp only [List.length_cons]; omega)]

/-- The two halves of bit `j` of the framed pattern `1, 1, bits`. -/
theorem framedSymbols_pair (bits : List Nat) (j : Nat) (hj : j < bits.length + 2) :
    (framedSymbols bits).getD (2 * j) 0 = (if (1 :: 1 :: bits).getD j 0 = 1 then 0 else 1) ∧
    (framedSymbols bits).getD (2 * j + 1) 0 = (if (1 :: 1 :: bits).getD j 0 = 1 then 1 else 0) := by
  rw [getD_framedSymbols_lt bits (2 * j) (by omega),
    getD_framedSymbols_lt bits (2 * j + 1) (by omega)]
  exact getD_encodeBits (1 :: 1 :: bits) j (by simpa using hj)

theorem framedSymbols_head (bits : List Nat) :
    (framedSymbols bits).getD 0 0 = 0 ∧ (framedSymbols bits).getD 1 0 = 1 ∧
    (framedSymbols bits).getD 2 0 = 0 ∧ (framedSymbols bits).getD 3 0 = 1 := by
  have h0 := framedSymbols_pair bits 0 (by omega)
  have h1 := framedSymbols_pair bits 1 (by omega)
  simp only [Nat.mul_zero, Nat.zero_add, List.getD_cons_zero, if_true, Nat.mul_one,
    List.getD_cons_succ] at h0 h1
  exact ⟨h0.1, h0.2, h1.1, h1.2⟩

/-- The closing symbol is opposite to the last half bit. -/
theorem framedSymbols_closing (bits : List Nat) :
    (framedSymbols bits).getD (2 * bits.length + 4) 0 =
      1 - (framedSymbols bits).getD (2 * bits.length + 3) 0 := by
  have hlen : (encodeBits (1 :: 1 :: bits)).length = 2 * bits.length + 4 := by
    rw [length_encodeBits]; simp only [List.length_cons]; omega
  rw [getD_framedSymbols_lt bits (2 * bits.length + 3) (by omega)]
  unfold framedSymbols
  rw [List.getD_append_right _ _ _ _ (by omega), hlen]
  simp only [Nat.sub_self, List.getD_cons_zero]
  congr 1
  rw [List.getLastD_eq_getLast?, List.getLast?_eq_getElem?, hlen, List.getD_eq_getElem?_getD]
  rfl

theorem framedSymbols_le_one (bits : List Nat) : ∀ x ∈ framedSymbols bits, x ≤ 1 := by
  intro x hx
  simp only [framedSymbols, List.mem_append, List.mem_singleton] at hx
  rcases hx with hx | hx
  · exact mem_encodeBits _ x hx
  · omega

theorem framedSymbols_halves (bits : List Nat) (j : Nat) (hj : j < bits.length + 2) :
    (framedSymbols bits).getD (2 * j + 1) 0 ≠ (framedSymbols bits).getD (2 * j) 0 := by
  obtain ⟨e1, e2⟩ := framedSymbols_pair bits j hj
  rw [e1, e2]
  split <;> simp

/-! ## Levels, clock and start point of a framed trace -/

theorem length_framedTrace (h : Nat) (bits : List Nat) :
    (framedTrace h bits).length = (2 * bits.length + 5) * h := by
  rw [framedTrace, length_holdSamples, length_framedSymbols]

theorem highOf_framedTrace (h : Nat) (bits : List Nat) : highOf (framedTrace h bits) = 1 := by
  rw [highOf_eq_one_iff]
  intro x hx
  exact framedSymbols_le_one bits x (mem_holdSamples h _ x hx)

theorem clockOf_framedTrace (h : Nat) (bits : List Nat) (hh : 1 ≤ h) (hc : 2 * h < 0xFFFF) :
    clockOf (framedTrace h bits) = 2 * h := by
  unfold clockOf detectClock
  rw [highOf_framedTrace]
  obtain ⟨s0, s1, s2, s3⟩ := framedSymbols_head bits
  have hlen := length_framedTrace h bits
  unfold framedTrace at hlen ⊢
  set n := bits.length with hn
  have em : (2 * n + 5) * h = 2 * n * h + 5 * h := by ring
  have ed : (3 + 1 + (2 * n + 1)) * h = (2 * n + 5) * h := by ring
  have ef : (2 * n + 1) * h = 2 * n * h + h := by ring
  -- the first symbol, from index 1 on
  rw [hlen, show (2 * n + 5) * h - 1 = (h - 1) + (h + (h + (h + (2 * n + 1) * h))) by omega,
    clockLoop_flat _ 1 (h - 1) _ 1 _ (le_refl 1) (by omega)
      (fun j hj1 hj2 => sample_holdSamples_flat h _ 0 j (by omega) (by omega)),
    show 1 + (h - 1) = 1 * h by omega]
  -- symbols 1, 2 and 3
  rw [clockLoop_block h _ 1 1 _ _ (by omega) hh,
    clockStep_block_event h _ 1 0 _ (by omega) hh ⟨s1, by rw [s0]; decide⟩,
    clockLoop_block h _ 1 (1 + 1) _ _ (by omega) hh,
    clockStep_block_no_event h _ 1 1 _ (by omega) hh
      (fun he => by have := he.1; change (framedSymbols bits).getD 2 0 = 1 at this; omega),
    clockLoop_block h _ 1 (1 + 1 + 1) _ _ (by omega) hh,
    clockStep_block_event h _ 1 2 _ (by omega) hh ⟨s3, by rw [s2]; decide⟩]
  -- the other symbols
  apply clockLoop_held h _ 1 hh (2 * n + 1) (1 + 1 + 1 + 1) _ (by omega)
  · rw [hlen]; apply Nat.le_of_eq; congr 1
  · simp only
    have : (0 + 1) * h ≠ 0 ∧ (2 + 1) * h - (0 + 1) * h < 65535 := by
      constructor <;> omega
    simp only [Nat.zero_add, ne_eq, not_true_eq_false, false_and, if_false] at this ⊢
    rw [if_pos this]
    omega
  · exact ⟨3, by omega, rfl, s3⟩

/-! ## The start point of a framed trace -/

theorem skipToHigh_spec (data : List Nat) (high a : Nat) :
    ∀ (fuel i : Nat), i ≤ a → a < i + fuel →
      (∀ j, i ≤ j → j < a → sample data j ≠ high) → sample data a = high →
      skipToHigh data high fuel i = a := by
  intro fuel
  induction fuel with
  | zero => intro i h1 h2; omega
  | succ fuel ih =>
    intro i h1 h2 h3 h4
    simp only [skipToHigh]
    by_cases hi : i = a
    · subst hi; rw [if_pos h4]
    · rw [if_neg (h3 i (le_refl i) (by omega))]
      exact ih (i + 1) (by omega) (by omega) (fun j hj1 hj2 => h3 j (by omega) hj2) h4

theorem findLow_spec (data : List Nat) (low a : Nat) :
    ∀ (fuel i : Nat), i ≤ a → a < i + fuel →
      (∀ j, i ≤ j → j < a → sample data j ≠ low) → sample data a = low →
      findLow data low fuel i = (a, a) := by
  intro fuel
  induction fuel with
  | zero => intro i h1 h2; omega
  | succ fuel ih =>
    intro i h1 h2 h3 h4
    simp only [findLow]
    by_cases hi : i = a
    · subst hi; rw [if_pos h4]
    · rw [if_neg (h3 i (le_refl i) (by omega))]
      exact ih (i + 1) (by omega) (by omega) (fun j hj1 hj2 => h3 j (by omega) hj2) h4

theorem firstTransition_framedTrace (h : Nat) (bits : List Nat) (hh : 1 ≤ h) :
    startOf (framedTrace h bits) = 2 * h ∧ lastvalOf (framedTrace h bits) = 2 * h := by
  obtain ⟨s0, s1, s2, _⟩ := framedSymbols_head bits
  have hlen := length_framedTrace h bits
  have em : (2 * bits.length + 5) * h = 2 * bits.length * h + 5 * h := by ring
  have e1 : skipToHigh (framedTrace h bits) 1 (framedTrace h bits).length 0 = h := by
    apply skipToHigh_spec _ _ _ _ _ (Nat.zero_le _) (by omega)
    · intro j _ hj
      have := sample_holdSamples h (framedSymbols bits) 0 j hj
      rw [Nat.zero_mul, Nat.zero_add] at this
      rw [framedTrace, this, s0]
      decide
    · have := sample_holdSamples_mul h (framedSymbols bits) 1 hh
      rw [Nat.one_mul] at this
      rw [framedTrace, this, s1]
  have e2 : findLow (framedTrace h bits) 0 ((framedTrace h bits).length - h) h = (2 * h, 2 * h) := by
    apply findLow_spec _ _ _ _ _ (by omega) (by omega)
    · intro j hj1 hj2
      have := sample_holdSamples h (framedSymbols bits) 1 (j - h) (by omega)
      rw [Nat.one_mul, show h + (j - h) = j by omega] at this
      rw [framedTrace, this, s1]
      decide
    · have := sample_holdSamples_mul h (framedSymbols bits) 2 hh
      rw [framedTrace, this, s2]
  unfold startOf lastvalOf firstTransition
  rw [highOf_framedTrace, lowOf_eq_zero]
  simp only [e1, e2, and_self]

/-! ## The walk over a held trace -/

theorem classify_half (h a b : Nat) (hh : 2 ≤ h) (e : a = b + h) :
    classify (2 * h) ((a : Int) - (b : Int)) = Pulse.short := by
  subst e
  unfold classify
  have : Int.natAbs (((b + h : Nat) : Int) - (b : Int) - ((2 * h / 2 : Nat) : Int)) < 2 * h / 4 := by
    omega
  rw [if_pos this]

theorem classify_full (h a b : Nat) (hh : 2 ≤ h) (e : a = b + 2 * h) :
    classify (2 * h) ((a : Int) - (b : Int)) = Pulse.long := by
  subst e
  unfold classify
  have h1 : ¬ Int.natAbs (((b + 2 * h : Nat) : Int) - (b : Int) - ((2 * h / 2 : Nat) : Int)) <
      2 * h / 4 := by omega
  have h2 : Int.natAbs (((b + 2 * h : Nat) : Int) - (b : Int) - ((2 * h : Nat) : Int)) <
      2 * h / 4 := by omega
  rw [if_neg h1, if_pos h2]

theorem classify_zero (h a : Nat) (hh : 1 ≤ h) :
    classify (2 * h) ((a : Int) - (a : Int)) = Pulse.anomaly := by
  unfold classify
  have h1 : ¬ Int.natAbs ((a : Int) - (a : Int) - ((2 * h / 2 : Nat) : Int)) < 2 * h / 4 := by
    omega
  have h2 : ¬ Int.natAbs ((a : Int) - (a : Int) - ((2 * h : Nat) : Int)) < 2 * h / 4 := by
    omega
  rw [if_neg h1, if_neg h2]

/-- One symbol of a held trace: only its first sample can be a transition. -/
theorem walkLoop_block (h : Nat) (syms : List Nat) (clock k fuel : Nat) (w : Walk)
    (hlen : (k + 1) * h ≤ (holdSamples h syms).length) (hh : 1 ≤ h) :
    walkLoop (holdSamples h syms) clock (h + fuel) (k * h) w =
      match walkStep (holdSamples h syms) clock (k * h) w with
      | Step.abort why ok => Step.abort why ok
      | Step.cont w1 => walkLoop (holdSamples h syms) clock fuel ((k + 1) * h) w1 := by
  have e : (k + 1) * h = k * h + h := Nat.succ_mul k h
  rw [show h + fuel = ((h - 1) + fuel) + 1 by omega, walkLoop_succ]
  cases walkStep (holdSamples h syms) clock (k * h) w with
  | abort why ok => rfl
  | cont w1 =>
    simp only
    rw [walkLoop_flat (holdSamples h syms) clock (h - 1) fuel (k * h + 1) _ (by omega) (by omega)
      (fun j hj1 hj2 => sample_holdSamples_flat h syms k j (by omega) (by omega))]
    congr 1
    omega

theorem SymbolsWritten.append {syms : List Nat} {len : Nat} {w : Walk}
    (hs : SymbolsWritten syms len w) (hb : 1 ≤ w.bitidx) (hlt : w.bitidx < len)
    (lastval warnings : Nat) (ok : Bool) :
    SymbolsWritten syms len
      { lastval := lastval, bitidx := w.bitidx + 1, warnings := warnings,
        bitStream := w.bitStream.set w.bitidx (syms.getD (w.bitidx + 1) 0), ok := ok } := by
  obtain ⟨h1, h2⟩ := hs
  refine ⟨by simp [h1], ?_⟩
  intro idx
  simp only
  rw [getD_set, h2 idx, h1]
  by_cases hi : idx = w.bitidx
  · rw [hi]
    have : 1 ≤ w.bitidx ∧ w.bitidx < w.bitidx + 1 := ⟨hb, by omega⟩
    rw [if_pos ⟨rfl, hlt⟩, if_pos this]
  · have hc : ¬ (idx = w.bitidx ∧ w.bitidx < len) := fun h => hi h.1
    rw [if_neg hc]
    by_cases hr : 1 ≤ idx ∧ idx < w.bitidx
    · have : 1 ≤ idx ∧ idx < w.bitidx + 1 := ⟨hr.1, by omega⟩
      rw [if_pos hr, if_pos this]
    · have : ¬ (1 ≤ idx ∧ idx < w.bitidx + 1) := fun h => hr ⟨h.1, by omega⟩
      rw [if_neg hr, if_neg this]

/-! ## The walk over one or two symbols -/

/-- A symbol that ends a run of one symbol: one symbol is appended. -/
theorem walk_block_short (h : Nat) (syms : List Nat) (k fuel : Nat) (w : Walk)
    (hh : 2 ≤ h) (hlen : (k + 2) * h ≤ (holdSamples h syms).length)
    (hl : w.lastval = k * h) (hne : syms.getD (k + 1) 0 ≠ syms.getD k 0)
    (hg : ¬ (holdSamples h syms).length * 2 / (2 * h) + 8 < w.bitidx) :
    ∃ ok, walkLoop (holdSamples h syms) (2 * h) (h + fuel) ((k + 1) * h) w =
      walkLoop (holdSamples h syms) (2 * h) fuel ((k + 2) * h)
        { lastval := (k + 1) * h, bitidx := w.bitidx + 1, warnings := w.warnings,
          bitStream := w.bitStream.set w.bitidx (syms.getD k 0), ok := ok } := by
  have e1 : (k + 1) * h = k * h + h := Nat.succ_mul k h
  have hp := sample_holdSamples_pred h syms k (by omega)
  have hm := sample_holdSamples_mul h syms (k + 1) (by omega)
  obtain ⟨ok, e⟩ := walkStep_short (holdSamples h syms) (2 * h) ((k + 1) * h) w
    (by rw [hp, hm]; exact fun hc => hne hc.symm) hg
    (classify_half h _ _ hh (by rw [hl, e1]))
  refine ⟨ok, ?_⟩
  rw [walkLoop_block h syms (2 * h) (k + 1) fuel w hlen (by omega), e, hp]

/-- A symbol that ends a run of two symbols: two symbols are appended. -/
theorem walk_block_long (h : Nat) (syms : List Nat) (k fuel : Nat) (w : Walk)
    (hh : 2 ≤ h) (hlen : (k + 3) * h ≤ (holdSamples h syms).length)
    (hl : w.lastval = k * h) (heq : syms.getD (k + 1) 0 = syms.getD k 0)
    (hne : syms.getD (k + 2) 0 ≠ syms.getD (k + 1) 0)
    (hg : ¬ (holdSamples h syms).length * 2 / (2 * h) + 8 < w.bitidx) :
    ∃ ok, walkLoop (holdSamples h syms) (2 * h) (h + (h + fuel)) ((k + 1) * h) w =
      walkLoop (holdSamples h syms) (2 * h) fuel ((k + 3) * h)
        { lastval := (k + 2) * h, bitidx := w.bitidx + 2, warnings := w.warnings,
          bitStream := (w.bitStream.set w.bitidx (syms.getD (k + 1) 0)).set (w.bitidx + 1)
            (syms.getD (k + 1) 0), ok := ok } := by
  have e1 : (k + 1) * h = k * h + h := Nat.succ_mul k h
  have e2 : (k + 2) * h = k * h + 2 * h := Nat.add_mul _ _ _
  have e3 : (k + 3) * h = k * h + 3 * h := Nat.add_mul _ _ _
  have e4 : (k + 1 + 1) * h = k * h + 2 * h := by ring
  have hp := sample_holdSamples_pred h syms k (by omega)
  have hm := sample_holdSamples_mul h syms (k + 1) (by omega)
  have hp2 := sample_holdSamples_pred h syms (k + 1) (by omega)
  have hm2 := sample_holdSamples_mul h syms (k + 2) (by omega)
  have hflat := walkStep_flat (holdSamples h syms) (2 * h) ((k + 1) * h) w
    (by rw [hp, hm, heq]) (by omega) (by omega)
  obtain ⟨ok, e⟩ := walkStep_long (holdSamples h syms) (2 * h) ((k + 2) * h) w
    (by rw [hp2, hm2]; exact fun hc => hne hc.symm) hg
    (classify_full h _ _ hh (by rw [hl, e2]))
  refine ⟨ok, ?_⟩
  rw [walkLoop_block h syms (2 * h) (k + 1) (h + fuel) w (by omega) (by omega), hflat]
  simp only
  rw [show k + 1 + 1 = k + 2 from rfl,
    walkLoop_block h syms (2 * h) (k + 2) fuel w hlen (by omega), e, hp2]

/-- The start point: a transition with interval `0`, which is an anomaly. -/
theorem walk_block_start (h : Nat) (syms : List Nat) (k fuel : Nat) (w : Walk)
    (hh : 2 ≤ h) (hlen : (k + 2) * h ≤ (holdSamples h syms).length)
    (hl : w.lastval = (k + 1) * h) (hne : syms.getD (k + 1) 0 ≠ syms.getD k 0)
    (hg : ¬ (holdSamples h syms).length * 2 / (2 * h) + 8 < w.bitidx)
    (hw : w.warnings < 10) :
    ∃ ok, walkLoop (holdSamples h syms) (2 * h) (h + fuel) ((k + 1) * h) w =
      walkLoop (holdSamples h syms) (2 * h) fuel ((k + 2) * h)
        { lastval := (k + 1) * h, bitidx := w.bitidx, warnings := w.warnings + 1,
          bitStream := w.bitStream, ok := ok } := by
  have hp := sample_holdSamples_pred h syms k (by omega)
  have hm := sample_holdSamples_mul h syms (k + 1) (by omega)
  obtain ⟨ok, e⟩ := walkStep_anomaly (holdSamples h syms) (2 * h) ((k + 1) * h) w
    (by rw [hp, hm]; exact fun hc => hne hc.symm) hg
    (by rw [hl]; exact classify_zero h _ (by omega)) hw
  refine ⟨ok, ?_⟩
  rw [walkLoop_block h syms (2 * h) (k + 1) fuel w hlen (by omega), e]

/-- The two symbols of a bit, met when the open run is the symbol before. The
walk appends the symbol before and the first symbol of the bit. -/
theorem walk_bit (h : Nat) (syms : List Nat) (b fuel : Nat) (w : Walk)
    (hh : 2 ≤ h) (hlen : (b + 4) * h ≤ (holdSamples h syms).length)
    (hl : w.lastval = (b + 1) * h) (hb : w.bitidx = b) (hb1 : 1 ≤ b)
    (hs : SymbolsWritten syms (holdSamples h syms).length w)
    (hne : syms.getD (b + 3) 0 ≠ syms.getD (b + 2) 0)
    (hg : b + 2 ≤ (holdSamples h syms).length * 2 / (2 * h) + 8)
    (hroom : b + 1 < (holdSamples h syms).length) :
    ∃ w1, walkLoop (holdSamples h syms) (2 * h) (h + (h + fuel)) ((b + 2) * h) w =
        walkLoop (holdSamples h syms) (2 * h) fuel ((b + 4) * h) w1 ∧
      w1.lastval = (b + 3) * h ∧ w1.bitidx = b + 2 ∧ w1.warnings = w.warnings ∧
      SymbolsWritten syms (holdSamples h syms).length w1 := by
  have e3 : (b + 3) * h ≤ (b + 4) * h := Nat.mul_le_mul_right _ (by omega)
  by_cases hc : syms.getD (b + 2) 0 = syms.getD (b + 1) 0
  · obtain ⟨ok, e⟩ := walk_block_long h syms (b + 1) fuel w hh hlen hl hc hne
      (by rw [hb]; omega)
    have s1 := hs.append (by omega) (by omega) ((b + 3) * h) w.warnings ok
    have s2 := s1.append (by simp only; omega) (by simp only; omega) ((b + 3) * h)
      w.warnings ok
    simp only [hb] at s2
    rw [show b + 1 + 1 = b + 2 from rfl, ← hc] at s2
    refine ⟨{ lastval := (b + 3) * h, bitidx := w.bitidx + 2, warnings := w.warnings,
              bitStream := (w.bitStream.set w.bitidx (syms.getD (b + 2) 0)).set (w.bitidx + 1)
                (syms.getD (b + 2) 0), ok := ok }, e, rfl, by simp only; omega, rfl, ?_⟩
    simp only [hb]
    exact s2
  · obtain ⟨ok, e⟩ := walk_block_short h syms (b + 1) (h + fuel) w hh
      (by rw [show b + 1 + 2 = b + 3 from rfl]; omega) hl hc
      (by rw [hb]; omega)
    have s1 := hs.append (by omega) (by omega) ((b + 2) * h) w.warnings ok
    obtain ⟨ok2, e2⟩ := walk_block_short h syms (b + 2) fuel
      { lastval := (b + 2) * h, bitidx := w.bitidx + 1, warnings := w.warnings,
        bitStream := w.bitStream.set w.bitidx (syms.getD (b + 1) 0), ok := ok }
      hh hlen rfl hne (by simp only; omega)
    have s2 := s1.append (by simp only; omega) (by simp only; omega) ((b + 3) * h)
      w.warnings ok2
    simp only [hb] at s2
    refine ⟨{ lastval := (b + 3) * h, bitidx := w.bitidx + 1 + 1, warnings := w.warnings,
              bitStream := (w.bitStream.set w.bitidx (syms.getD (b + 1) 0)).set (w.bitidx + 1)
                (syms.getD (b + 2) 0), ok := ok2 }, ?_, rfl, by simp only; omega, rfl, ?_⟩
    · rw [e]; exact e2
    · simp only [hb]
      exact s2

/-! ## The walk over a run of bits and a closing symbol -/

theorem walk_bits (h : Nat) (syms : List Nat) (hh : 2 ≤ h) :
    ∀ (d b : Nat) (w : Walk), 1 ≤ b → w.lastval = (b + 1) * h → w.bitidx = b →
      SymbolsWritten syms (holdSamples h syms).length w →
      (∀ t, t < d → syms.getD (b + 2 * t + 3) 0 ≠ syms.getD (b + 2 * t + 2) 0) →
      syms.getD (b + 2 * d + 2) 0 ≠ syms.getD (b + 2 * d + 1) 0 →
      (b + 2 * d + 3) * h = (holdSamples h syms).length →
      b + 2 * d + 2 ≤ (holdSamples h syms).length * 2 / (2 * h) + 8 →
      b + 2 * d + 1 < (holdSamples h syms).length →
      ∃ w1, walkLoop (holdSamples h syms) (2 * h) ((2 * d + 1) * h) ((b + 2) * h) w =
          Step.cont w1 ∧
        w1.bitidx = b + 2 * d + 1 ∧ w1.warnings = w.warnings ∧
        SymbolsWritten syms (holdSamples h syms).length w1 := by
  intro d
  induction d with
  | zero =>
    intro b w hb1 hl hb hs _ hne hlen hg hroom
    simp only [Nat.mul_zero, Nat.add_zero, Nat.zero_add, Nat.one_mul] at hne hlen hg hroom ⊢
    obtain ⟨ok, e⟩ := walk_block_short h syms (b + 1) 0 w hh
      (by rw [show b + 1 + 2 = b + 3 from rfl, hlen]) hl hne (by rw [hb]; omega)
    have s1 := hs.append (by omega) (by omega) ((b + 1 + 1) * h) w.warnings ok
    rw [hb] at s1
    simp only [Nat.add_zero, walkLoop, hb] at e
    exact ⟨_, e, rfl, rfl, s1⟩
  | succ d ih =>
    intro b w hb1 hl hb hs hbits hne hlen hg hroom
    have el : (b + 4) * h ≤ (b + 2 * (d + 1) + 3) * h := Nat.mul_le_mul_right _ (by omega)
    obtain ⟨w1, e, l1, b1, w1w, s1⟩ := walk_bit h syms b ((2 * d + 1) * h) w hh
      (by rw [← hlen]; exact el) hl hb hb1 hs
      (by have := hbits 0 (by omega); simpa using this) (by omega) (by omega)
    obtain ⟨w2, e2, b2, w2w, s2⟩ := ih (b + 2) w1 (by omega) l1 b1 s1
      (fun t ht => by
        have := hbits (t + 1) (by omega)
        rw [show b + 2 * (t + 1) + 3 = b + 2 + 2 * t + 3 by ring,
          show b + 2 * (t + 1) + 2 = b + 2 + 2 * t + 2 by ring] at this
        exact this)
      (by
        rw [show b + 2 + 2 * d + 2 = b + 2 * (d + 1) + 2 by ring,
          show b + 2 + 2 * d + 1 = b + 2 * (d + 1) + 1 by ring]
        exact hne)
      (by rw [← hlen]; congr 1; ring) (by omega) (by omega)
    refine ⟨w2, ?_, by rw [b2]; ring, by rw [w2w, w1w], s2⟩
    rw [show (2 * (d + 1) + 1) * h = h + (h + (2 * d + 1) * h) by ring, e]
    exact e2

/-! ## The walk over a framed trace -/

theorem quotient_framedTrace (h : Nat) (bits : List Nat) (hh : 1 ≤ h) :
    (framedTrace h bits).length * 2 / (2 * h) = 2 * bits.length + 5 := by
  rw [length_framedTrace, show (2 * bits.length + 5) * h * 2 = (2 * bits.length + 5) * (2 * h) by
    ring]
  exact Nat.mul_div_cancel _ (by omega)

theorem pulseWalk_framedTrace (h : Nat) (bits : List Nat) (hh : 2 ≤ h) (hc : 2 * h < 0xFFFF) :
    ∃ w, pulseWalk (framedTrace h bits) = Step.cont w ∧
      w.bitidx = 2 * bits.length + 3 ∧ w.warnings = 1 ∧
      SymbolsWritten (framedSymbols bits) (framedTrace h bits).length w := by
  obtain ⟨s0, s1, s2, s3⟩ := framedSymbols_head bits
  have hlen := length_framedTrace h bits
  have hq := quotient_framedTrace h bits (by omega)
  have em : (2 * bits.length + 5) * h = 2 * (bits.length * h) + 5 * h := by ring
  have eh : bits.length * 2 ≤ bits.length * h := Nat.mul_le_mul_left _ hh
  unfold pulseWalk
  rw [clockOf_framedTrace h bits (by omega) hc, (firstTransition_framedTrace h bits (by omega)).1,
    (firstTransition_framedTrace h bits (by omega)).2]
  generalize (detectClock (framedTrace h bits) (highOf (framedTrace h bits))).ok = ok0
  unfold framedTrace at hlen hq ⊢
  -- the start point
  obtain ⟨ok1, e1⟩ := walk_block_start h (framedSymbols bits) 1 (h + (2 * bits.length + 1) * h)
    { lastval := 2 * h, bitidx := 1, warnings := 0,
      bitStream := List.replicate (holdSamples h (framedSymbols bits)).length 0, ok := ok0 }
    hh (by rw [hlen, em]; omega) rfl (by rw [s2, s1]; decide) (by rw [hq]; simp only; omega)
    (by simp)
  -- the low half of the second bit of the preamble
  obtain ⟨ok2, e2⟩ := walk_block_short h (framedSymbols bits) 2 ((2 * bits.length + 1) * h)
    { lastval := (1 + 1) * h, bitidx := 1, warnings := 0 + 1,
      bitStream := List.replicate (holdSamples h (framedSymbols bits)).length 0, ok := ok1 }
    hh (by rw [hlen, em]; omega) rfl (by rw [s3, s2]; decide) (by rw [hq]; simp only; omega)
  have hz : SymbolsWritten (framedSymbols bits) (holdSamples h (framedSymbols bits)).length
      { lastval := (1 + 1) * h, bitidx := 1, warnings := 0 + 1,
        bitStream := List.replicate (holdSamples h (framedSymbols bits)).length 0, ok := ok1 } := by
    refine ⟨by simp, ?_⟩
    intro idx
    have : ¬ (1 ≤ idx ∧ idx < 1) := by omega
    simp only
    rw [getD_replicate_zero, if_neg this]
  have hz1 := hz.append (by simp) (by simp only; rw [hlen, em]; omega) ((2 + 1) * h) (0 + 1) ok2
  simp only at hz1
  -- the pattern and the closing symbol
  have hlast : (framedSymbols bits).getD (2 * bits.length + 3) 0 ≤ 1 := by
    have := (framedSymbols_pair bits (bits.length + 1) (by omega)).2
    rw [show 2 * (bits.length + 1) + 1 = 2 * bits.length + 3 by ring] at this
    rw [this]
    split <;> omega
  obtain ⟨w, e3, b3, w3, s3'⟩ := walk_bits h (framedSymbols bits) hh bits.length 2
    { lastval := (2 + 1) * h, bitidx := 1 + 1, warnings := 0 + 1,
      bitStream := (List.replicate (holdSamples h (framedSymbols bits)).length 0).set 1
        ((framedSymbols bits).getD (1 + 1) 0), ok := ok2 }
    (by omega) rfl rfl hz1
    (fun t ht => by
      have := framedSymbols_halves bits (t + 2) (by omega)
      rw [show 2 * (t + 2) + 1 = 2 + 2 * t + 3 by ring,
        show 2 * (t + 2) = 2 + 2 * t + 2 by ring] at this
      exact this)
    (by
      have := framedSymbols_closing bits
      rw [show 2 + 2 * bits.length + 2 = 2 * bits.length + 4 by ring,
        show 2 + 2 * bits.length + 1 = 2 * bits.length + 3 by ring, this]
      omega)
    (by rw [hlen]; congr 1; ring) (by rw [hq]; omega) (by rw [hlen, em]; omega)
  refine ⟨w, ?_, by rw [b3]; ring, w3, s3'⟩
  rw [show (holdSamples h (framedSymbols bits)).length - 2 * h =
      h + (h + (2 * bits.length + 1) * h) by rw [hlen]; ring_nf; omega]
  exact e1.trans (e2.trans e3)

/-! ## Pairing aligned symbols -/

theorem pairStep_zero_one (len invert i : Nat) (p : Pairing)
    (ha : p.bitStream.getD i 0 = 0) (hb : p.bitStream.getD (i + 1) 0 = 1) :
    ∃ ok, pairStep len invert i p =
      Step.cont (i, { bit2idx := p.bit2idx + 1, warnings := p.warnings,
                      bitStream := p.bitStream.set p.bit2idx (1 ^^^ invert), ok := ok }) := by
  unfold pairStep
  simp only []
  rw [ha, hb, if_pos ⟨rfl, rfl⟩]
  exact ⟨_, rfl⟩

theorem pairStep_one_zero (len invert i : Nat) (p : Pairing)
    (ha : p.bitStream.getD i 0 = 1) (hb : p.bitStream.getD (i + 1) 0 = 0) :
    ∃ ok, pairStep len invert i p =
      Step.cont (i, { bit2idx := p.bit2idx + 1, warnings := p.warnings,
                      bitStream := p.bitStream.set p.bit2idx (0 ^^^ invert), ok := ok }) := by
  unfold pairStep
  simp only []
  rw [ha, hb, if_neg (by decide), if_pos ⟨rfl, rfl⟩]
  exact ⟨_, rfl⟩

theorem pairStep_fault (len invert i : Nat) (p : Pairing)
    (hf : ¬ (p.bitStream.getD i 0 = 0 ∧ p.bitStream.getD (i + 1) 0 = 1))
    (hg : ¬ (p.bitStream.getD i 0 = 1 ∧ p.bitStream.getD (i + 1) 0 = 0))
    (hw : p.warnings < 10) :
    ∃ ok, pairStep len invert i p =
      Step.cont (i + 1, { bit2idx := p.bit2idx, warnings := p.warnings + 1,
                          bitStream := p.bitStream, ok := ok }) := by
  unfold pairStep
  simp only []
  rw [if_neg hf, if_neg hg, if_neg (by omega)]
  exact ⟨_, rfl⟩

theorem pairLoop_succ (len invert bitidx fuel i i1 : Nat) (p p1 : Pairing) (hi : i < bitidx)
    (h : pairStep len invert i p = Step.cont (i1, p1)) :
    pairLoop len invert bitidx (fuel + 1) i p = pairLoop len invert bitidx fuel (i1 + 2) p1 := by
  simp only [pairLoop, hi, if_true, h]

/-- The pairing loop on the symbols of a bit pattern that start at the cursor:
it emits the bits of the pattern, in order, without a warning. -/
theorem pairLoop_aligned (len bitidx : Nat) :
    ∀ (rest : List Nat) (fuel i : Nat) (p : Pairing), (∀ b ∈ rest, b ≤ 1) →
      p.bit2idx < i → bitidx = i + 2 * rest.length → rest.length ≤ fuel →
      p.bit2idx + rest.length ≤ p.bitStream.length →
      (∀ t, t < rest.length →
        p.bitStream.getD (i + 2 * t) 0 = (if rest.getD t 0 = 1 then 0 else 1) ∧
        p.bitStream.getD (i + 2 * t + 1) 0 = (if rest.getD t 0 = 1 then 1 else 0)) →
      ∃ p1, pairLoop len 0 bitidx fuel i p = Step.cont p1 ∧
        p1.bit2idx = p.bit2idx + rest.length ∧ p1.warnings = p.warnings ∧
        p1.bitStream.length = p.bitStream.length ∧
        (∀ idx, idx < p.bit2idx → p1.bitStream.getD idx 0 = p.bitStream.getD idx 0) ∧
        (∀ t, t < rest.length → p1.bitStream.getD (p.bit2idx + t) 0 = rest.getD t 0) := by
  intro rest
  induction rest with
  | nil =>
    intro fuel i p _ _ hb _ _ _
    simp only [List.length_nil, Nat.mul_zero, Nat.add_zero] at hb
    refine ⟨p, ?_, rfl, rfl, rfl, fun _ _ => rfl, fun t ht => by simp at ht⟩
    cases fuel with
    | zero => rfl
    | succ fuel => simp [pairLoop, hb]
  | cons b rest ih =>
    intro fuel i p hbits hlt hb hfuel hroom hsym
    obtain ⟨fuel, rfl⟩ : ∃ f, fuel = f + 1 := ⟨fuel - 1, by simp at hfuel; omega⟩
    simp only [List.length_cons] at hb hfuel hroom
    have hb1 : b ≤ 1 := hbits b (List.mem_cons_self _ _)
    obtain ⟨ha, hb'⟩ := hsym 0 (by simp)
    simp only [Nat.mul_zero, Nat.add_zero, List.getD_cons_zero] at ha hb'
    have hi : i < bitidx := by omega
    -- the state after the pair at the cursor
    have hstep : ∃ ok, pairLoop len 0 bitidx (fuel + 1) i p =
        pairLoop len 0 bitidx fuel (i + 2)
          { bit2idx := p.bit2idx + 1, warnings := p.warnings,
            bitStream := p.bitStream.set p.bit2idx b, ok := ok } := by
      by_cases hb2 : b = 1
      · subst hb2
        obtain ⟨ok, e⟩ := pairStep_zero_one len 0 i p (by simpa using ha) (by simpa using hb')
        rw [Nat.xor_zero] at e
        exact ⟨ok, pairLoop_succ len 0 bitidx fuel i i _ _ hi e⟩
      · have hb0 : b = 0 := by omega
        subst hb0
        obtain ⟨ok, e⟩ := pairStep_one_zero len 0 i p (by simpa using ha) (by simpa using hb')
        rw [Nat.xor_zero] at e
        exact ⟨ok, pairLoop_succ len 0 bitidx fuel i i _ _ hi e⟩
    obtain ⟨ok, hstep⟩ := hstep
    obtain ⟨p1, e, e1, e2, e3, e4, e5⟩ := ih fuel (i + 2)
      { bit2idx := p.bit2idx + 1, warnings := p.warnings,
        bitStream := p.bitStream.set p.bit2idx b, ok := ok }
      (fun x hx => hbits x (List.mem_cons_of_mem _ hx)) (by simp only; omega) (by omega)
      (by omega) (by simp only [List.length_set]; omega)
      (fun t ht => by
        obtain ⟨u1, u2⟩ := hsym (t + 1) (by simp; omega)
        simp only [List.getD_cons_succ] at u1 u2
        simp only [getD_set]
        have n1 : ¬ (i + 2 + 2 * t = p.bit2idx ∧ p.bit2idx < p.bitStream.length) := by omega
        have n2 : ¬ (i + 2 + 2 * t + 1 = p.bit2idx ∧ p.bit2idx < p.bitStream.length) := by omega
        rw [if_neg n1, if_neg n2]
        rw [show i + 2 * (t + 1) = i + 2 + 2 * t by ring] at u1 u2
        exact ⟨u1, u2⟩)
    simp only [List.length_set] at e1 e2 e3 e4 e5
    refine ⟨p1, by rw [hstep, e], by rw [e1, List.length_cons]; ring, e2, e3, ?_, ?_⟩
    · intro idx hidx
      rw [e4 idx (by omega), getD_set]
      have : ¬ (idx = p.bit2idx ∧ p.bit2idx < p.bitStream.length) := by omega
      rw [if_neg this]
    · intro t ht
      cases t with
      | zero =>
        rw [Nat.add_zero, e4 p.bit2idx (by omega), getD_set]
        have : p.bit2idx = p.bit2idx ∧ p.bit2idx < p.bitStream.length := ⟨rfl, by omega⟩
        rw [if_pos this, List.getD_cons_zero]
      | succ t =>
        simp only [List.length_cons] at ht
        have := e5 t (by omega)
        rw [List.getD_cons_succ, ← this]
        congr 1
        ring

/-! ## Round trip -/

/-- What the loops of the source make of a framed noise-free trace: clock, end
state and bytes stored. -/
theorem framed_decode (h : Nat) (bits : List Nat) (hh : 2 ≤ h) (hc : 2 * h < 0xFFFF)
    (hbits : ∀ b ∈ bits, b = 0 ∨ b = 1) :
    clockOf (framedTrace h bits) = 2 * h ∧
    (∃ p, decodeLoops 0 (framedTrace h bits) = Step.cont p ∧ p.bit2idx = bits.length ∧
      p.warnings = 2) ∧
    (manchester_decode (framedTrace h bits)).dataout = bits := by
  obtain ⟨w, hw, hb, hwarn, hs1, hs2⟩ := pulseWalk_framedTrace h bits hh hc
  have hlen := length_framedTrace h bits
  have em : (2 * bits.length + 5) * h = 2 * (bits.length * h) + 5 * h := by ring
  have eh : bits.length * 2 ≤ bits.length * h := Nat.mul_le_mul_left _ hh
  obtain ⟨_, _, s2, _⟩ := framedSymbols_head bits
  -- the first pair is made of the unused cell 0 and the first symbol
  have h0 : w.bitStream.getD 0 0 = 0 := by
    have : ¬ (1 ≤ 0 ∧ 0 < w.bitidx) := by omega
    rw [hs2 0, if_neg this]
  have h1 : w.bitStream.getD 1 0 = 0 := by
    have : 1 ≤ 1 ∧ 1 < w.bitidx := by omega
    rw [hs2 1, if_pos this, s2]
  obtain ⟨ok1, e1⟩ := pairStep_fault (framedTrace h bits).length 0 0
    { bit2idx := 0, warnings := w.warnings, bitStream := w.bitStream, ok := w.ok }
    (by simp only [h0, h1]; decide) (by simp only [h0, h1]; decide) (by simp only; omega)
  -- the other pairs are the bits of the pattern
  obtain ⟨p1, e2, b2, w2, l2, _, g2⟩ := pairLoop_aligned (framedTrace h bits).length w.bitidx bits
    (2 * bits.length + 2) (0 + 1 + 2)
    { bit2idx := 0, warnings := w.warnings + 1, bitStream := w.bitStream, ok := ok1 }
    (fun b hb' => by rcases hbits b hb' with h | h <;> omega)
    (by simp only; omega) (by rw [hb]; omega) (by omega)
    (by simp only; rw [hs1, hlen, em]; omega)
    (fun t ht => by
      obtain ⟨u1, u2⟩ := framedSymbols_pair bits (t + 2) (by omega)
      simp only [List.getD_cons_succ] at u1 u2
      have c1 : 1 ≤ 0 + 1 + 2 + 2 * t ∧ 0 + 1 + 2 + 2 * t < w.bitidx := by omega
      have c2 : 1 ≤ 0 + 1 + 2 + 2 * t + 1 ∧ 0 + 1 + 2 + 2 * t + 1 < w.bitidx := by omega
      simp only
      rw [hs2 (0 + 1 + 2 + 2 * t), hs2 (0 + 1 + 2 + 2 * t + 1), if_pos c1, if_pos c2,
        show 0 + 1 + 2 + 2 * t + 1 = 2 * (t + 2) by ring, u1, u2]
      exact ⟨rfl, rfl⟩)
  simp only [Nat.zero_add] at b2 w2 l2 g2
  have hd : decodeLoops 0 (framedTrace h bits) = Step.cont p1 := by
    unfold decodeLoops
    rw [highOf_framedTrace, hw]
    simp only [ne_eq, not_true_eq_false, if_false]
    rw [hb, show 2 * bits.length + 3 = (2 * bits.length + 2) + 1 by ring,
      pairLoop_succ _ _ _ _ _ _ _ _ (by omega) e1,
      show 2 * bits.length + 2 + 1 = w.bitidx by omega]
    exact e2
  have htake : p1.bitStream.take bits.length = bits := by
    apply List.ext_getElem
    · rw [List.length_take, l2, hs1, hlen, em]; omega
    · intro t ht1 ht2
      have := g2 t ht2
      rw [List.getElem_take]
      have hl : t < p1.bitStream.length := by rw [l2, hs1, hlen, em]; omega
      simp only [List.getD_eq_getElem?_getD, List.getElem?_eq_getElem hl,
        List.getElem?_eq_getElem ht2, Option.getD_some] at this
      exact this
  refine ⟨clockOf_framedTrace h bits (by omega) hc, ⟨p1, hd, b2, by rw [w2, hwarn]⟩, ?_⟩
  unfold manchester_decode
  rw [hd]
  simp only [b2, htake]
  split
  · rfl
  · have : bits.length = 0 := by omega
    exact (List.length_eq_zero.1 this).symm

/-! ## Round trip through the walk -/

theorem pairSymbolsFrom_encodeBits : ∀ (bs : List Nat) (fuel : Nat),
    (∀ b ∈ bs, b = 0 ∨ b = 1) → bs.length ≤ fuel →
    pairSymbolsFrom fuel (encodeBits bs) = bs := by
  intro bs
  induction bs with
  | nil =>
    intro fuel _ _
    cases fuel <;> rfl
  | cons b bs ih =>
    intro fuel hb hf
    obtain ⟨f, rfl⟩ : ∃ f, fuel = f + 1 := ⟨fuel - 1, by simp only [List.length_cons] at hf; omega⟩
    have hrest := ih f (fun x hx => hb x (List.mem_cons_of_mem _ hx))
      (by simp only [List.length_cons] at hf; omega)
    rcases hb b (List.mem_cons_self _ _) with h0 | h1
    · subst h0
      simp only [encodeBits, encodeBit]
      simp [pairSymbolsFrom, hrest]
    · subst h1
      simp only [encodeBits, encodeBit]
      simp [pairSymbolsFrom, hrest]

theorem pairSymbols_encodeBits (bs : List Nat) (hb : ∀ b ∈ bs, b = 0 ∨ b = 1) :
    pairSymbols (encodeBits bs) = bs := by
  unfold pairSymbols
  exact pairSymbolsFrom_encodeBits bs _ hb (by rw [length_encodeBits]; omega)

theorem appendedSymbols_framedTrace (h : Nat) (bits : List Nat) (hh : 2 ≤ h) (w : Walk)
    (hb : w.bitidx = 2 * bits.length + 3)
    (hs : SymbolsWritten (framedSymbols bits) (framedTrace h bits).length w) :
    appendedSymbols w = encodeBits (1 :: bits) := by
  obtain ⟨hs1, hs2⟩ := hs
  have hlen := length_framedTrace h bits
  have em : (2 * bits.length + 5) * h = 2 * (bits.length * h) + 5 * h := by ring
  have eh : bits.length * 2 ≤ bits.length * h := Nat.mul_le_mul_left _ hh
  have hle : (encodeBits (1 :: bits)).length = 2 * bits.length + 2 := by
    rw [length_encodeBits]
    simp only [List.length_cons]
    omega
  unfold appendedSymbols
  apply List.ext_getElem
  · rw [List.length_drop, List.length_take, hs1, hlen, em, hle, hb]
    omega
  · intro t ht1 ht2
    rw [hle] at ht2
    rw [List.getElem_drop, List.getElem_take]
    have hl : 1 + t < w.bitStream.length := by rw [hs1, hlen, em]; omega
    have h1 := hs2 (1 + t)
    rw [if_pos (by omega), getD_framedSymbols_lt bits (1 + t + 1) (by omega)] at h1
    simp only [List.getD_eq_getElem?_getD, List.getElem?_eq_getElem hl, Option.getD_some] at h1
    rw [h1]
    have h2 : (encodeBits (1 :: 1 :: bits))[1 + t + 1]? = (encodeBits (1 :: bits))[t]? := by
      rw [show 1 + t + 1 = t + 2 by omega]
      show (encodeBit 1 ++ encodeBits (1 :: bits))[t + 2]? = _
      simp [encodeBit]
    rw [h2, List.getElem?_eq_getElem (by rw [hle]; exact ht2)]
    rfl

/-- C1 (as amended). For every bit pattern (bits `0` or `1`) whose first bit
is `1`, written here `1 :: bits`, and every half period `h >= 2` with clock
period `2 * h < 0xFFFF`: on the noise-free trace, in the pairing convention
of the decoder and with every symbol held for `h` samples, of one leading
bit `1`, the pattern, and one closing half bit at the level opposite to the
last half bit, `manchester_decode` finds `clock = 2 * h`, puts its start
point at the first sample of the pattern, and the walk reaches the end of
the trace without exit, having appended exactly the half-bit symbols of the
pattern, in order; paired two at a time from the first appended symbol these
symbols are the pattern: same bits, same length, same order. -/
theorem framed_round_trip (h : Nat) (bits : List Nat) (hh : 2 ≤ h) (hc : 2 * h < 0xFFFF)
    (hbits : ∀ b ∈ bits, b = 0 ∨ b = 1) :
    clockOf (framedTrace h bits) = 2 * h ∧
    startOf (framedTrace h bits) = 2 * h ∧
    ∃ w, pulseWalk (framedTrace h bits) = Step.cont w ∧
      appendedSymbols w = encodeBits (1 :: bits) ∧
      pairSymbols (appendedSymbols w) = 1 :: bits := by
  obtain ⟨w, hw, hb, _, hs⟩ := pulseWalk_framedTrace h bits hh hc
  have ha := appendedSymbols_framedTrace h bits hh w hb hs
  refine ⟨clockOf_framedTrace h bits (by omega) hc,
    (firstTransition_framedTrace h bits (by omega)).1, w, hw, ha, ?_⟩
  rw [ha]
  apply pairSymbols_encodeBits
  intro b hb'
  rcases List.mem_cons.1 hb' with e | e
  · exact Or.inr e
  · exact hbits b e

theorem framed_round_trip_witness :
    clockOf (framedTrace 2 [1, 0, 0, 1]) = 2 * 2 ∧
    startOf (framedTrace 2 [1, 0, 0, 1]) = 2 * 2 ∧
    ∃ w, pulseWalk (framedTrace 2 [1, 0, 0, 1]) = Step.cont w ∧
      appendedSymbols w = encodeBits (1 :: [1, 0, 0, 1]) ∧
      pairSymbols (appendedSymbols w) = 1 :: [1, 0, 0, 1] :=
  framed_round_trip 2 [1, 0, 0, 1] (by decide) (by decide) (by decide)

/-- C1 (counterexample). The noise-free trace of the pattern `1,1,1,1` with
clock period `4` (two samples per half bit): the clock is found to be `4`,
the walk starts at sample `4` and appends the five symbols `0,1,0,1,0` only,
which hold at most two bits (`1,1` when paired from the first appended
symbol); the bytes stored by the decode are the single bit `1`, not the
pattern. -/
theorem plain_round_trip_fails :
    manchesterTrace 2 [1, 1, 1, 1] = [0, 0, 1, 1, 0, 0, 1, 1, 0, 0, 1, 1, 0, 0, 1, 1] ∧
    clockOf (manchesterTrace 2 [1, 1, 1, 1]) = 4 ∧
    startOf (manchesterTrace 2 [1, 1, 1, 1]) = 4 ∧
    pulseWalk (manchesterTrace 2 [1, 1, 1, 1]) =
      Step.cont { lastval := 14, bitidx := 6, warnings := 1,
                  bitStream := [0, 0, 1, 0, 1, 0, 0, 0, 0, 0, 0, 0, 0, 0, 0, 0], ok := true } ∧
    appendedSymbols { lastval := 14, bitidx := 6, warnings := 1,
                      bitStream := [0, 0, 1, 0, 1, 0, 0, 0, 0, 0, 0, 0, 0, 0, 0, 0], ok := true } =
      [0, 1, 0, 1, 0] ∧
    pairSymbols [0, 1, 0, 1, 0] = [1, 1] ∧
    (manchester_decode (manchesterTrace 2 [1, 1, 1, 1])).dataout = [1] ∧
    (manchester_decode (manchesterTrace 2 [1, 1, 1, 1])).dataout ≠ [1, 1, 1, 1] := by
  decide

/-! ## The start point in general -/

theorem skipToHigh_spec_general (data : List Nat) (high : Nat) :
    ∀ (fuel i : Nat),
      i ≤ skipToHigh data high fuel i ∧ skipToHigh data high fuel i ≤ i + fuel ∧
      (skipToHigh data high fuel i < i + fuel →
        sample data (skipToHigh data high fuel i) = high) ∧
      (∀ j, i ≤ j → j < skipToHigh data high fuel i → sample data j ≠ high) := by
  intro fuel
  induction fuel with
  | zero =>
    intro i
    simp only [skipToHigh]
    exact ⟨le_refl i, le_refl i, fun h => absurd h (by omega), fun j h1 h2 => absurd h2 (by omega)⟩
  | succ fuel ih =>
    intro i
    simp only [skipToHigh]
    by_cases hi : sample data i = high
    · rw [if_pos hi]
      exact ⟨le_refl i, by omega, fun _ => hi, fun j h1 h2 => absurd h2 (by omega)⟩
    · rw [if_neg hi]
      obtain ⟨h1, h2, h3, h4⟩ := ih (i + 1)
      refine ⟨by omega, by omega, fun h => h3 (by omega), ?_⟩
      intro j hj1 hj2
      by_cases hj : j = i
      · rw [hj]; exact hi
      · exact h4 j (by omega) hj2

theorem findLow_spec_general (data : List Nat) (low : Nat) :
    ∀ (fuel i : Nat),
      i ≤ (findLow data low fuel i).1 ∧ (findLow data low fuel i).1 ≤ i + fuel ∧
      ((findLow data low fuel i).1 < i + fuel →
        sample data (findLow data low fuel i).1 = low ∧
        (findLow data low fuel i).2 = (findLow data low fuel i).1) ∧
      ((findLow data low fuel i).1 = i + fuel → (findLow data low fuel i).2 = 0) ∧
      (∀ j, i ≤ j → j < (findLow data low fuel i).1 → sample data j ≠ low) := by
  intro fuel
  induction fuel with
  | zero =>
    intro i
    exact ⟨le_refl i, le_refl i, fun h => absurd h (Nat.lt_irrefl i), fun _ => rfl,
      fun j h1 h2 => absurd (Nat.lt_of_le_of_lt h1 h2) (Nat.lt_irrefl i)⟩
  | succ fuel ih =>
    intro i
    simp only [findLow]
    by_cases hi : sample data i = low
    · rw [if_pos hi]
      refine ⟨le_refl i, ?_, ?_, ?_, ?_⟩
      · show i ≤ i + (fuel + 1)
        omega
      · intro _
        exact ⟨hi, rfl⟩
      · intro h
        have : i = i + (fuel + 1) := h
        omega
      · intro j h1 h2
        have : j < i := h2
        omega
    · rw [if_neg hi]
      obtain ⟨h1, h2, h3, h4, h5⟩ := ih (i + 1)
      refine ⟨by omega, by omega, fun h => h3 (by omega), fun h => h4 (by omega), ?_⟩
      intro j hj1 hj2
      by_cases hj : j = i
      · rw [hj]; exact hi
      · exact h5 j (by omega) hj2

/-- The start point of a trace: it is at most `len`; when it is below `len`
it is the first sample equal to `low` after the first sample equal to
`high`, it is not index `0`, `lastval` is the same index, and no sample
between the first high and the start point is low. When it is `len`,
`lastval` is `0`. -/
theorem startOf_spec (data : List Nat) :
    startOf data ≤ data.length ∧
    (startOf data < data.length →
      1 ≤ startOf data ∧ sample data (startOf data) = lowOf data ∧
      lastvalOf data = startOf data ∧
      ∃ i0, i0 < startOf data ∧ sample data i0 = highOf data ∧
        (∀ j, j < i0 → sample data j ≠ highOf data) ∧
        (∀ j, i0 ≤ j → j < startOf data → sample data j ≠ lowOf data)) ∧
    (startOf data = data.length → lastvalOf data = 0) := by
  obtain ⟨a1, a2, a3, a4⟩ := skipToHigh_spec_general data (highOf data) data.length 0
  obtain ⟨b1, b2, b3, b4, b5⟩ := findLow_spec_general data (lowOf data)
    (data.length - skipToHigh data (highOf data) data.length 0)
    (skipToHigh data (highOf data) data.length 0)
  simp only [Nat.zero_add] at a2 a3
  have hs : startOf data = (findLow data (lowOf data)
      (data.length - skipToHigh data (highOf data) data.length 0)
      (skipToHigh data (highOf data) data.length 0)).1 := rfl
  have hl : lastvalOf data = (findLow data (lowOf data)
      (data.length - skipToHigh data (highOf data) data.length 0)
      (skipToHigh data (highOf data) data.length 0)).2 := rfl
  rw [← hs] at b1 b2 b3 b4 b5
  rw [← hl] at b3 b4
  refine ⟨by omega, ?_, fun h => b4 (by omega)⟩
  intro hlt
  obtain ⟨c1, c2⟩ := b3 (by omega)
  have hhigh := a3 (by omega)
  have hne : startOf data ≠ skipToHigh data (highOf data) data.length 0 := by
    intro he
    rw [he, hhigh, lowOf_eq_zero] at c1
    have := highOf_pos data
    omega
  exact ⟨by omega, c1, c2, skipToHigh data (highOf data) data.length 0, by omega, hhigh,
    fun j hj => a4 j (Nat.zero_le _) hj, b5⟩

theorem startOf_of_no_low (data : List Nat) (h : ∀ x ∈ data, x ≠ lowOf data) :
    startOf data = data.length := by
  obtain ⟨h1, h2, _⟩ := startOf_spec data
  by_contra hne
  obtain ⟨_, hs, _⟩ := h2 (by omega)
  have hlt : startOf data < data.length := by omega
  apply h (sample data (startOf data))
  · unfold sample
    rw [List.getD_eq_getElem?_getD, List.getElem?_eq_getElem hlt]
    exact List.getElem_mem _
  · exact hs

/-! ## Traces without a zero sample -/

/-! ## The inner window loop -/

theorem windowScan_succ (data : List Nat) (high low base fuel j : Nat) (h : Hits) :
    windowScan data high low base (fuel + 1) j h =
      if (hitStep data high low (base + j) h).hithigh &&
          (hitStep data high low (base + j) h).hitlow
      then hitStep data high low (base + j) h
      else windowScan data high low base fuel (j + 1) (hitStep data high low (base + j) h) :=
  rfl

/-- Once the suppression flag is cleared, the loop ends with both levels seen
iff each level was seen before or is among the samples still to read. -/
theorem windowScan_counting (data : List Nat) (high low base : Nat) (hne : high ≠ low) :
    ∀ (fuel j : Nat) (h : Hits), h.first = false → ¬ (h.hithigh = true ∧ h.hitlow = true) →
      (((windowScan data high low base fuel j h).hithigh = true ∧
          (windowScan data high low base fuel j h).hitlow = true) ↔
        ((h.hithigh = true ∨ high ∈ samplesFrom data base fuel j) ∧
          (h.hitlow = true ∨ low ∈ samplesFrom data base fuel j))) := by
  intro fuel
  induction fuel with
  | zero =>
    intro j h _ hb
    simp only [windowScan, samplesFrom, List.not_mem_nil, or_false]
  | succ fuel ih =>
    intro j h hf hb
    rw [windowScan_succ]
    have hs1 : (hitStep data high low (base + j) h).first = false := by
      simp [hitStep, hf]
    have hs2 : ((hitStep data high low (base + j) h).hithigh = true ↔
        (h.hithigh = true ∨ sample data (base + j) = high)) := by
      simp only [hitStep, hf, Bool.false_and, Bool.false_eq_true, if_false]
      by_cases hx : sample data (base + j) = high
      · simp [hx]
      · simp [hx]
    have hs3 : ((hitStep data high low (base + j) h).hitlow = true ↔
        (h.hitlow = true ∨ sample data (base + j) = low)) := by
      simp only [hitStep, hf, Bool.false_and, Bool.false_eq_true, if_false]
      by_cases hx : sample data (base + j) = high
      · have : sample data (base + j) ≠ low := by rw [hx]; exact hne
        simp [hx, hne]
      · by_cases hy : sample data (base + j) = low
        · have : ¬ low = high := fun e => hne e.symm
          simp [hy, this]
        · simp [hx, hy]
    simp only [samplesFrom, List.mem_cons]
    by_cases hboth : (hitStep data high low (base + j) h).hithigh = true ∧
        (hitStep data high low (base + j) h).hitlow = true
    · have hc : ((hitStep data high low (base + j) h).hithigh &&
          (hitStep data high low (base + j) h).hitlow) = true := by
        simp [hboth.1, hboth.2]
      rw [if_pos hc]
      have h1 := hs2.1 hboth.1
      have h2 := hs3.1 hboth.2
      constructor
      · intro _
        constructor
        · rcases h1 with h1 | h1
          · exact Or.inl h1
          · exact Or.inr (Or.inl h1.symm)
        · rcases h2 with h2 | h2
          · exact Or.inl h2
          · exact Or.inr (Or.inl h2.symm)
      · intro _
        exact hboth
    · have hc : ¬ ((hitStep data high low (base + j) h).hithigh &&
          (hitStep data high low (base + j) h).hitlow) = true := by
        intro hc
        simp only [Bool.and_eq_true] at hc
        exact hboth hc
      rw [if_neg hc, ih (j + 1) _ hs1 hboth, hs2, hs3]
      constructor
      · rintro ⟨h1, h2⟩
        constructor
        · rcases h1 with (h1 | h1) | h1
          · exact Or.inl h1
          · exact Or.inr (Or.inl h1.symm)
          · exact Or.inr (Or.inr h1)
        · rcases h2 with (h2 | h2) | h2
          · exact Or.inl h2
          · exact Or.inr (Or.inl h2.symm)
          · exact Or.inr (Or.inr h2)
      · rintro ⟨h1, h2⟩
        constructor
        · rcases h1 with h1 | h1 | h1
          · exact Or.inl (Or.inl h1)
          · exact Or.inl (Or.inr h1.symm)
          · exact Or.inr h1
        · rcases h2 with h2 | h2 | h2
          · exact Or.inl (Or.inl h2)
          · exact Or.inl (Or.inr h2.symm)
          · exact Or.inr h2

/-- While the suppression flag is set, samples equal to `high` or `low` are
not counted; the first sample that is neither clears the flag. -/
theorem windowScan_suppressing (data : List Nat) (high low base : Nat) (hne : high ≠ low) :
    ∀ (fuel j : Nat) (h : Hits), h.first = true → h.hithigh = false → h.hitlow = false →
      (((windowScan data high low base fuel j h).hithigh = true ∧
          (windowScan data high low base fuel j h).hitlow = true) ↔
        (high ∈ afterCarry high low (samplesFrom data base fuel j) ∧
          low ∈ afterCarry high low (samplesFrom data base fuel j))) := by
  intro fuel
  induction fuel with
  | zero =>
    intro j h _ h1 h2
    simp [windowScan, samplesFrom, afterCarry, h1]
  | succ fuel ih =>
    intro j h hf h1 h2
    rw [windowScan_succ]
    by_cases hx : sample data (base + j) = high ∨ sample data (base + j) = low
    · have hstep : hitStep data high low (base + j) h =
          { hithigh := false, hitlow := false, first := true,
            ok := h.ok && decide (base + j < data.length) } := by
        simp only [hitStep, hf, h1, h2, Bool.true_and]
        rcases hx with hx | hx
        · simp [hx]
        · by_cases hy : sample data (base + j) = high
          · simp [hy]
          · simp [hx, hy]
      rw [hstep]
      simp only [Bool.false_and, Bool.false_eq_true, if_false]
      rw [ih (j + 1) _ rfl rfl rfl]
      simp only [samplesFrom, afterCarry, List.dropWhile_cons, hx, decide_True, if_true]
    · have hxh : sample data (base + j) ≠ high := fun e => hx (Or.inl e)
      have hxl : sample data (base + j) ≠ low := fun e => hx (Or.inr e)
      have hstep : hitStep data high low (base + j) h =
          { hithigh := false, hitlow := false, first := false,
            ok := h.ok && decide (base + j < data.length) } := by
        simp [hitStep, hf, h1, h2, hxh, hxl]
      rw [hstep]
      simp only [Bool.false_and, Bool.false_eq_true, if_false]
      rw [windowScan_counting data high low base hne fuel (j + 1) _ rfl (by simp)]
      simp only [Bool.false_eq_true, false_or, samplesFrom, afterCarry, List.dropWhile_cons, hx,
        decide_False, if_false, List.mem_cons]
      constructor
      · rintro ⟨a, b⟩
        exact ⟨Or.inr a, Or.inr b⟩
      · rintro ⟨a, b⟩
        constructor
        · rcases a with a | a
          · exact absurd a.symm hxh
          · exact a
        · rcases b with b | b
          · exact absurd b.symm hxl
          · exact b

/-! ## The outer window loop -/

theorem highOf_ne_lowOf (data : List Nat) : highOf data ≠ lowOf data := by
  have := highOf_pos data
  rw [lowOf_eq_zero]
  omega

theorem windowStep_bit (data : List Nat) (high low clock invert i : Nat) (w : Win)
    (hne : high ≠ low) :
    (windowStep data high low clock invert i w).bit =
      (if high ∈ afterCarry high low (windowSamples data (i * clock) clock) ∧
          low ∈ afterCarry high low (windowSamples data (i * clock) clock)
        then w.bit else w.bit ^^^ 1) ∧
    (windowStep data high low clock invert i w).bit2idx = w.bit2idx + 1 ∧
    (windowStep data high low clock invert i w).bitStream =
      w.bitStream.set w.bit2idx ((windowStep data high low clock invert i w).bit ^^^ invert) := by
  have key := windowScan_suppressing data high low (i * clock) hne clock 0
    { hithigh := false, hitlow := false, first := true, ok := w.ok } rfl rfl rfl
  refine ⟨?_, rfl, rfl⟩
  simp only [windowStep, windowSamples]
  by_cases hb : high ∈ afterCarry high low (samplesFrom data (i * clock) clock 0) ∧
      low ∈ afterCarry high low (samplesFrom data (i * clock) clock 0)
  · obtain ⟨k1, k2⟩ := key.2 hb
    rw [if_pos hb]
    simp [k1, k2]
  · rw [if_neg hb]
    have : ¬ ((windowScan data high low (i * clock) clock 0
        { hithigh := false, hitlow := false, first := true, ok := w.ok }).hithigh = true ∧
      (windowScan data high low (i * clock) clock 0
        { hithigh := false, hitlow := false, first := true, ok := w.ok }).hitlow = true) :=
      fun h => hb (key.1 h)
    have hc : (!(windowScan data high low (i * clock) clock 0
        { hithigh := false, hitlow := false, first := true, ok := w.ok }).hithigh ||
      !(windowScan data high low (i * clock) clock 0
        { hithigh := false, hitlow := false, first := true, ok := w.ok }).hitlow) = true := by
      cases h1 : (windowScan data high low (i * clock) clock 0
        { hithigh := false, hitlow := false, first := true, ok := w.ok }).hithigh
      · simp
      · cases h2 : (windowScan data high low (i * clock) clock 0
          { hithigh := false, hitlow := false, first := true, ok := w.ok }).hitlow
        · simp
        · exact absurd ⟨h1, h2⟩ this
    rw [if_pos hc]

theorem windowLoop_succ (data : List Nat) (high low clock invert fuel i : Nat) (w : Win) :
    windowLoop data high low clock invert (fuel + 1) i w =
      windowLoop data high low clock invert fuel (i + 1)
        (windowStep data high low clock invert i w) := rfl

/-- The outer loop writes one cell per window, upwards from `bit2idx`, and
leaves the cells below alone. -/
theorem windowLoop_cells (data : List Nat) (high low clock invert : Nat) :
    ∀ (fuel i : Nat) (w : Win),
      (windowLoop data high low clock invert fuel i w).bit2idx = w.bit2idx + fuel ∧
      (windowLoop data high low clock invert fuel i w).bitStream.length = w.bitStream.length ∧
      ∀ idx, idx < w.bit2idx →
        (windowLoop data high low clock invert fuel i w).bitStream.getD idx 0 =
          w.bitStream.getD idx 0 := by
  intro fuel
  induction fuel with
  | zero => intro i w; exact ⟨rfl, rfl, fun _ _ => rfl⟩
  | succ fuel ih =>
    intro i w
    rw [windowLoop_succ]
    obtain ⟨h1, h2, h3⟩ := ih (i + 1) (windowStep data high low clock invert i w)
    refine ⟨?_, ?_, ?_⟩
    · rw [h1]; simp only [windowStep]; omega
    · rw [h2]; simp only [windowStep, List.length_set]
    · intro idx hidx
      rw [h3 idx (by simp only [windowStep]; omega)]
      simp only [windowStep]
      rw [getD_set]
      have : ¬ (idx = w.bit2idx ∧ w.bit2idx < w.bitStream.length) := by omega
      rw [if_neg this]

/-- C11 (as amended). In each window the samples equal to `high` or `low` are
suppressed up to the first sample that is neither `high` nor `low`; from that
sample on every `high` or `low` sample of the window counts. The bit written
for the window is the previous bit when both a `high` and a `low` were
counted, and the toggled previous bit otherwise; the window path starts with
bit `0`, so the first emitted bit is `0` when the first window counted both
and `1` otherwise. -/
theorem window_bit_rule (invert : Nat) (data : List Nat) :
    (∀ (i : Nat) (w : Win),
      (windowStep data (highOf data) (lowOf data) (clockOf data) invert i w).bit =
        (if highOf data ∈ afterCarry (highOf data) (lowOf data)
              (windowSamples data (i * clockOf data) (clockOf data)) ∧
            lowOf data ∈ afterCarry (highOf data) (lowOf data)
              (windowSamples data (i * clockOf data) (clockOf data))
          then w.bit else w.bit ^^^ 1) ∧
      (windowStep data (highOf data) (lowOf data) (clockOf data) invert i w).bitStream =
        w.bitStream.set w.bit2idx
          ((windowStep data (highOf data) (lowOf data) (clockOf data) invert i w).bit ^^^
            invert)) ∧
    (startOf data < data.length / clockOf data →
      (windowPath invert data).bitStream.getD 0 0 =
        (if highOf data ∈ afterCarry (highOf data) (lowOf data)
              (windowSamples data (startOf data * clockOf data) (clockOf data)) ∧
            lowOf data ∈ afterCarry (highOf data) (lowOf data)
              (windowSamples data (startOf data * clockOf data) (clockOf data))
          then 0 else 0 ^^^ 1) ^^^ invert) := by
  constructor
  · intro i w
    obtain ⟨h1, _, h3⟩ := windowStep_bit data (highOf data) (lowOf data) (clockOf data) invert i w
      (highOf_ne_lowOf data)
    exact ⟨h1, h3⟩
  · intro hlt
    obtain ⟨f, hf⟩ : ∃ f, data.length / clockOf data - startOf data = f + 1 :=
      ⟨data.length / clockOf data - startOf data - 1, by omega⟩
    have hpos : 0 < data.length := by
      have := Nat.div_le_self data.length (clockOf data)
      omega
    unfold windowPath
    rw [hf, windowLoop_succ]
    obtain ⟨h1, h2, h3⟩ := windowStep_bit data (highOf data) (lowOf data) (clockOf data) invert
      (startOf data)
      { bit := 0, bit2idx := 0, bitStream := List.replicate data.length 0,
        ok := (detectClock data (highOf data)).ok } (highOf_ne_lowOf data)
    rw [(windowLoop_cells data (highOf data) (lowOf data) (clockOf data) invert f
      (startOf data + 1) _).2.2 0 (by rw [h2]; simp), h3, getD_set, h1]
    simp [hpos]

theorem window_bit_rule_witness :
    startOf [9, 0, 5, 9, 9, 5, 0, 9, 9, 5, 0, 9] < [9, 0, 5, 9, 9, 5, 0, 9, 9, 5, 0, 9].length /
      clockOf [9, 0, 5, 9, 9, 5, 0, 9, 9, 5, 0, 9] ∧
    windowSamples [9, 0, 5, 9, 9, 5, 0, 9, 9, 5, 0, 9] (startOf [9, 0, 5, 9, 9, 5, 0, 9, 9, 5, 0, 9] *
      clockOf [9, 0, 5, 9, 9, 5, 0, 9, 9, 5, 0, 9]) (clockOf [9, 0, 5, 9, 9, 5, 0, 9, 9, 5, 0, 9]) = [9, 5, 0, 9] ∧
    (windowPath 0 [9, 0, 5, 9, 9, 5, 0, 9, 9, 5, 0, 9]).bitStream.getD 0 0 =
      (if highOf [9, 0, 5, 9, 9, 5, 0, 9, 9, 5, 0, 9] ∈
            afterCarry (highOf [9, 0, 5, 9, 9, 5, 0, 9, 9, 5, 0, 9]) (lowOf [9, 0, 5, 9, 9, 5, 0, 9, 9, 5, 0, 9])
              (windowSamples [9, 0, 5, 9, 9, 5, 0, 9, 9, 5, 0, 9]
                (startOf [9, 0, 5, 9, 9, 5, 0, 9, 9, 5, 0, 9] * clockOf [9, 0, 5, 9, 9, 5, 0, 9, 9, 5, 0, 9])
                (clockOf [9, 0, 5, 9, 9, 5, 0, 9, 9, 5, 0, 9])) ∧
          lowOf [9, 0, 5, 9, 9, 5, 0, 9, 9, 5, 0, 9] ∈
            afterCarry (highOf [9, 0, 5, 9, 9, 5, 0, 9, 9, 5, 0, 9]) (lowOf [9, 0, 5, 9, 9, 5, 0, 9, 9, 5, 0, 9])
              (windowSamples [9, 0, 5, 9, 9, 5, 0, 9, 9, 5, 0, 9]
                (startOf [9, 0, 5, 9, 9, 5, 0, 9, 9, 5, 0, 9] * clockOf [9, 0, 5, 9, 9, 5, 0, 9, 9, 5, 0, 9])
                (clockOf [9, 0, 5, 9, 9, 5, 0, 9, 9, 5, 0, 9]))
        then 0 else 0 ^^^ 1) ^^^ 0 :=
  ⟨by decide, by decide, (window_bit_rule 0 [9, 0, 5, 9, 9, 5, 0, 9, 9, 5, 0, 9]).2 (by decide)⟩

/-- C11 (counterexample). In the trace `9,0,9,9,0,9,9,0,9` (`clock = 3`, start
point `1`) the first window reads high, low, high; the bit before it is `0`,
and the bit emitted for it is `1`: the bit toggles. -/
theorem high_low_high_window_toggles :
    highOf [9, 0, 9, 9, 0, 9, 9, 0, 9] = 9 ∧ lowOf [9, 0, 9, 9, 0, 9, 9, 0, 9] = 0 ∧
    clockOf [9, 0, 9, 9, 0, 9, 9, 0, 9] = 3 ∧ startOf [9, 0, 9, 9, 0, 9, 9, 0, 9] = 1 ∧
    windowSamples [9, 0, 9, 9, 0, 9, 9, 0, 9] (1 * 3) 3 = [9, 0, 9] ∧
    (manchester_decode [9, 0, 9, 9, 0, 9, 9, 0, 9]).dataout = [1, 0] := by
  decide

/-! ## Two-level traces -/

theorem afterCarry_of_all_extreme (high low : Nat) (ws : List Nat)
    (h : ∀ x ∈ ws, x = high ∨ x = low) : afterCarry high low ws = [] := by
  induction ws with
  | nil => rfl
  | cons x xs ih =>
    have hx := h x (List.mem_cons_self _ _)
    simp only [afterCarry, List.dropWhile_cons, hx, decide_True, if_true]
    exact ih (fun y hy => h y (List.mem_cons_of_mem _ hy))

theorem mem_samplesFrom (data : List Nat) (base : Nat) (P : Nat → Prop)
    (h : ∀ idx, P (sample data idx)) :
    ∀ (fuel j : Nat), ∀ x ∈ samplesFrom data base fuel j, P x := by
  intro fuel
  induction fuel with
  | zero => intro j x hx; simp [samplesFrom] at hx
  | succ fuel ih =>
    intro j x hx
    simp only [samplesFrom, List.mem_cons] at hx
    rcases hx with rfl | hx
    · exact h _
    · exact ih (j + 1) x hx

theorem sample_mem_or_zero (data : List Nat) (idx : Nat) :
    sample data idx ∈ data ∨ sample data idx = 0 := by
  unfold sample
  rw [List.getD_eq_getElem?_getD]
  by_cases h : idx < data.length
  · left
    rw [List.getElem?_eq_getElem h]
    exact List.getElem_mem _
  · right
    rw [List.getElem?_eq_none (by omega)]
    rfl

/-- On a trace whose samples are all `high` or `low` every window toggles the
bit: the cells written by the outer loop alternate. -/
theorem windowLoop_alternates (data : List Nat) (high low clock : Nat) (hne : high ≠ low)
    (hall : ∀ idx, sample data idx = high ∨ sample data idx = low) :
    ∀ (fuel i : Nat) (w : Win), w.bit ≤ 1 → w.bit2idx + fuel ≤ w.bitStream.length →
      ∀ t, t < fuel →
        (windowLoop data high low clock 0 fuel i w).bitStream.getD (w.bit2idx + t) 0 =
          (w.bit + t + 1) % 2 := by
  intro fuel
  induction fuel with
  | zero => intro i w _ _ t ht; omega
  | succ fuel ih =>
    intro i w hb hroom t ht
    rw [windowLoop_succ]
    obtain ⟨h1, h2, h3⟩ := windowStep_bit data high low clock 0 i w hne
    have hempty : afterCarry high low (windowSamples data (i * clock) clock) = [] :=
      afterCarry_of_all_extreme high low _
        (mem_samplesFrom data (i * clock) (fun x => x = high ∨ x = low) hall clock 0)
    rw [hempty] at h1
    simp only [List.not_mem_nil, and_self, if_false] at h1
    have hbit : (windowStep data high low clock 0 i w).bit = (w.bit + 1) % 2 := by
      rw [h1, xor_one_of_le_one _ hb]
      omega
    cases t with
    | zero =>
      have hc := (windowLoop_cells data high low clock 0 fuel (i + 1)
        (windowStep data high low clock 0 i w)).2.2 w.bit2idx (by rw [h2]; omega)
      have hin : w.bit2idx = w.bit2idx ∧ w.bit2idx < w.bitStream.length := ⟨rfl, by omega⟩
      simp only [Nat.add_zero]
      rw [hc, h3, getD_set, if_pos hin, Nat.xor_zero, hbit]
    | succ t =>
      have := ih (i + 1) (windowStep data high low clock 0 i w) (by rw [hbit]; omega)
        (by rw [h2, h3, List.length_set]; omega) t (by omega)
      rw [h2, hbit] at this
      rw [show w.bit2idx + (t + 1) = w.bit2idx + 1 + t by ring, this]
      omega

/-- C18. For every trace whose samples all lie in `{0, h}` with `h > 1`
occurring in the trace: `high` is `h`, the window path is taken, no exit
`return 0` is reached, the output has `len / clock - s` bits (`s` the start
point), and output bit `k` is `(k + 1) mod 2`: the output is `1,0,1,0,...`
wherever the transitions are. -/
theorem two_level_trace_alternates (data : List Nat) (h : Nat) (hh : 1 < h) (hmem : h ∈ data)
    (hall : ∀ x ∈ data, x = 0 ∨ x = h) :
    highOf data = h ∧
    (∃ p, decodeLoops 0 data = Step.cont p ∧
      p.bit2idx = data.length / clockOf data - startOf data) ∧
    (manchester_decode data).dataout.length = data.length / clockOf data - startOf data ∧
    ∀ k, k < (manchester_decode data).dataout.length →
      (manchester_decode data).dataout.getD k 0 = (k + 1) % 2 := by
  have hhigh : highOf data = h := by
    have h1 := le_highOf data h hmem
    rcases highOf_eq_one_or_mem data with h2 | h2
    · omega
    · rcases hall _ h2 with h3 | h3
      · have := highOf_pos data
        omega
      · exact h3
  have hlow := lowOf_eq_zero data
  have hsamp : ∀ idx, sample data idx = highOf data ∨ sample data idx = lowOf data := by
    intro idx
    rw [hhigh, hlow]
    rcases sample_mem_or_zero data idx with h1 | h1
    · rcases hall _ h1 with h2 | h2
      · exact Or.inr h2
      · exact Or.inl h2
    · exact Or.inr h1
  have hne1 : highOf data ≠ 1 := by omega
  set n := data.length / clockOf data - startOf data with hn
  have hnle : n ≤ data.length := by
    have := Nat.div_le_self data.length (clockOf data)
    omega
  obtain ⟨c1, c2, _⟩ := windowLoop_cells data (highOf data) (lowOf data) (clockOf data) 0 n
    (startOf data)
    { bit := 0, bit2idx := 0, bitStream := List.replicate data.length 0,
      ok := (detectClock data (highOf data)).ok }
  have c3 := windowLoop_alternates data (highOf data) (lowOf data) (clockOf data)
    (highOf_ne_lowOf data) hsamp n (startOf data)
    { bit := 0, bit2idx := 0, bitStream := List.replicate data.length 0,
      ok := (detectClock data (highOf data)).ok } (by simp) (by simp; exact hnle)
  simp only [Nat.zero_add, List.length_replicate] at c1 c2 c3
  have hd : decodeLoops 0 data =
      Step.cont { bit2idx := (windowPath 0 data).bit2idx, warnings := 0,
                  bitStream := (windowPath 0 data).bitStream, ok := (windowPath 0 data).ok } := by
    simp [decodeLoops, hne1, pairLoop]
  have hw : windowPath 0 data = windowLoop data (highOf data) (lowOf data) (clockOf data) 0 n
      (startOf data)
      { bit := 0, bit2idx := 0, bitStream := List.replicate data.length 0,
        ok := (detectClock data (highOf data)).ok } := rfl
  have hout : (manchester_decode data).dataout = (windowPath 0 data).bitStream.take n := by
    simp only [manchester_decode, hd, hw, c1]
    split
    · rfl
    · have : n = 0 := by omega
      rw [this]
      simp
  have hlen : (manchester_decode data).dataout.length = n := by
    rw [hout, List.length_take, hw, c2]
    omega
  refine ⟨hhigh, ⟨_, hd, by rw [hw, c1]⟩, hlen, ?_⟩
  intro k hk
  rw [hlen] at hk
  have hk2 : k < (windowPath 0 data).bitStream.length := by rw [hw, c2]; omega
  rw [hout, List.getD_eq_getElem?_getD, List.getElem?_take_of_lt hk, ← List.getD_eq_getElem?_getD,
    hw, c3 k hk]

theorem two_level_trace_alternates_witness :
    highOf [5, 0, 5, 0, 5, 0, 5, 0] = 5 ∧
    (∃ p, decodeLoops 0 [5, 0, 5, 0, 5, 0, 5, 0] = Step.cont p ∧
      p.bit2idx = [5, 0, 5, 0, 5, 0, 5, 0].length / clockOf [5, 0, 5, 0, 5, 0, 5, 0] -
        startOf [5, 0, 5, 0, 5, 0, 5, 0]) ∧
    (manchester_decode [5, 0, 5, 0, 5, 0, 5, 0]).dataout.length =
      [5, 0, 5, 0, 5, 0, 5, 0].length / clockOf [5, 0, 5, 0, 5, 0, 5, 0] -
        startOf [5, 0, 5, 0, 5, 0, 5, 0] ∧
    ∀ k, k < (manchester_decode [5, 0, 5, 0, 5, 0, 5, 0]).dataout.length →
      (manchester_decode [5, 0, 5, 0, 5, 0, 5, 0]).dataout.getD k 0 = (k + 1) % 2 :=
  two_level_trace_alternates [5, 0, 5, 0, 5, 0, 5, 0] 5 (by decide) (by decide) (by decide)

/-! ## The start point is a transition with interval 0 -/

theorem startOf_found (data : List Nat) (a b : Nat) (hab : a < b) (hb : b < data.length)
    (ha1 : sample data a = highOf data) (hb0 : sample data b = lowOf data) :
    startOf data < data.length := by
  obtain ⟨a1, a2, a3, a4⟩ := skipToHigh_spec_general data (highOf data) data.length 0
  obtain ⟨b1, b2, b3, b4, b5⟩ := findLow_spec_general data (lowOf data)
    (data.length - skipToHigh data (highOf data) data.length 0)
    (skipToHigh data (highOf data) data.length 0)
  have hs : startOf data = (findLow data (lowOf data)
      (data.length - skipToHigh data (highOf data) data.length 0)
      (skipToHigh data (highOf data) data.length 0)).1 := rfl
  rw [← hs] at b1 b2 b5
  have hi0 : skipToHigh data (highOf data) data.length 0 ≤ a := by
    by_contra hc
    exact a4 a (Nat.zero_le _) (by omega) ha1
  by_contra hc
  exact b5 b (by omega) (by omega) hb0

theorem startOf_transition (data : List Nat) (h : startOf data < data.length) :
    sample data (startOf data - 1) ≠ sample data (startOf data) := by
  obtain ⟨_, h2, _⟩ := startOf_spec data
  obtain ⟨h1, hs, _, i0, hi0, _, _, hbetween⟩ := h2 h
  rw [hs]
  exact hbetween (startOf data - 1) (by omega) (by omega)

theorem classify_interval_zero (clock : Nat) (a : Nat) :
    classify clock ((a : Int) - (a : Int)) = Pulse.anomaly := by
  unfold classify
  have h1 : ¬ Int.natAbs ((a : Int) - (a : Int) - ((clock / 2 : Nat) : Int)) < clock / 4 := by
    omega
  have h2 : ¬ Int.natAbs ((a : Int) - (a : Int) - ((clock : Nat) : Int)) < clock / 4 := by
    omega
  rw [if_neg h1, if_neg h2]

theorem walkIntervals_succ (data : List Nat) (fuel i lastval : Nat) :
    walkIntervals data (fuel + 1) i lastval =
      if sample data (i - 1) ≠ sample data i then
        ((i : Int) - (lastval : Int)) :: walkIntervals data fuel (i + 1) i
      else walkIntervals data fuel (i + 1) lastval := rfl

/-- C17. For every trace with samples in `{0,1}` that contains a `1` followed
later by a `0`: a start point is found, the sample before it differs from it,
and the first interval the walk measures is `lc = 0`, which is outside both
tolerance bands for every clock; the first step of the walk appends no symbol
and sets `warnings` to `1`. So at least one of the width anomalies of the
trace is the start point, and a decode that reaches its end has met at most
9 other anomalies (width anomalies and pairing faults together); with 10
others it aborts. -/
theorem start_point_costs_one_warning (data : List Nat) (a b : Nat)
    (hbin : ∀ x ∈ data, x = 0 ∨ x = 1) (hab : a < b) (hb : b < data.length)
    (ha1 : sample data a = 1) (hb0 : sample data b = 0) :
    highOf data = 1 ∧ startOf data < data.length ∧ lastvalOf data = startOf data ∧
    sample data (startOf data - 1) ≠ sample data (startOf data) ∧
    (∀ clock : Nat, classify clock 0 = Pulse.anomaly) ∧
    (∃ rest, measuredIntervals data = 0 :: rest) ∧
    (∃ ok, walkStep data (clockOf data) (startOf data)
        { lastval := lastvalOf data, bitidx := 1, warnings := 0,
          bitStream := List.replicate data.length 0,
          ok := (detectClock data (highOf data)).ok } =
      Step.cont { lastval := startOf data, bitidx := 1, warnings := 1,
                  bitStream := List.replicate data.length 0, ok := ok }) ∧
    1 ≤ widthAnomalies data ∧
    (∀ w, pulseWalk data = Step.cont w →
      (∀ p, decodeLoops 0 data = Step.cont p →
        (widthAnomalies data - 1) + pairFaults w.bitStream w.bitidx w.bitidx 0 ≤ 9) ∧
      (10 ≤ (widthAnomalies data - 1) + pairFaults w.bitStream w.bitidx w.bitidx 0 →
        ∃ why ok, decodeLoops 0 data = Step.abort why ok)) := by
  have hhigh : highOf data = 1 := by
    rw [highOf_eq_one_iff]
    intro x hx
    rcases hbin x hx with h | h <;> omega
  have hlow := lowOf_eq_zero data
  have hs : startOf data < data.length :=
    startOf_found data a b hab hb (by rw [hhigh]; exact ha1) (by rw [hlow]; exact hb0)
  have hl : lastvalOf data = startOf data := ((startOf_spec data).2.1 hs).2.2.1
  have ht := startOf_transition data hs
  have hz : ∀ clock : Nat, classify clock 0 = Pulse.anomaly := by
    intro clock
    have := classify_interval_zero clock 0
    simpa using this
  obtain ⟨f, hf⟩ : ∃ f, data.length - startOf data = f + 1 :=
    ⟨data.length - startOf data - 1, by omega⟩
  have hm : measuredIntervals data =
      0 :: walkIntervals data f (startOf data + 1) (startOf data) := by
    unfold measuredIntervals
    rw [hf, walkIntervals_succ, if_pos ht, hl, sub_self]
  have hwa : 1 ≤ widthAnomalies data := by
    unfold widthAnomalies
    rw [hm, List.countP_cons]
    simp [hz]
  obtain ⟨ok, hstep⟩ := walkStep_anomaly data (clockOf data) (startOf data)
    { lastval := lastvalOf data, bitidx := 1, warnings := 0,
      bitStream := List.replicate data.length 0,
      ok := (detectClock data (highOf data)).ok }
    ht (by simp only; exact Nat.not_lt.mpr (by
      have := Nat.zero_le (data.length * 2 / clockOf data)
      omega)) (by simp only; rw [hl]; exact classify_interval_zero _ _) (by simp)
  refine ⟨hhigh, hs, hl, ht, hz, ⟨_, hm⟩, ⟨ok, hstep⟩, hwa, ?_⟩
  intro w hw
  obtain ⟨hw1, hw2⟩ := pulseWalk_warnings data w hw
  have hd : decodeLoops 0 data =
      pairLoop data.length 0 w.bitidx w.bitidx 0
        { bit2idx := 0, warnings := w.warnings, bitStream := w.bitStream, ok := w.ok } := by
    simp [decodeLoops, hhigh, hw]
  obtain ⟨t1, t2⟩ := pairLoop_warnings data.length 0 w.bitidx w.bitidx 0
    { bit2idx := 0, warnings := w.warnings, bitStream := w.bitStream, ok := w.ok } (by simp)
  simp only at t1 t2
  constructor
  · intro p hp
    rw [hd] at hp
    obtain ⟨u1, u2⟩ := t1 p hp
    have := u2 hw2
    omega
  · intro h10
    cases hp : pairLoop data.length 0 w.bitidx w.bitidx 0
        { bit2idx := 0, warnings := w.warnings, bitStream := w.bitStream, ok := w.ok } with
    | abort why ok1 => exact ⟨why, ok1, by rw [hd, hp]⟩
    | cont p =>
      obtain ⟨u1, u2⟩ := t1 p hp
      have := u2 hw2
      omega

theorem start_point_costs_one_warning_witness :
    highOf [0, 0, 1, 1, 0, 0, 1, 1, 0, 0, 1, 1] = 1 ∧
    startOf [0, 0, 1, 1, 0, 0, 1, 1, 0, 0, 1, 1] < [0, 0, 1, 1, 0, 0, 1, 1, 0, 0, 1, 1].length ∧
    lastvalOf [0, 0, 1, 1, 0, 0, 1, 1, 0, 0, 1, 1] = startOf [0, 0, 1, 1, 0, 0, 1, 1, 0, 0, 1, 1] ∧
    sample [0, 0, 1, 1, 0, 0, 1, 1, 0, 0, 1, 1] (startOf [0, 0, 1, 1, 0, 0, 1, 1, 0, 0, 1, 1] - 1) ≠
      sample [0, 0, 1, 1, 0, 0, 1, 1, 0, 0, 1, 1] (startOf [0, 0, 1, 1, 0, 0, 1, 1, 0, 0, 1, 1]) ∧
    (∀ clock : Nat, classify clock 0 = Pulse.anomaly) ∧
    (∃ rest, measuredIntervals [0, 0, 1, 1, 0, 0, 1, 1, 0, 0, 1, 1] = 0 :: rest) ∧
    (∃ ok, walkStep [0, 0, 1, 1, 0, 0, 1, 1, 0, 0, 1, 1]
        (clockOf [0, 0, 1, 1, 0, 0, 1, 1, 0, 0, 1, 1])
        (startOf [0, 0, 1, 1, 0, 0, 1, 1, 0, 0, 1, 1])
        { lastval := lastvalOf [0, 0, 1, 1, 0, 0, 1, 1, 0, 0, 1, 1], bitidx := 1, warnings := 0,
          bitStream := List.replicate [0, 0, 1, 1, 0, 0, 1, 1, 0, 0, 1, 1].length 0,
          ok := (detectClock [0, 0, 1, 1, 0, 0, 1, 1, 0, 0, 1, 1]
            (highOf [0, 0, 1, 1, 0, 0, 1, 1, 0, 0, 1, 1])).ok } =
      Step.cont { lastval := startOf [0, 0, 1, 1, 0, 0, 1, 1, 0, 0, 1, 1], bitidx := 1,
                  warnings := 1,
                  bitStream := List.replicate [0, 0, 1, 1, 0, 0, 1, 1, 0, 0, 1, 1].length 0,
                  ok := ok }) ∧
    1 ≤ widthAnomalies [0, 0, 1, 1, 0, 0, 1, 1, 0, 0, 1, 1] ∧
    (∀ w, pulseWalk [0, 0, 1, 1, 0, 0, 1, 1, 0, 0, 1, 1] = Step.cont w →
      (∀ p, decodeLoops 0 [0, 0, 1, 1, 0, 0, 1, 1, 0, 0, 1, 1] = Step.cont p →
        (widthAnomalies [0, 0, 1, 1, 0, 0, 1, 1, 0, 0, 1, 1] - 1) +
          pairFaults w.bitStream w.bitidx w.bitidx 0 ≤ 9) ∧
      (10 ≤ (widthAnomalies [0, 0, 1, 1, 0, 0, 1, 1, 0, 0, 1, 1] - 1) +
          pairFaults w.bitStream w.bitidx w.bitidx 0 →
        ∃ why ok, decodeLoops 0 [0, 0, 1, 1, 0, 0, 1, 1, 0, 0, 1, 1] = Step.abort why ok)) :=
  start_point_costs_one_warning [0, 0, 1, 1, 0, 0, 1, 1, 0, 0, 1, 1] 2 4 (by decide) (by decide)
    (by decide) (by decide) (by decide)

/-! ## Index safety: the clock scan -/

theorem clockStep_ok (data : List Nat) (high i : Nat) (c : ClockScan)
    (h1 : 1 ≤ i) (h2 : i < data.length) : (clockStep data high i c).ok = c.ok := by
  have h : (1 ≤ i ∧ i < data.length) := ⟨h1, h2⟩
  unfold clockStep
  simp only [h, and_self, decide_True, Bool.and_true]
  split <;> rfl

theorem clockStep_pos (data : List Nat) (high i : Nat) (c : ClockScan)
    (h1 : 1 ≤ c.clock) (h2 : c.lastpeak < i) :
    1 ≤ (clockStep data high i c).clock ∧ (clockStep data high i c).lastpeak < i + 1 := by
  by_cases he : sample data i = high ∧ sample data (i - 1) ≠ high
  · obtain ⟨e1, e2⟩ := clockStep_of_event data high i c he
    rw [e1, e2]
    split <;> omega
  · obtain ⟨e1, e2⟩ := clockStep_of_no_event data high i c he
    rw [e1, e2]
    omega

theorem clockLoop_safe (data : List Nat) (high : Nat) :
    ∀ (fuel i : Nat) (c : ClockScan), 1 ≤ c.clock → c.lastpeak < i →
      1 ≤ (clockLoop data high fuel i c).clock ∧
      (1 ≤ i → i + fuel ≤ data.length → (clockLoop data high fuel i c).ok = c.ok) := by
  intro fuel
  induction fuel with
  | zero => intro i c h1 _; exact ⟨h1, fun _ _ => rfl⟩
  | succ fuel ih =>
    intro i c h1 h2
    obtain ⟨p1, p2⟩ := clockStep_pos data high i c h1 h2
    obtain ⟨q1, q2⟩ := ih (i + 1) (clockStep data high i c) p1 p2
    refine ⟨q1, ?_⟩
    intro hi hlen
    show (clockLoop data high fuel (i + 1) (clockStep data high i c)).ok = c.ok
    rw [q2 (by omega) (by omega), clockStep_ok data high i c hi (by omega)]

theorem detectClock_safe (data : List Nat) (high : Nat) :
    1 ≤ (detectClock data high).clock ∧ (detectClock data high).ok = true := by
  unfold detectClock
  obtain ⟨q1, q2⟩ := clockLoop_safe data high (data.length - 1) 1
    { clock := 0xFFFF, lastpeak := 0, ok := true } (by simp) (by simp)
  refine ⟨q1, ?_⟩
  by_cases h : data.length = 0
  · rw [h]
    rfl
  · exact q2 (le_refl 1) (by omega)

theorem clockOf_pos (data : List Nat) : 1 ≤ clockOf data := (detectClock_safe data _).1

/-! ## Index safety: the window path -/

theorem hitStep_ok (data : List Nat) (high low idx : Nat) (h : Hits) (hi : idx < data.length) :
    (hitStep data high low idx h).ok = h.ok := by
  unfold hitStep
  simp only [hi, decide_True, Bool.and_true]
  split_ifs <;> rfl

theorem windowScan_ok (data : List Nat) (high low base : Nat) :
    ∀ (fuel j : Nat) (h : Hits), base + j + fuel ≤ data.length →
      (windowScan data high low base fuel j h).ok = h.ok := by
  intro fuel
  induction fuel with
  | zero => intro j h _; rfl
  | succ fuel ih =>
    intro j h hb
    have e := hitStep_ok data high low (base + j) h (by omega)
    simp only [windowScan]
    split
    · exact e
    · rw [ih (j + 1) _ (by omega), e]

theorem windowStep_ok (data : List Nat) (high low clock invert i : Nat) (w : Win)
    (h1 : (i + 1) * clock ≤ data.length) (h2 : w.bit2idx < data.length) :
    (windowStep data high low clock invert i w).ok = w.ok ∧
    (windowStep data high low clock invert i w).bit2idx = w.bit2idx + 1 := by
  have e := windowScan_ok data high low (i * clock) clock 0
    { hithigh := false, hitlow := false, first := true, ok := w.ok }
    (by have : (i + 1) * clock = i * clock + clock := by ring
        omega)
  simp only [windowStep, e, h2, decide_True, Bool.and_true, and_self]

theorem windowLoop_ok (data : List Nat) (high low clock invert : Nat) :
    ∀ (fuel i : Nat) (w : Win),
      (fuel = 0 ∨ ((i + fuel) * clock ≤ data.length ∧ w.bit2idx + fuel ≤ data.length)) →
      (windowLoop data high low clock invert fuel i w).ok = w.ok := by
  intro fuel
  induction fuel with
  | zero => intro i w _; rfl
  | succ fuel ih =>
    intro i w h
    rcases h with h | ⟨h1, h2⟩
    · omega
    · have hm : (i + 1) * clock ≤ (i + (fuel + 1)) * clock :=
        Nat.mul_le_mul_right _ (by omega)
      obtain ⟨e1, e2⟩ := windowStep_ok data high low clock invert i w (by omega) (by omega)
      show (windowLoop data high low clock invert fuel (i + 1)
        (windowStep data high low clock invert i w)).ok = w.ok
      rw [ih (i + 1) _ (Or.inr ⟨by rw [show i + 1 + fuel = i + (fuel + 1) by ring]; exact h1,
        by rw [e2]; omega⟩), e1]

theorem windowPath_safe (invert : Nat) (data : List Nat) :
    (windowPath invert data).ok = true ∧
    (windowPath invert data).bit2idx = data.length / clockOf data - startOf data ∧
    (windowPath invert data).bit2idx ≤ data.length ∧
    (windowPath invert data).bitStream.length = data.length := by
  have hc := clockOf_pos data
  have hd : data.length / clockOf data * clockOf data ≤ data.length := Nat.div_mul_le_self _ _
  have hq : data.length / clockOf data ≤ data.length := Nat.div_le_self _ _
  obtain ⟨c1, c2, _⟩ := windowLoop_cells data (highOf data) (lowOf data) (clockOf data) invert
    (data.length / clockOf data - startOf data) (startOf data)
    { bit := 0, bit2idx := 0, bitStream := List.replicate data.length 0,
      ok := (detectClock data (highOf data)).ok }
  simp only [Nat.zero_add, List.length_replicate] at c1 c2
  unfold windowPath
  refine ⟨?_, c1, by rw [c1]; omega, c2⟩
  rw [windowLoop_ok, (detectClock_safe data _).2]
  by_cases hf : data.length / clockOf data - startOf data = 0
  · exact Or.inl hf
  · right
    have : startOf data + (data.length / clockOf data - startOf data) =
        data.length / clockOf data := by omega
    rw [this]
    exact ⟨hd, by simp only [Nat.zero_add]; omega⟩

/-! ## Index safety: the pulse-width walk -/

theorem classify_short_ge (clock : Nat) (lc : Int) (h : classify clock lc = Pulse.short) :
    2 ≤ lc := by
  rw [classify_short_iff, abs_lt] at h
  omega

theorem classify_long_ge (clock : Nat) (lc : Int) (h : classify clock lc = Pulse.long) :
    4 ≤ lc := by
  rw [classify_long_iff, abs_lt, abs_lt] at h
  omega

theorem walkStep_shape (data : List Nat) (clock i : Nat) (w w1 : Walk)
    (h : walkStep data clock i w = Step.cont w1) :
    w1.bitStream.length = w.bitStream.length ∧ w.bitidx ≤ w1.bitidx ∧
    (w1.bitidx = w.bitidx → w1.bitStream = w.bitStream) := by
  unfold walkStep at h
  by_cases ht : sample data (i - 1) ≠ sample data i
  · rw [if_pos ht] at h
    by_cases hg : data.length * 2 / clock + 8 < w.bitidx
    · rw [if_pos hg] at h
      cases h
    · rw [if_neg hg] at h
      cases hc : classify clock ((i : Int) - (w.lastval : Int)) with
      | short =>
        rw [hc] at h
        cases h
        refine ⟨by simp, by dsimp only; omega, fun h => absurd h (by dsimp only; omega)⟩
      | long =>
        rw [hc] at h
        cases h
        refine ⟨by simp, by dsimp only; omega, fun h => absurd h (by dsimp only; omega)⟩
      | anomaly =>
        rw [hc] at h
        by_cases hw : w.warnings + 1 > 10
        · simp only [if_pos hw] at h
          cases h
        · simp only [if_neg hw] at h
          cases h
          exact ⟨rfl, le_refl _, fun _ => rfl⟩
  · rw [if_neg ht] at h
    cases h
    exact ⟨rfl, le_refl _, fun _ => rfl⟩

/-- The walk body keeps every index in range as long as each appended symbol
is paid for by two samples since the start point `s`. -/
theorem walkStep_safe (data : List Nat) (clock i s : Nat) (w : Walk)
    (hs : 1 ≤ s) (h1 : s ≤ w.lastval) (h2 : w.lastval ≤ i)
    (h3 : 2 * w.bitidx + s ≤ w.lastval + 2) (hi : i < data.length) :
    (∀ why ok, walkStep data clock i w = Step.abort why ok → ok = w.ok) ∧
    (∀ w1, walkStep data clock i w = Step.cont w1 →
      w1.ok = w.ok ∧ s ≤ w1.lastval ∧ w1.lastval ≤ i ∧
      2 * w1.bitidx + s ≤ w1.lastval + 2) := by
  have hd : (1 ≤ i ∧ i < data.length) := ⟨by omega, hi⟩
  unfold walkStep
  simp only [hd, and_self, decide_True, Bool.and_true]
  by_cases ht : sample data (i - 1) ≠ sample data i
  · rw [if_pos ht]
    by_cases hg : data.length * 2 / clock + 8 < w.bitidx
    · rw [if_pos hg]
      refine ⟨fun why ok h => ?_, fun w1 h => ?_⟩
      · cases h
        rfl
      · cases h
    · rw [if_neg hg]
      cases hc : classify clock ((i : Int) - (w.lastval : Int)) with
      | short =>
        have hl := classify_short_ge _ _ hc
        have hb : w.bitidx < data.length := by omega
        simp only [hb, decide_True, Bool.and_true]
        refine ⟨fun why ok h => ?_, fun w1 h => ?_⟩
        · cases h
        · cases h
          refine ⟨rfl, ?_, ?_, ?_⟩ <;> dsimp only <;> omega
      | long =>
        have hl := classify_long_ge _ _ hc
        have hb : w.bitidx + 1 < data.length := by omega
        simp only [hb, decide_True, Bool.and_true]
        refine ⟨fun why ok h => ?_, fun w1 h => ?_⟩
        · cases h
        · cases h
          refine ⟨rfl, ?_, ?_, ?_⟩ <;> dsimp only <;> omega
      | anomaly =>
        simp only
        by_cases hw : w.warnings + 1 > 10
        · rw [if_pos hw]
          refine ⟨fun why ok h => ?_, fun w1 h => ?_⟩
          · cases h
            rfl
          · cases h
        · rw [if_neg hw]
          refine ⟨fun why ok h => ?_, fun w1 h => ?_⟩
          · cases h
          · cases h
            refine ⟨rfl, ?_, ?_, ?_⟩ <;> dsimp only <;> omega
  · rw [if_neg ht]
    refine ⟨fun why ok h => ?_, fun w1 h => ?_⟩
    · cases h
    · cases h
      exact ⟨rfl, h1, h2, h3⟩

theorem walkLoop_safe (data : List Nat) (clock s : Nat) (hs : 1 ≤ s) :
    ∀ (fuel i : Nat) (w : Walk), s ≤ w.lastval → w.lastval ≤ i → w.lastval < data.length →
      2 * w.bitidx + s ≤ w.lastval + 2 → i + fuel ≤ data.length →
      (∀ why ok, walkLoop data clock fuel i w = Step.abort why ok → ok = w.ok) ∧
      (∀ w1, walkLoop data clock fuel i w = Step.cont w1 →
        w1.ok = w.ok ∧ w1.lastval < data.length ∧ 2 * w1.bitidx + s ≤ w1.lastval + 2) := by
  intro fuel
  induction fuel with
  | zero =>
    intro i w h1 h2 h3 h4 _
    refine ⟨fun why ok h => ?_, fun w1 h => ?_⟩
    · cases h
    · cases h
      exact ⟨rfl, h3, h4⟩
  | succ fuel ih =>
    intro i w h1 h2 h3 h4 h5
    obtain ⟨a1, a2⟩ := walkStep_safe data clock i s w hs h1 h2 h4 (by omega)
    rw [walkLoop_succ]
    cases hstep : walkStep data clock i w with
    | abort why ok =>
      refine ⟨fun why1 ok1 h => ?_, fun w1 h => ?_⟩
      · cases h
        exact a1 _ _ hstep
      · cases h
    | cont w2 =>
      obtain ⟨b1, b2, b3, b4⟩ := a2 w2 hstep
      obtain ⟨c1, c2⟩ := ih (i + 1) w2 b2 (by omega) (by omega) b4 (by omega)
      refine ⟨fun why1 ok1 h => ?_, fun w1 h => ?_⟩
      · rw [c1 _ _ h, b1]
      · obtain ⟨d1, d2, d3⟩ := c2 w1 h
        exact ⟨by rw [d1, b1], d2, d3⟩

theorem walkLoop_shape (data : List Nat) (clock : Nat) :
    ∀ (fuel i : Nat) (w w1 : Walk), walkLoop data clock fuel i w = Step.cont w1 →
      w1.bitStream.length = w.bitStream.length ∧ w.bitidx ≤ w1.bitidx ∧
      (w1.bitidx = w.bitidx → w1.bitStream = w.bitStream) := by
  intro fuel
  induction fuel with
  | zero =>
    intro i w w1 h
    cases h
    exact ⟨rfl, le_refl _, fun _ => rfl⟩
  | succ fuel ih =>
    intro i w w1 h
    rw [walkLoop_succ] at h
    cases hstep : walkStep data clock i w with
    | abort why ok => rw [hstep] at h; cases h
    | cont w2 =>
      rw [hstep] at h
      simp only at h
      obtain ⟨c1, c2, c3⟩ := ih (i + 1) w2 w1 h
      obtain ⟨k1, k2, k3⟩ := walkStep_shape data clock i w w2 hstep
      exact ⟨by rw [c1, k1], by omega, fun h => by rw [c3 (by omega), k3 (by omega)]⟩

/-- The walk of a whole trace, and every prefix of it: indices in range, and
`bitidx` (the symbol count plus one) at most half the length. -/
theorem pulseWalk_safe (data : List Nat) (hlen : 2 ≤ data.length) (fuel : Nat)
    (hf : fuel ≤ data.length - startOf data) :
    (∀ why ok, walkLoop data (clockOf data) fuel (startOf data)
        { lastval := lastvalOf data, bitidx := 1, warnings := 0,
          bitStream := List.replicate data.length 0,
          ok := (detectClock data (highOf data)).ok } = Step.abort why ok → ok = true) ∧
    (∀ w, walkLoop data (clockOf data) fuel (startOf data)
        { lastval := lastvalOf data, bitidx := 1, warnings := 0,
          bitStream := List.replicate data.length 0,
          ok := (detectClock data (highOf data)).ok } = Step.cont w →
      w.ok = true ∧ w.bitidx ≤ data.length / 2 ∧ 1 ≤ w.bitidx ∧
      w.bitStream.length = data.length) := by
  have hok := (detectClock_safe data (highOf data)).2
  obtain ⟨s1, s2, s3⟩ := startOf_spec data
  have hshape : ∀ w, walkLoop data (clockOf data) fuel (startOf data)
        { lastval := lastvalOf data, bitidx := 1, warnings := 0,
          bitStream := List.replicate data.length 0,
          ok := (detectClock data (highOf data)).ok } = Step.cont w →
      1 ≤ w.bitidx ∧ w.bitStream.length = data.length := by
    intro w h
    obtain ⟨k1, k2, _⟩ := walkLoop_shape data (clockOf data) fuel (startOf data) _ w h
    simp only [List.length_replicate] at k1 k2
    exact ⟨k2, k1⟩
  by_cases hs : startOf data < data.length
  · obtain ⟨t1, t2, t3, _⟩ := s2 hs
    obtain ⟨a1, a2⟩ := walkLoop_safe data (clockOf data) (startOf data) t1 fuel (startOf data)
      { lastval := lastvalOf data, bitidx := 1, warnings := 0,
        bitStream := List.replicate data.length 0,
        ok := (detectClock data (highOf data)).ok }
      (by simp only; omega) (by simp only; omega) (by simp only; omega) (by simp only; omega)
      (by omega)
    dsimp only at a1 a2
    refine ⟨fun why ok h => by rw [a1 why ok h, hok], fun w h => ?_⟩
    obtain ⟨b1, b2, b3⟩ := a2 w h
    rw [hok] at b1
    obtain ⟨k1, k2⟩ := hshape w h
    exact ⟨b1, by omega, k1, k2⟩
  · have hf0 : fuel = 0 := by omega
    subst hf0
    refine ⟨fun why ok h => ?_, fun w h => ?_⟩
    · cases h
    · obtain ⟨k1, k2⟩ := hshape w h
      cases h
      exact ⟨hok, by dsimp only; omega, k1, k2⟩

/-! ## Index safety: the pairing loop -/

theorem pairStep_shape (len invert i : Nat) (p : Pairing) :
    (∀ why ok, pairStep len invert i p = Step.abort why ok → i + 1 < len → ok = p.ok) ∧
    (∀ i1 p1, pairStep len invert i p = Step.cont (i1, p1) →
      (i + 1 < len → 2 * p.bit2idx ≤ i → p1.ok = p.ok) ∧ i ≤ i1 ∧
      (p1.bit2idx = p.bit2idx ∨ (p1.bit2idx = p.bit2idx + 1 ∧ i1 = i)) ∧
      p1.bitStream.length = p.bitStream.length) := by
  unfold pairStep
  dsimp only
  split
  · refine ⟨fun why ok h => ?_, fun i1 p1 h => ?_⟩
    · cases h
    · cases h
      refine ⟨fun h1 h2 => ?_, le_refl _, Or.inr ⟨rfl, rfl⟩, by simp⟩
      have hi : i < len := by omega
      have hb : p.bit2idx < len := by omega
      simp [hi, h1, hb]
  · split
    · refine ⟨fun why ok h => ?_, fun i1 p1 h => ?_⟩
      · cases h
      · cases h
        refine ⟨fun h1 h2 => ?_, le_refl _, Or.inr ⟨rfl, rfl⟩, by simp⟩
        have hi : i < len := by omega
        have hb : p.bit2idx < len := by omega
        simp [hi, h1, hb]
    · split
      · refine ⟨fun why ok h => ?_, fun i1 p1 h => ?_⟩
        · cases h
          intro h1
          have hi : i < len := by omega
          simp [hi, h1]
        · cases h
      · refine ⟨fun why ok h => ?_, fun i1 p1 h => ?_⟩
        · cases h
        · cases h
          refine ⟨fun h1 h2 => ?_, by omega, Or.inl rfl, rfl⟩
          have hi : i < len := by omega
          simp [hi, h1]

theorem pairLoop_safe (len invert bitidx : Nat) :
    ∀ (fuel i : Nat) (p : Pairing), 2 * p.bit2idx ≤ i →
      (∀ why ok, pairLoop len invert bitidx fuel i p = Step.abort why ok →
        bitidx < len → ok = p.ok) ∧
      (∀ p1, pairLoop len invert bitidx fuel i p = Step.cont p1 →
        (bitidx < len → p1.ok = p.ok) ∧
        (p1.bit2idx = p.bit2idx ∨ 2 * p1.bit2idx ≤ bitidx + 1) ∧
        p1.bitStream.length = p.bitStream.length) := by
  intro fuel
  induction fuel with
  | zero =>
    intro i p h
    refine ⟨fun why ok h => ?_, fun p1 h1 => ?_⟩
    · cases h
    · cases h1
      exact ⟨fun _ => rfl, Or.inl rfl, rfl⟩
  | succ fuel ih =>
    intro i p h
    by_cases hi : i < bitidx
    · obtain ⟨a1, a2⟩ := pairStep_shape len invert i p
      cases hstep : pairStep len invert i p with
      | abort why ok =>
        simp only [pairLoop, if_pos hi, hstep]
        refine ⟨fun why1 ok1 h1 => ?_, fun p1 h1 => ?_⟩
        · cases h1
          intro hb
          exact a1 _ _ hstep (by omega)
        · cases h1
      | cont q =>
        obtain ⟨i1, p2⟩ := q
        obtain ⟨b1, b2, b3, b4⟩ := a2 i1 p2 hstep
        simp only [pairLoop, if_pos hi, hstep]
        obtain ⟨c1, c2⟩ := ih (i1 + 2) p2 (by omega)
        refine ⟨fun why1 ok1 h1 hb => ?_, fun p1 h1 => ?_⟩
        · rw [c1 _ _ h1 hb, b1 (by omega) h]
        · obtain ⟨d1, d2, d3⟩ := c2 p1 h1
          refine ⟨fun hb => by rw [d1 hb, b1 (by omega) h], ?_, by rw [d3, b4]⟩
          omega
    · simp only [pairLoop, if_neg hi]
      refine ⟨fun why ok h1 => ?_, fun p1 h1 => ?_⟩
      · cases h1
      · cases h1
        exact ⟨fun _ => rfl, Or.inl rfl, rfl⟩

/-! ## Index safety of the whole function -/

theorem pairLoop_zero (len invert bitidx i : Nat) (p : Pairing) :
    pairLoop len invert bitidx 0 i p = Step.cont p := rfl

/-- On a trace of at least two samples every index used by the loops is in
range, whatever exit is taken and whatever the value of `invert`. -/
theorem decodeLoops_safe (invert : Nat) (data : List Nat) (hlen : 2 ≤ data.length) :
    (∀ why ok, decodeLoops invert data = Step.abort why ok → ok = true) ∧
    (∀ p, decodeLoops invert data = Step.cont p → p.ok = true) := by
  unfold decodeLoops
  by_cases hh : highOf data ≠ 1
  · rw [if_pos hh]
    simp only [pairLoop_zero]
    refine ⟨fun why ok h => ?_, fun p h => ?_⟩
    · cases h
    · cases h
      exact (windowPath_safe invert data).1
  · rw [if_neg hh]
    obtain ⟨a1, a2⟩ := pulseWalk_safe data hlen (data.length - startOf data) (le_refl _)
    cases hw : pulseWalk data with
    | abort why ok =>
      simp only
      refine ⟨fun why1 ok1 h => ?_, fun p h => ?_⟩
      · cases h
        exact a1 why ok hw
      · cases h
    | cont w =>
      obtain ⟨b1, b2, b3, b4⟩ := a2 w hw
      obtain ⟨c1, c2⟩ := pairLoop_safe data.length invert w.bitidx w.bitidx 0
        { bit2idx := 0, warnings := w.warnings, bitStream := w.bitStream, ok := w.ok }
        (le_refl _)
      simp only
      refine ⟨fun why ok h => ?_, fun p h => ?_⟩
      · rw [c1 why ok h (by omega)]
        exact b1
      · rw [(c2 p h).1 (by omega)]
        exact b1

theorem manchester_decode_safe (data : List Nat) (hlen : 2 ≤ data.length) :
    (manchester_decode data).inBounds = true := by
  obtain ⟨a1, a2⟩ := decodeLoops_safe 0 data hlen
  unfold manchester_decode
  cases h : decodeLoops 0 data with
  | abort why ok => exact a1 why ok h
  | cont p => exact a2 p h

/-- C16. For every trace of length `N >= 2` and either polarity, every index
used by `manchester_decode` is in `0..N-1`, whatever exit is taken: the reads
`data[i-1]` and `data[i]` of the clock scan and of the walk, the reads
`data[i*clock+j]` of the window path, the stores at `bitidx` and `bit2idx` and
the loads at `i` and `i+1` of the pairing loop. At every point of the walk
`bitidx` (the symbol count plus one) is at most `N/2`: a short pulse spans at
least 2 samples and a long pulse at least 4. -/
theorem indices_in_range (invert : Nat) (data : List Nat) (hlen : 2 ≤ data.length) :
    (manchester_decode data).inBounds = true ∧
    (∀ why ok, decodeLoops invert data = Step.abort why ok → ok = true) ∧
    (∀ p, decodeLoops invert data = Step.cont p → p.ok = true) ∧
    (detectClock data (highOf data)).ok = true ∧
    (windowPath invert data).ok = true ∧
    (∀ clock lc, classify clock lc = Pulse.short → 2 ≤ lc) ∧
    (∀ clock lc, classify clock lc = Pulse.long → 4 ≤ lc) ∧
    (∀ fuel, fuel ≤ data.length - startOf data →
      (∀ why ok, walkLoop data (clockOf data) fuel (startOf data)
          { lastval := lastvalOf data, bitidx := 1, warnings := 0,
            bitStream := List.replicate data.length 0,
            ok := (detectClock data (highOf data)).ok } = Step.abort why ok → ok = true) ∧
      (∀ w, walkLoop data (clockOf data) fuel (startOf data)
          { lastval := lastvalOf data, bitidx := 1, warnings := 0,
            bitStream := List.replicate data.length 0,
            ok := (detectClock data (highOf data)).ok } = Step.cont w →
        w.ok = true ∧ w.bitidx ≤ data.length / 2)) := by
  refine ⟨manchester_decode_safe data hlen, (decodeLoops_safe invert data hlen).1,
    (decodeLoops_safe invert data hlen).2, (detectClock_safe data _).2,
    (windowPath_safe invert data).1, classify_short_ge, classify_long_ge, ?_⟩
  intro fuel hf
  obtain ⟨a1, a2⟩ := pulseWalk_safe data hlen fuel hf
  exact ⟨a1, fun w h => ⟨(a2 w h).1, (a2 w h).2.1⟩⟩

theorem indices_in_range_witness :
    (manchester_decode [0, 1, 1, 0, 0, 1, 1, 0, 0, 1]).inBounds = true ∧
    (∀ why ok, decodeLoops 0 [0, 1, 1, 0, 0, 1, 1, 0, 0, 1] = Step.abort why ok → ok = true) ∧
    (∀ p, decodeLoops 0 [0, 1, 1, 0, 0, 1, 1, 0, 0, 1] = Step.cont p → p.ok = true) ∧
    (detectClock [0, 1, 1, 0, 0, 1, 1, 0, 0, 1]
      (highOf [0, 1, 1, 0, 0, 1, 1, 0, 0, 1])).ok = true ∧
    (windowPath 0 [0, 1, 1, 0, 0, 1, 1, 0, 0, 1]).ok = true ∧
    (∀ clock lc, classify clock lc = Pulse.short → 2 ≤ lc) ∧
    (∀ clock lc, classify clock lc = Pulse.long → 4 ≤ lc) ∧
    (∀ fuel, fuel ≤ [0, 1, 1, 0, 0, 1, 1, 0, 0, 1].length - startOf [0, 1, 1, 0, 0, 1, 1, 0, 0, 1] →
      (∀ why ok, walkLoop [0, 1, 1, 0, 0, 1, 1, 0, 0, 1]
          (clockOf [0, 1, 1, 0, 0, 1, 1, 0, 0, 1]) fuel (startOf [0, 1, 1, 0, 0, 1, 1, 0, 0, 1])
          { lastval := lastvalOf [0, 1, 1, 0, 0, 1, 1, 0, 0, 1], bitidx := 1, warnings := 0,
            bitStream := List.replicate [0, 1, 1, 0, 0, 1, 1, 0, 0, 1].length 0,
            ok := (detectClock [0, 1, 1, 0, 0, 1, 1, 0, 0, 1]
              (highOf [0, 1, 1, 0, 0, 1, 1, 0, 0, 1])).ok } = Step.abort why ok → ok = true) ∧
      (∀ w, walkLoop [0, 1, 1, 0, 0, 1, 1, 0, 0, 1]
          (clockOf [0, 1, 1, 0, 0, 1, 1, 0, 0, 1]) fuel (startOf [0, 1, 1, 0, 0, 1, 1, 0, 0, 1])
          { lastval := lastvalOf [0, 1, 1, 0, 0, 1, 1, 0, 0, 1], bitidx := 1, warnings := 0,
            bitStream := List.replicate [0, 1, 1, 0, 0, 1, 1, 0, 0, 1].length 0,
            ok := (detectClock [0, 1, 1, 0, 0, 1, 1, 0, 0, 1]
              (highOf [0, 1, 1, 0, 0, 1, 1, 0, 0, 1])).ok } = Step.cont w →
        w.ok = true ∧ w.bitidx ≤ [0, 1, 1, 0, 0, 1, 1, 0, 0, 1].length / 2)) :=
  indices_in_range 0 [0, 1, 1, 0, 0, 1, 1, 0, 0, 1] (by decide)

/-! ## A trace without a zero sample -/

/-- `low` is `0` for every trace. For every trace of length at least 2 in
which no sample equals `0`, no start point is found (the index reaches the end
of the trace and `lastval` stays `0`), no exit `return 0` is taken, the loops
end with `bit2idx = 0`, nothing is copied, all indices used are in range, and
the end of the function is reached through `free(bitStream)`. -/
theorem no_zero_sample_no_start_point (data : List Nat) (hlen : 2 ≤ data.length)
    (h : ∀ x ∈ data, x ≠ 0) :
    lowOf data = 0 ∧ startOf data = data.length ∧ lastvalOf data = 0 ∧
    (∃ p, decodeLoops 0 data = Step.cont p ∧ p.bit2idx = 0) ∧
    (manchester_decode data).ret = none ∧ (manchester_decode data).dataout = [] ∧
    (manchester_decode data).inBounds = true := by
  have hlow := lowOf_eq_zero data
  have hs : startOf data = data.length := startOf_of_no_low data (by rw [hlow]; exact h)
  have hl : lastvalOf data = 0 := (startOf_spec data).2.2 hs
  have hd : ∃ p, decodeLoops 0 data = Step.cont p ∧ p.bit2idx = 0 := by
    unfold decodeLoops
    by_cases hh : highOf data ≠ 1
    · have hf : data.length / clockOf data - data.length = 0 :=
        Nat.sub_eq_zero_of_le (Nat.div_le_self _ _)
      simp only [hh, ne_eq, not_false_eq_true, if_true, windowPath, hs, hf, windowLoop, pairLoop]
      exact ⟨_, rfl, rfl⟩
    · simp only [hh, if_false, pulseWalk, hs, Nat.sub_self, walkLoop]
      rcases pairLoop_no_symbols data.length 0 data.length 0
        (detectClock data (highOf data)).ok with ⟨ok1, e⟩ | ⟨p, e, hp⟩
      · simp [pairLoop, pairStep, getD_replicate_zero] at e
      · exact ⟨p, e, hp⟩
  obtain ⟨p, hp, hp0⟩ := hd
  refine ⟨hlow, hs, hl, ⟨p, hp, hp0⟩, ?_, ?_, manchester_decode_safe data hlen⟩
  · simp [manchester_decode, hp]
  · simp [manchester_decode, hp, hp0]

/-- C19 (the code at the failing input). On the traces `3,7,3,7,3,7` (window
path) and `1,1,1` (pulse-width path), which have no sample `0`, no start
point is found (`i` reaches the length, `lastval` stays `0`), the loops end
with `bit2idx = 0` and nothing is copied; no `return 0` is executed: the end
of the function is reached, where `free(bitStream)` is called on the array
of line 99, and no value is returned. -/
theorem no_zero_sample_reaches_free :
    lowOf [3, 7, 3, 7, 3, 7] = 0 ∧ startOf [3, 7, 3, 7, 3, 7] = [3, 7, 3, 7, 3, 7].length ∧
    lastvalOf [3, 7, 3, 7, 3, 7] = 0 ∧
    decodeLoops 0 [3, 7, 3, 7, 3, 7] =
      Step.cont { bit2idx := 0, warnings := 0, bitStream := [0, 0, 0, 0, 0, 0], ok := true } ∧
    manchester_decode [3, 7, 3, 7, 3, 7] = { ret := none, dataout := [], inBounds := true } ∧
    startOf [1, 1, 1] = [1, 1, 1].length ∧
    decodeLoops 0 [1, 1, 1] =
      Step.cont { bit2idx := 0, warnings := 1, bitStream := [0, 0, 0], ok := true } ∧
    manchester_decode [1, 1, 1] = { ret := none, dataout := [], inBounds := true } := by
  decide

/-! ## The end of the function -/

/-- The output index never passes the end of the working buffer. -/
theorem decodeLoops_count (invert : Nat) (data : List Nat) (p : Pairing)
    (h : decodeLoops invert data = Step.cont p) : p.bit2idx ≤ p.bitStream.length := by
  unfold decodeLoops at h
  by_cases hh : highOf data ≠ 1
  · rw [if_pos hh] at h
    simp only [pairLoop_zero] at h
    cases h
    obtain ⟨_, _, w3, w4⟩ := windowPath_safe invert data
    simp only
    omega
  · rw [if_neg hh] at h
    cases hw : pulseWalk data with
    | abort why ok => rw [hw] at h; cases h
    | cont w =>
      rw [hw] at h
      simp only at h
      obtain ⟨k1, k2, k3⟩ := walkLoop_shape data (clockOf data) _ _ _ w hw
      simp only [List.length_replicate] at k1 k2 k3
      obtain ⟨_, c2⟩ := pairLoop_safe data.length invert w.bitidx w.bitidx 0
        { bit2idx := 0, warnings := w.warnings, bitStream := w.bitStream, ok := w.ok }
        (le_refl _)
      obtain ⟨_, d2, d3⟩ := c2 p h
      simp only at d2 d3
      rw [d3, k1]
      by_cases hlen : 2 ≤ data.length
      · obtain ⟨_, b2, _, _⟩ := (pulseWalk_safe data hlen _ (le_refl _)).2 w hw
        omega
      · have hs : startOf data = data.length := by
          by_contra hc
          have hlt : startOf data < data.length := by
            have := (startOf_spec data).1
            omega
          have := ((startOf_spec data).2.1 hlt).1
          omega
        have hw0 : w.bitidx = 1 := by
          unfold pulseWalk at hw
          rw [hs, Nat.sub_self] at hw
          cases hw
          rfl
        rw [hw0, k3 hw0] at h
        rcases pairLoop_no_symbols data.length invert data.length w.warnings w.ok with
          ⟨ok1, e⟩ | ⟨p1, e, hp1⟩
        · rw [e] at h
          cases h
        · rw [e] at h
          cases h
          omega

/-- Every decode that takes no `return 0` exit copies `bit2idx` bytes and
reaches `free(bitStream)`; every other decode returns `0`. -/
theorem normal_exit_reaches_free (data : List Nat) :
    (∀ p, decodeLoops 0 data = Step.cont p →
      (manchester_decode data).dataout.length = p.bit2idx ∧
      (manchester_decode data).ret = none) ∧
    (∀ why ok, decodeLoops 0 data = Step.abort why ok →
      (manchester_decode data).ret = some 0) := by
  constructor
  · intro p h
    have hc := decodeLoops_count 0 data p h
    unfold manchester_decode
    rw [h]
    refine ⟨?_, rfl⟩
    simp only
    split
    · rw [List.length_take]
      omega
    · simp only [List.length_nil]
      omega
  · intro why ok h
    unfold manchester_decode
    rw [h]

/-- C20 (the code at the failing input). On the trace
`1,1,0,0,0,0,1,1,0,0,1,1,0,0,1,1,0` no `return 0` exit is taken, the loops
end with `bit2idx = 3` and three bits are copied to the output; the
statement `return bit2idx` is reached only through `free(bitStream)` on the
array of line 99, so no value is returned. The same holds on the framed
noise-free trace of 256 bits `1`, where 256 bits are copied. -/
theorem count_is_never_returned :
    decodeLoops 0 [1, 1, 0, 0, 0, 0, 1, 1, 0, 0, 1, 1, 0, 0, 1, 1, 0] =
      Step.cont { bit2idx := 3, warnings := 2,
                  bitStream := [0, 0, 0, 1, 0, 1, 0, 1, 0, 0, 0, 0, 0, 0, 0, 0, 0], ok := true } ∧
    manchester_decode [1, 1, 0, 0, 0, 0, 1, 1, 0, 0, 1, 1, 0, 0, 1, 1, 0] =
      { ret := none, dataout := [0, 0, 0], inBounds := true } ∧
    (manchester_decode (framedTrace 2 (List.replicate 256 1))).dataout.length = 256 ∧
    (manchester_decode (framedTrace 2 (List.replicate 256 1))).ret = none := by
  obtain ⟨_, ⟨p, hp, _, _⟩, f3⟩ := framed_decode 2 (List.replicate 256 1) (by decide)
    (by decide) (fun b hb => Or.inr (List.eq_of_mem_replicate hb))
  refine ⟨by decide, by decide, ?_, ((normal_exit_reaches_free _).1 p hp).2⟩
  rw [f3, List.length_replicate]

/-! ## The runaway test -/

theorem walkStep_guard (data : List Nat) (clock i : Nat) (w w1 : Walk)
    (h : walkStep data clock i w = Step.cont w1) :
    w1.bitidx = w.bitidx ∨
      (sample data (i - 1) ≠ sample data i ∧ w.bitidx ≤ data.length * 2 / clock + 8 ∧
        w1.bitidx ≤ w.bitidx + 2) := by
  unfold walkStep at h
  by_cases ht : sample data (i - 1) ≠ sample data i
  · rw [if_pos ht] at h
    by_cases hg : data.length * 2 / clock + 8 < w.bitidx
    · rw [if_pos hg] at h
      cases h
    · rw [if_neg hg] at h
      right
      refine ⟨ht, Nat.not_lt.mp hg, ?_⟩
      have := (walkStep_shape data clock i w w1 (by
        unfold walkStep
        rw [if_pos ht, if_neg hg]
        exact h)).2.1
      cases hc : classify clock ((i : Int) - (w.lastval : Int)) with
      | short =>
        rw [hc] at h
        cases h
        dsimp only
        omega
      | long =>
        rw [hc] at h
        cases h
        dsimp only
        omega
      | anomaly =>
        rw [hc] at h
        by_cases hw : w.warnings + 1 > 10
        · simp only [if_pos hw] at h
          cases h
        · simp only [if_neg hw] at h
          cases h
          dsimp only
          omega
  · rw [if_neg ht] at h
    cases h
    exact Or.inl rfl

theorem walkLoop_guard (data : List Nat) (clock : Nat) :
    ∀ (fuel i : Nat) (w w1 : Walk), w.bitidx ≤ data.length * 2 / clock + 8 + 2 →
      walkLoop data clock fuel i w = Step.cont w1 →
      w1.bitidx ≤ data.length * 2 / clock + 8 + 2 := by
  intro fuel
  induction fuel with
  | zero =>
    intro i w w1 hb h
    cases h
    exact hb
  | succ fuel ih =>
    intro i w w1 hb h
    rw [walkLoop_succ] at h
    cases hstep : walkStep data clock i w with
    | abort why ok => rw [hstep] at h; cases h
    | cont w2 =>
      rw [hstep] at h
      simp only at h
      refine ih (i + 1) w2 w1 ?_ h
      rcases walkStep_guard data clock i w w2 hstep with e | ⟨_, e1, e2⟩
      · rw [e]; exact hb
      · omega

theorem walkStep_runaway (data : List Nat) (clock i : Nat) (w : Walk)
    (ht : sample data (i - 1) ≠ sample data i)
    (hg : data.length * 2 / clock + 8 < w.bitidx) :
    ∃ ok, walkStep data clock i w = Step.abort Abort.clockWrong ok := by
  unfold walkStep
  rw [if_pos ht, if_pos hg]
  exact ⟨_, rfl⟩

/-- C12 (as amended). In the pulse-width path (`high = 1`) on a trace of
length `N`, the runaway test is made at a transition only, before the symbols
of that transition are appended, and it compares `bitidx`, the symbol count
plus one, with `2*N/clock + 8`: a transition met with
`bitidx > 2*N/clock + 8` leaves through `return 0` whatever the interval is,
and a sample without transition changes nothing. A transition that passes
the test appends at most two symbols, so a walk that reaches the end of the
trace has `bitidx <= 2*N/clock + 10`, that is at most `2*N/clock + 9`
symbols; an exit of the walk makes `manchester_decode` return `0` with
nothing copied. -/
theorem runaway_guard (data : List Nat) (hhigh : highOf data = 1) :
    (∀ i w, sample data (i - 1) ≠ sample data i →
      data.length * 2 / clockOf data + 8 < w.bitidx →
      ∃ ok, walkStep data (clockOf data) i w = Step.abort Abort.clockWrong ok) ∧
    (∀ i w, sample data (i - 1) = sample data i →
      ∃ w1, walkStep data (clockOf data) i w = Step.cont w1 ∧ w1.bitidx = w.bitidx) ∧
    (∀ i w w1, walkStep data (clockOf data) i w = Step.cont w1 →
      w1.bitidx = w.bitidx ∨
        (w.bitidx ≤ data.length * 2 / clockOf data + 8 ∧ w1.bitidx ≤ w.bitidx + 2)) ∧
    (∀ w, pulseWalk data = Step.cont w →
      w.bitidx - 1 ≤ data.length * 2 / clockOf data + 8 + 1) ∧
    (∀ why ok, pulseWalk data = Step.abort why ok →
      (manchester_decode data).ret = some 0 ∧ (manchester_decode data).dataout = []) := by
  refine ⟨fun i w ht hg => walkStep_runaway data _ i w ht hg, ?_, ?_, ?_, ?_⟩
  · intro i w ht
    rcases walkStep_cases data (clockOf data) i w with ⟨_, w1, e, _, _, e3, _⟩ | ⟨hn, _⟩
    · exact ⟨w1, e, e3⟩
    · exact absurd ht hn
  · intro i w w1 h
    rcases walkStep_guard data _ i w w1 h with e | ⟨_, e1, e2⟩
    · exact Or.inl e
    · exact Or.inr ⟨e1, e2⟩
  · intro w h
    have hb := walkLoop_guard data (clockOf data) _ _ _ w (Nat.le_add_left 1 _) h
    exact Nat.sub_le_of_le_add hb
  · intro why ok h
    exact decode_of_abort data why ok (decodeLoops_of_walk_abort 0 data hhigh why ok h)

theorem runaway_guard_witness :
    highOf [1, 0, 0, 1, 1, 0, 0, 1, 1, 0] = 1 ∧
    ((∀ i w, sample [1, 0, 0, 1, 1, 0, 0, 1, 1, 0] (i - 1) ≠ sample [1, 0, 0, 1, 1, 0, 0, 1, 1, 0] i →
      [1, 0, 0, 1, 1, 0, 0, 1, 1, 0].length * 2 / clockOf [1, 0, 0, 1, 1, 0, 0, 1, 1, 0] + 8
        < w.bitidx →
      ∃ ok, walkStep [1, 0, 0, 1, 1, 0, 0, 1, 1, 0] (clockOf [1, 0, 0, 1, 1, 0, 0, 1, 1, 0]) i w =
        Step.abort Abort.clockWrong ok) ∧
    (∀ i w, sample [1, 0, 0, 1, 1, 0, 0, 1, 1, 0] (i - 1) = sample [1, 0, 0, 1, 1, 0, 0, 1, 1, 0] i →
      ∃ w1, walkStep [1, 0, 0, 1, 1, 0, 0, 1, 1, 0] (clockOf [1, 0, 0, 1, 1, 0, 0, 1, 1, 0]) i w =
        Step.cont w1 ∧ w1.bitidx = w.bitidx) ∧
    (∀ i w w1, walkStep [1, 0, 0, 1, 1, 0, 0, 1, 1, 0] (clockOf [1, 0, 0, 1, 1, 0, 0, 1, 1, 0]) i w =
        Step.cont w1 →
      w1.bitidx = w.bitidx ∨
        (w.bitidx ≤ [1, 0, 0, 1, 1, 0, 0, 1, 1, 0].length * 2 /
            clockOf [1, 0, 0, 1, 1, 0, 0, 1, 1, 0] + 8 ∧ w1.bitidx ≤ w.bitidx + 2)) ∧
    (∀ w, pulseWalk [1, 0, 0, 1, 1, 0, 0, 1, 1, 0] = Step.cont w →
      w.bitidx - 1 ≤ [1, 0, 0, 1, 1, 0, 0, 1, 1, 0].length * 2 /
        clockOf [1, 0, 0, 1, 1, 0, 0, 1, 1, 0] + 8 + 1) ∧
    (∀ why ok, pulseWalk [1, 0, 0, 1, 1, 0, 0, 1, 1, 0] = Step.abort why ok →
      (manchester_decode [1, 0, 0, 1, 1, 0, 0, 1, 1, 0]).ret = some 0 ∧
      (manchester_decode [1, 0, 0, 1, 1, 0, 0, 1, 1, 0]).dataout = [])) :=
  ⟨by decide, runaway_guard [1, 0, 0, 1, 1, 0, 0, 1, 1, 0] (by decide)⟩

set_option maxRecDepth 1000000 in
set_option maxHeartbeats 4000000 in
/-- C12 (counterexample). On the trace `runawayTrace` (280 samples in
`{0,1}`, clock 8) the bound `2*N/clock + 8` is 78. The walk reaches the end
of the trace with `bitidx = 80`, that is with 79 symbols appended: the last
transition is met with `bitidx = 78`, passes the test and appends two
symbols, and no transition follows. The decode takes no `return 0` exit and
stores 38 bits. -/
theorem runaway_bound_exceeded :
    runawayTrace.length = 280 ∧ highOf runawayTrace = 1 ∧ clockOf runawayTrace = 8 ∧
    runawayTrace.length * 2 / clockOf runawayTrace + 8 = 78 ∧
    pulseWalk runawayTrace =
      Step.cont { lastval := 279, bitidx := 80, warnings := 1,
                  bitStream := 0 :: 0 :: 1 :: 0 ::
                    ((List.replicate 19 [1, 1, 0, 0]).flatten ++ List.replicate 200 0),
                  ok := true } ∧
    (manchester_decode runawayTrace).dataout.length = 38 ∧
    (manchester_decode runawayTrace).dataout = (List.replicate 19 [1, 0]).flatten ∧
    (manchester_decode runawayTrace).inBounds = true := by
  decide

/-! ## The pairing loop and the cells the walk did not write -/

/-- C13 (divergence). The walk appends its first symbol to cell `1` of the
working buffer (`bitidx` starts at `1`), and the pairing loop starts at cell
`0`, which is never written and holds `0`. On the noise-free trace of
`1,1,1,1` with two samples per half bit the walk appends the symbols
`0,1,0,1,0`; paired from the first appended symbol they give `1,1`, but the
loop pairs cell `0` with the first symbol (a fault), then `(0,1)`, then the
last symbol with the unwritten cell `6` (a fault), and the output is the
single bit `1` with three warnings. On the second trace the walk appends
`0,0,1,0,1,0,1`, which give `1,1` when paired from the first appended symbol;
the loop pairs the last symbol `1` with the unwritten cell `8` and the output
is `0,0,0`. -/
theorem pairing_starts_at_unwritten_cell :
    pulseWalk [0, 0, 1, 1, 0, 0, 1, 1, 0, 0, 1, 1, 0, 0, 1, 1] =
      Step.cont { lastval := 14, bitidx := 6, warnings := 1,
                  bitStream := [0, 0, 1, 0, 1, 0, 0, 0, 0, 0, 0, 0, 0, 0, 0, 0], ok := true } ∧
    appendedSymbols { lastval := 14, bitidx := 6, warnings := 1,
                      bitStream := [0, 0, 1, 0, 1, 0, 0, 0, 0, 0, 0, 0, 0, 0, 0, 0], ok := true } =
      [0, 1, 0, 1, 0] ∧
    pairSymbols [0, 1, 0, 1, 0] = [1, 1] ∧
    decodeLoops 0 [0, 0, 1, 1, 0, 0, 1, 1, 0, 0, 1, 1, 0, 0, 1, 1] =
      Step.cont { bit2idx := 1, warnings := 3,
                  bitStream := [1, 0, 1, 0, 1, 0, 0, 0, 0, 0, 0, 0, 0, 0, 0, 0], ok := true } ∧
    (manchester_decode [0, 0, 1, 1, 0, 0, 1, 1, 0, 0, 1, 1, 0, 0, 1, 1]).dataout = [1] ∧
    pulseWalk [1, 1, 0, 0, 0, 0, 1, 1, 0, 0, 1, 1, 0, 0, 1, 1, 0] =
      Step.cont { lastval := 16, bitidx := 8, warnings := 1,
                  bitStream := [0, 0, 0, 1, 0, 1, 0, 1, 0, 0, 0, 0, 0, 0, 0, 0, 0], ok := true } ∧
    appendedSymbols { lastval := 16, bitidx := 8, warnings := 1,
                      bitStream := [0, 0, 0, 1, 0, 1, 0, 1, 0, 0, 0, 0, 0, 0, 0, 0, 0],
                      ok := true } = [0, 0, 1, 0, 1, 0, 1] ∧
    pairSymbols [0, 0, 1, 0, 1, 0, 1] = [1, 1] ∧
    (manchester_decode [1, 1, 0, 0, 0, 0, 1, 1, 0, 0, 1, 1, 0, 0, 1, 1, 0]).dataout = [0, 0, 0] := by
  decide

/-! ## The clock as a minimum of distances -/

theorem foldl_min_assoc (xs : List Nat) : ∀ (c a : Nat),
    xs.foldl min (min c a) = min c (xs.foldl min a) := by
  induction xs with
  | nil => intro c a; rfl
  | cons x xs ih =>
    intro c a
    simp only [List.foldl_cons]
    rw [min_assoc, ih]

theorem foldl_min_of_min (xs : List Nat) (c m : Nat) (h : xs.min? = some m) :
    xs.foldl min c = min c m := by
  cases xs with
  | nil => simp at h
  | cons a as =>
    simp only [List.min?_cons', Option.some.injEq] at h
    rw [List.foldl_cons, foldl_min_assoc, h]

theorem length_gapsFrom (prev : Nat) (xs : List Nat) : (gapsFrom prev xs).length = xs.length := by
  induction xs generalizing prev with
  | nil => rfl
  | cons x xs ih => simp [gapsFrom, ih]

theorem length_gaps (xs : List Nat) : (gaps xs).length = xs.length - 1 := by
  cases xs with
  | nil => rfl
  | cons x xs => simp [gaps, length_gapsFrom]

theorem length_risingIndices (data : List Nat) (high : Nat) :
    ∀ (fuel i : Nat), (risingIndices data high fuel i).length = risingCount data high fuel i := by
  intro fuel
  induction fuel with
  | zero => intro i; rfl
  | succ fuel ih =>
    intro i
    simp only [risingIndices, risingCount]
    split
    · rw [List.length_cons, ih]
      omega
    · rw [ih]
      omega

/-- The clock loop takes the minimum of the start value and of the distances
between the rising events it meets. -/
theorem clockLoop_min (data : List Nat) (high : Nat) :
    ∀ (fuel i : Nat) (c : ClockScan), 1 ≤ i →
      (clockLoop data high fuel i c).clock =
        (if c.lastpeak ≠ 0 then gapsFrom c.lastpeak (risingIndices data high fuel i)
          else gaps (risingIndices data high fuel i)).foldl min c.clock := by
  intro fuel
  induction fuel with
  | zero =>
    intro i c _
    simp [clockLoop, risingIndices, gapsFrom, gaps]
  | succ fuel ih =>
    intro i c hi
    rw [clockLoop_succ, ih (i + 1) _ (by omega)]
    by_cases he : sample data i = high ∧ sample data (i - 1) ≠ high
    · obtain ⟨e1, e2⟩ := clockStep_of_event data high i c he
      have hi0 : i ≠ 0 := by omega
      simp only [risingIndices, if_pos he, e1, e2, hi0, ne_eq, not_false_eq_true, if_true]
      by_cases hl : c.lastpeak = 0
      · simp [hl, gaps]
      · simp only [hl, not_false_eq_true, true_and, if_true, gapsFrom, List.foldl_cons]
        congr 1
        by_cases hlt : i - c.lastpeak < c.clock
        · rw [if_pos hlt, min_eq_right (by omega)]
        · rw [if_neg hlt, min_eq_left (by omega)]
    · obtain ⟨e1, e2⟩ := clockStep_of_no_event data high i c he
      simp only [risingIndices, if_neg he, e1, e2]

theorem clockOf_eq_foldl (data : List Nat) :
    clockOf data = (risingGaps data).foldl min 0xFFFF := by
  unfold clockOf detectClock risingGaps
  rw [clockLoop_min data (highOf data) _ 1 _ (le_refl 1)]
  simp

/-- Two rising events are never neighbours. -/
theorem gapsFrom_ge_two (data : List Nat) (high : Nat) :
    ∀ (fuel i prev : Nat), (prev + 2 ≤ i ∨ (prev + 1 = i ∧ sample data prev = high)) →
      ∀ g ∈ gapsFrom prev (risingIndices data high fuel i), 2 ≤ g := by
  intro fuel
  induction fuel with
  | zero =>
    intro i prev _ g hg
    simp [risingIndices, gapsFrom] at hg
  | succ fuel ih =>
    intro i prev hp g hg
    simp only [risingIndices] at hg
    by_cases he : sample data i = high ∧ sample data (i - 1) ≠ high
    · rw [if_pos he] at hg
      simp only [gapsFrom, List.mem_cons] at hg
      have hi : prev + 2 ≤ i := by
        rcases hp with h | ⟨h1, h2⟩
        · exact h
        · exfalso
          apply he.2
          rw [← h1, Nat.add_sub_cancel]
          exact h2
      rcases hg with h | h
      · omega
      · exact ih (i + 1) i (Or.inr ⟨rfl, he.1⟩) g h
    · rw [if_neg he] at hg
      exact ih (i + 1) prev (Or.inl (by omega)) g hg

theorem gaps_ge_two (data : List Nat) (high : Nat) :
    ∀ (fuel i : Nat), ∀ g ∈ gaps (risingIndices data high fuel i), 2 ≤ g := by
  intro fuel
  induction fuel with
  | zero =>
    intro i g hg
    simp [risingIndices, gaps] at hg
  | succ fuel ih =>
    intro i g hg
    simp only [risingIndices] at hg
    by_cases he : sample data i = high ∧ sample data (i - 1) ≠ high
    · rw [if_pos he] at hg
      simp only [gaps] at hg
      exact gapsFrom_ge_two data high fuel (i + 1) i (Or.inr ⟨rfl, he.1⟩) g hg
    · rw [if_neg he] at hg
      exact ih (i + 1) g hg

/-- The clock of a trace with at least two rising events. -/
theorem clockOf_eq_min_gap (data : List Nat) (h : 2 ≤ risingEvents data) :
    ∃ m, (risingGaps data).min? = some m ∧ clockOf data = min 0xFFFF m ∧ 2 ≤ m := by
  have hlen : (risingGaps data).length = risingEvents data - 1 := by
    unfold risingGaps risingEvents
    rw [length_gaps, length_risingIndices]
  cases hm : (risingGaps data).min? with
  | none =>
    rw [List.min?_eq_none_iff] at hm
    rw [hm] at hlen
    simp only [List.length_nil] at hlen
    omega
  | some m =>
    refine ⟨m, rfl, ?_, ?_⟩
    · rw [clockOf_eq_foldl, foldl_min_of_min _ _ _ hm]
    · have hmem : m ∈ risingGaps data := List.min?_mem (by
        intro a b
        exact min_choice a b |>.imp id id) hm
      exact gaps_ge_two data (highOf data) _ _ m hmem

/-- C14 (as amended). `clock` starts at `0xFFFF` and is only ever lowered. For
every trace with at least two rising events (a sample equal to `high` whose
predecessor is not equal to `high`), with `m` the minimum distance between two
consecutive rising events in the whole trace, the clock computed by
`manchester_decode` is the smaller of `m` and `0xFFFF`; it is `m` whenever
`m <= 0xFFFF`, in particular for every trace of at most 65536 samples. Two
rising events are at least 2 samples apart, so `m >= 2` and `clock >= 2`; the
tolerance used by the pulse-width test is `clock/4`. -/
theorem clock_is_min_rising_distance (data : List Nat) (h : 2 ≤ risingEvents data) :
    ∃ m, (risingGaps data).min? = some m ∧ m ∈ risingGaps data ∧
      (∀ g ∈ risingGaps data, m ≤ g) ∧
      clockOf data = min 0xFFFF m ∧ (m ≤ 0xFFFF → clockOf data = m) ∧
      2 ≤ m ∧ 2 ≤ clockOf data ∧
      (∀ lc : Int, classify (clockOf data) lc = Pulse.short ↔
        |lc - ((clockOf data / 2 : Nat) : Int)| < ((clockOf data / 4 : Nat) : Int)) := by
  obtain ⟨m, h1, h2, h3⟩ := clockOf_eq_min_gap data h
  obtain ⟨k1, k2⟩ := (List.min?_eq_some_iff'.1 h1)
  refine ⟨m, h1, k1, k2, h2, ?_, h3, ?_, fun lc => classify_short_iff _ lc⟩
  · intro hm
    rw [h2]
    exact min_eq_right hm
  · rw [h2]
    exact le_min (by decide) h3

theorem clock_is_min_rising_distance_witness :
    2 ≤ risingEvents [0, 1, 0, 0, 1, 0, 1, 0, 0, 0, 1] ∧
    ∃ m, (risingGaps [0, 1, 0, 0, 1, 0, 1, 0, 0, 0, 1]).min? = some m ∧
      m ∈ risingGaps [0, 1, 0, 0, 1, 0, 1, 0, 0, 0, 1] ∧
      (∀ g ∈ risingGaps [0, 1, 0, 0, 1, 0, 1, 0, 0, 0, 1], m ≤ g) ∧
      clockOf [0, 1, 0, 0, 1, 0, 1, 0, 0, 0, 1] = min 0xFFFF m ∧
      (m ≤ 0xFFFF → clockOf [0, 1, 0, 0, 1, 0, 1, 0, 0, 0, 1] = m) ∧
      2 ≤ m ∧ 2 ≤ clockOf [0, 1, 0, 0, 1, 0, 1, 0, 0, 0, 1] ∧
      (∀ lc : Int, classify (clockOf [0, 1, 0, 0, 1, 0, 1, 0, 0, 0, 1]) lc = Pulse.short ↔
        |lc - ((clockOf [0, 1, 0, 0, 1, 0, 1, 0, 0, 0, 1] / 2 : Nat) : Int)| <
          ((clockOf [0, 1, 0, 0, 1, 0, 1, 0, 0, 0, 1] / 4 : Nat) : Int)) :=
  ⟨by decide, clock_is_min_rising_distance [0, 1, 0, 0, 1, 0, 1, 0, 0, 0, 1] (by decide)⟩

/-! ## Two rising events more than `0xFFFF` samples apart -/

theorem sample_wideGapTrace (n j : Nat) :
    sample (wideGapTrace n) j = if j = 1 ∨ j = n + 2 then 1 else 0 := by
  unfold sample wideGapTrace
  match j with
  | 0 => simp
  | 1 => simp
  | k + 2 =>
    simp only [List.getD_cons_succ, Nat.reduceEqDiff, false_or, Nat.add_right_cancel_iff]
    rw [List.getD_eq_getElem?_getD]
    by_cases hk : k < n
    · rw [List.getElem?_append_left (by simpa using hk)]
      have : ¬ k = n := by omega
      simp [List.getElem?_replicate, hk, this]
    · rw [List.getElem?_append_right (by simp; omega)]
      simp only [List.length_replicate]
      by_cases hk2 : k = n
      · simp [hk2]
      · have : ([1] : List Nat)[k - n]? = none := List.getElem?_eq_none (by simp; omega)
        simp [this, hk2]

theorem highOf_wideGapTrace (n : Nat) : highOf (wideGapTrace n) = 1 := by
  rw [highOf_eq_one_iff]
  intro x hx
  simp only [wideGapTrace, List.mem_cons, List.mem_append, List.mem_replicate,
    List.mem_singleton, List.not_mem_nil, or_false] at hx
  omega

theorem risingIndices_none (data : List Nat) (high : Nat) :
    ∀ (fuel i : Nat),
      (∀ j, i ≤ j → j < i + fuel → ¬ (sample data j = high ∧ sample data (j - 1) ≠ high)) →
      risingIndices data high fuel i = [] := by
  intro fuel
  induction fuel with
  | zero => intro i _; rfl
  | succ fuel ih =>
    intro i h
    simp only [risingIndices]
    rw [if_neg (h i (le_refl i) (by omega)), ih (i + 1) (fun j hj1 hj2 => h j (by omega) (by omega))]

theorem risingIndices_add (data : List Nat) (high : Nat) :
    ∀ (a b i : Nat), risingIndices data high (a + b) i =
      risingIndices data high a i ++ risingIndices data high b (i + a) := by
  intro a
  induction a with
  | zero => intro b i; simp [risingIndices]
  | succ a ih =>
    intro b i
    rw [show a + 1 + b = (a + b) + 1 by ring]
    simp only [risingIndices]
    rw [ih b (i + 1), show i + 1 + a = i + (a + 1) by ring]
    split <;> simp

theorem risingIndices_wideGapTrace (n : Nat) (hn : 1 ≤ n) :
    risingIndices (wideGapTrace n) 1 (n + 2) 1 = [1, n + 2] := by
  rw [show n + 2 = 1 + (n + 1) by ring, risingIndices_add, risingIndices_add]
  have h1 : risingIndices (wideGapTrace n) 1 1 1 = [1] := by
    simp [risingIndices, sample_wideGapTrace]
  have h2 : risingIndices (wideGapTrace n) 1 n (1 + 1) = [] := by
    apply risingIndices_none
    intro j hj1 hj2
    rintro ⟨e, _⟩
    rw [sample_wideGapTrace] at e
    have : ¬ (j = 1 ∨ j = n + 2) := by omega
    rw [if_neg this] at e
    omega
  have h3 : risingIndices (wideGapTrace n) 1 1 (1 + 1 + n) = [1 + (n + 1)] := by
    have a1 : 1 + 1 + n = 1 ∨ 1 + 1 + n = n + 2 := Or.inr (by ring)
    have a2 : ¬ (1 + 1 + n - 1 = 1 ∨ 1 + 1 + n - 1 = n + 2) := by omega
    simp only [risingIndices, sample_wideGapTrace, if_pos a1, if_neg a2]
    simp
    ring
  rw [h1, h2, h3]
  rfl

theorem wideGapTrace_facts (n : Nat) (hn : 1 ≤ n) :
    (wideGapTrace n).length = n + 3 ∧ risingEvents (wideGapTrace n) = 2 ∧
    risingGaps (wideGapTrace n) = [n + 1] ∧ clockOf (wideGapTrace n) = min 0xFFFF (n + 1) := by
  have hlen : (wideGapTrace n).length = n + 3 := by simp [wideGapTrace]
  have hr : risingIndices (wideGapTrace n) (highOf (wideGapTrace n))
      ((wideGapTrace n).length - 1) 1 = [1, n + 2] := by
    rw [highOf_wideGapTrace, hlen, show n + 3 - 1 = n + 2 by omega]
    exact risingIndices_wideGapTrace n hn
  have hg : risingGaps (wideGapTrace n) = [n + 1] := by
    unfold risingGaps
    rw [hr]
    simp [gaps, gapsFrom]
  refine ⟨hlen, ?_, hg, ?_⟩
  · unfold risingEvents
    rw [← length_risingIndices, hr]
    rfl
  · rw [clockOf_eq_foldl, hg]
    rfl

/-- C14 (counterexample). The trace `0, 1`, then 65535 samples `0`, then `1`
has 65538 samples and two rising events, at indices 1 and 65537: the minimum
distance between consecutive rising events is 65536, and the clock is
`0xFFFF = 65535`. -/
theorem clock_capped_by_start_value :
    (wideGapTrace 65535).length = 65538 ∧ risingEvents (wideGapTrace 65535) = 2 ∧
    risingGaps (wideGapTrace 65535) = [65536] ∧ clockOf (wideGapTrace 65535) = 65535 := by
  obtain ⟨h1, h2, h3, h4⟩ := wideGapTrace_facts 65535 (by norm_num)
  exact ⟨h1, h2, h3, by rw [h4]; norm_num⟩

/-! ## Pairing in place and pairing from a copy -/

theorem take_set_succ (bs : List Nat) (k v : Nat) (h : k < bs.length) :
    (bs.set k v).take (k + 1) = bs.take k ++ [v] := by
  rw [List.set_eq_take_append_cons_drop, if_pos h]
  have hl : (List.take k bs).length = k := by rw [List.length_take]; omega
  rw [List.take_append_eq_append_take, hl, List.take_of_length_le (by omega)]
  simp

theorem lt_length_of_getD_ne_zero (bs : List Nat) (j : Nat) (h : bs.getD j 0 ≠ 0) :
    j < bs.length := by
  by_contra hc
  apply h
  rw [List.getD_eq_getElem?_getD, List.getElem?_eq_none (by omega)]
  rfl

/-- One iteration of the pairing loop, in place and from a copy that agrees
with the working buffer at the two cells that are loaded. -/
theorem pairStep_copy (src : List Nat) (len invert i : Nat) (p : Pairing)
    (h2 : 2 * p.bit2idx ≤ i) (ha : p.bitStream.getD i 0 = src.getD i 0)
    (hb : p.bitStream.getD (i + 1) 0 = src.getD (i + 1) 0) :
    (∀ why ok, pairStep len invert i p = Step.abort why ok →
      why = Abort.decodeErrors ∧ ∀ out, pairStepCopy src invert i out p.warnings = none) ∧
    (∀ i1 p1, pairStep len invert i p = Step.cont (i1, p1) →
      pairStepCopy src invert i (p.bitStream.take p.bit2idx) p.warnings =
        some (i1, p1.bitStream.take p1.bit2idx, p1.warnings) ∧
      i ≤ i1 ∧ 2 * p1.bit2idx ≤ i1 + 2 ∧
      (∀ j, i + 2 ≤ j → p1.bitStream.getD j 0 = p.bitStream.getD j 0) ∧
      p1.bitStream.length = p.bitStream.length ∧
      (p.bit2idx ≤ p.bitStream.length → p1.bit2idx ≤ p1.bitStream.length)) := by
  have hset : ∀ v j, i + 2 ≤ j → (p.bitStream.set p.bit2idx v).getD j 0 = p.bitStream.getD j 0 := by
    intro v j hj
    rw [getD_set]
    have : ¬ (j = p.bit2idx ∧ p.bit2idx < p.bitStream.length) := fun h => by omega
    rw [if_neg this]
  unfold pairStep pairStepCopy
  dsimp only
  rw [← ha, ← hb]
  by_cases c1 : p.bitStream.getD i 0 = 0 ∧ p.bitStream.getD (i + 1) 0 = 1
  · rw [if_pos c1, if_pos c1]
    have hlt : p.bit2idx < p.bitStream.length := by
      have := lt_length_of_getD_ne_zero p.bitStream (i + 1) (by rw [c1.2]; decide)
      omega
    refine ⟨fun why ok h => ?_, fun i1 p1 h => ?_⟩
    · cases h
    · cases h
      dsimp only
      refine ⟨by rw [take_set_succ _ _ _ hlt], le_refl _, by omega, hset _, by simp, ?_⟩
      intro _
      rw [List.length_set]
      omega
  · rw [if_neg c1, if_neg c1]
    by_cases c2 : p.bitStream.getD i 0 = 1 ∧ p.bitStream.getD (i + 1) 0 = 0
    · rw [if_pos c2, if_pos c2]
      have hlt : p.bit2idx < p.bitStream.length := by
        have := lt_length_of_getD_ne_zero p.bitStream i (by rw [c2.1]; decide)
        omega
      refine ⟨fun why ok h => ?_, fun i1 p1 h => ?_⟩
      · cases h
      · cases h
        dsimp only
        refine ⟨by rw [take_set_succ _ _ _ hlt], le_refl _, by omega, hset _, by simp, ?_⟩
        intro _
        rw [List.length_set]
        omega
    · rw [if_neg c2, if_neg c2]
      by_cases c3 : p.warnings + 1 > 10
      · rw [if_pos c3, if_pos c3]
        refine ⟨fun why ok h => ?_, fun i1 p1 h => ?_⟩
        · cases h
          exact ⟨rfl, fun out => by simp only [if_neg c1, if_neg c2, if_pos c3]⟩
        · cases h
      · rw [if_neg c3, if_neg c3]
        refine ⟨fun why ok h => ?_, fun i1 p1 h => ?_⟩
        · cases h
        · cases h
          dsimp only
          exact ⟨rfl, by omega, by omega, fun _ _ => rfl, rfl, fun h => h⟩

theorem pairLoopCopy_succ (src : List Nat) (invert bitidx fuel i : Nat) (out : List Nat)
    (warnings : Nat) (hi : i < bitidx) :
    (pairStepCopy src invert i out warnings = none →
      pairLoopCopy src invert bitidx (fuel + 1) i out warnings = none) ∧
    (∀ i1 out1 w1, pairStepCopy src invert i out warnings = some (i1, out1, w1) →
      pairLoopCopy src invert bitidx (fuel + 1) i out warnings =
        pairLoopCopy src invert bitidx fuel (i1 + 2) out1 w1) := by
  constructor
  · intro h
    simp only [pairLoopCopy, if_pos hi, h]
  · intro i1 out1 w1 h
    simp only [pairLoopCopy, if_pos hi, h]

/-- The pairing loop in place and from a copy that agrees with the working
buffer from the cursor on. -/
theorem pairLoop_copy (src : List Nat) (len invert bitidx : Nat) :
    ∀ (fuel i : Nat) (p : Pairing), 2 * p.bit2idx ≤ i →
      (∀ j, i ≤ j → p.bitStream.getD j 0 = src.getD j 0) →
      p.bit2idx ≤ p.bitStream.length →
      (∀ why ok, pairLoop len invert bitidx fuel i p = Step.abort why ok →
        why = Abort.decodeErrors ∧
        pairLoopCopy src invert bitidx fuel i (p.bitStream.take p.bit2idx) p.warnings = none) ∧
      (∀ p1, pairLoop len invert bitidx fuel i p = Step.cont p1 →
        pairLoopCopy src invert bitidx fuel i (p.bitStream.take p.bit2idx) p.warnings =
          some (p1.bitStream.take p1.bit2idx, p1.warnings) ∧
        p1.bit2idx ≤ p1.bitStream.length) := by
  intro fuel
  induction fuel with
  | zero =>
    intro i p _ _ hl
    refine ⟨fun why ok h => ?_, fun p1 h => ?_⟩
    · cases h
    · cases h
      exact ⟨rfl, hl⟩
  | succ fuel ih =>
    intro i p h2 hagree hl
    by_cases hi : i < bitidx
    · obtain ⟨a1, a2⟩ := pairStep_copy src len invert i p h2 (hagree i (le_refl i))
        (hagree (i + 1) (by omega))
      obtain ⟨s1, s2⟩ := pairLoopCopy_succ src invert bitidx fuel i
        (p.bitStream.take p.bit2idx) p.warnings hi
      cases hstep : pairStep len invert i p with
      | abort why ok =>
        obtain ⟨b1, b2⟩ := a1 why ok hstep
        simp only [pairLoop, if_pos hi, hstep]
        refine ⟨fun why1 ok1 h => ?_, fun p1 h => ?_⟩
        · cases h
          exact ⟨b1, s1 (b2 _)⟩
        · cases h
      | cont q =>
        obtain ⟨i1, p2⟩ := q
        obtain ⟨b1, b2, b3, b4, b5, b6⟩ := a2 i1 p2 hstep
        obtain ⟨c1, c2⟩ := ih (i1 + 2) p2 b3
          (fun j hj => by rw [b4 j (by omega)]; exact hagree j (by omega)) (b6 hl)
        simp only [pairLoop, if_pos hi, hstep]
        rw [s2 i1 _ _ b1]
        exact ⟨c1, c2⟩
    · simp only [pairLoop, pairLoopCopy, if_neg hi]
      refine ⟨fun why ok h => ?_, fun p1 h => ?_⟩
      · cases h
      · cases h
        exact ⟨rfl, hl⟩

/-- C15. For every buffer content `bs`, every symbol count `bitidx`, every
warning count at entry and either polarity, the pairing loop that stores its
output bits into the working buffer and the same loop with its loads taken
from an unmodified copy of the buffer take the same exit: either both leave
through `return 0`, or both reach the end with the same output bits (the
first `bit2idx` cells of the working buffer) and the same warning count. The
reason is that an iteration at cursor `i` stores at an index `bit2idx` with
`2 * bit2idx <= i`, and leaves every cell from `i + 2` on unchanged. -/
theorem in_place_pairing_equals_copy (len invert bitidx warnings : Nat) (bs : List Nat)
    (ok : Bool) :
    (∀ why ok1, pairLoop len invert bitidx bitidx 0
        { bit2idx := 0, warnings := warnings, bitStream := bs, ok := ok } = Step.abort why ok1 →
      why = Abort.decodeErrors ∧ pairLoopCopy bs invert bitidx bitidx 0 [] warnings = none) ∧
    (∀ p, pairLoop len invert bitidx bitidx 0
        { bit2idx := 0, warnings := warnings, bitStream := bs, ok := ok } = Step.cont p →
      pairLoopCopy bs invert bitidx bitidx 0 [] warnings =
        some (p.bitStream.take p.bit2idx, p.warnings) ∧
      (p.bitStream.take p.bit2idx).length = p.bit2idx) ∧
    (∀ i p i1 p1, 2 * p.bit2idx ≤ i → pairStep len invert i p = Step.cont (i1, p1) →
      2 * p1.bit2idx ≤ i1 + 2 ∧
      ∀ j, i + 2 ≤ j → p1.bitStream.getD j 0 = p.bitStream.getD j 0) := by
  obtain ⟨a1, a2⟩ := pairLoop_copy bs len invert bitidx bitidx 0
    { bit2idx := 0, warnings := warnings, bitStream := bs, ok := ok } (le_refl _)
    (fun _ _ => rfl) (Nat.zero_le _)
  simp only [List.take_zero] at a1 a2
  refine ⟨a1, fun p h => ?_, ?_⟩
  · obtain ⟨b1, b2⟩ := a2 p h
    refine ⟨b1, ?_⟩
    rw [List.length_take]
    omega
  · intro i p i1 p1 h2 h
    obtain ⟨_, c2⟩ := pairStep_copy p.bitStream len invert i p h2 rfl rfl
    obtain ⟨_, _, d3, d4, _, _⟩ := c2 i1 p1 h
    exact ⟨d3, d4⟩

theorem in_place_pairing_equals_copy_witness :
    (∀ why ok1, pairLoop 17 0 8 8 0
        { bit2idx := 0, warnings := 1, bitStream := [0, 0, 0, 1, 0, 1, 0, 1, 0, 0, 0, 0, 0, 0, 0, 0, 0],
          ok := true } = Step.abort why ok1 →
      why = Abort.decodeErrors ∧
      pairLoopCopy [0, 0, 0, 1, 0, 1, 0, 1, 0, 0, 0, 0, 0, 0, 0, 0, 0] 0 8 8 0 [] 1 = none) ∧
    (∀ p, pairLoop 17 0 8 8 0
        { bit2idx := 0, warnings := 1, bitStream := [0, 0, 0, 1, 0, 1, 0, 1, 0, 0, 0, 0, 0, 0, 0, 0, 0],
          ok := true } = Step.cont p →
      pairLoopCopy [0, 0, 0, 1, 0, 1, 0, 1, 0, 0, 0, 0, 0, 0, 0, 0, 0] 0 8 8 0 [] 1 =
        some (p.bitStream.take p.bit2idx, p.warnings) ∧
      (p.bitStream.take p.bit2idx).length = p.bit2idx) ∧
    (∀ i p i1 p1, 2 * p.bit2idx ≤ i → pairStep 17 0 i p = Step.cont (i1, p1) →
      2 * p1.bit2idx ≤ i1 + 2 ∧
      ∀ j, i + 2 ≤ j → p1.bitStream.getD j 0 = p.bitStream.getD j 0) :=
  in_place_pairing_equals_copy 17 0 8 1 [0, 0, 0, 1, 0, 1, 0, 1, 0, 0, 0, 0, 0, 0, 0, 0, 0] true

end UI
